import Mathlib

/-!
# A shallow embedding of the CDCL solver core of `minisat_viz`

This file embeds the solver engine found in
`src/minisat/core/comparative_analysis.cc` (the `Solver.cc` part of the
translation unit) as executable Lean definitions, and proves the properties
claimed by the specification about it.

Modelling conventions:
* C++ `double` fields are modelled as `ℚ`.  All arithmetic the engine
  performs on them (products, quotients, comparisons against bounds such as
  `1e100`) stays in ranges where IEEE doubles behave like exact rationals
  for the properties proved here.
* Machine integers are modelled as `Nat` (for values that stay nonnegative)
  or `Int` (for values that may go negative, e.g. `simpDB_props`).
* Loops without a structural measure take a fuel argument and return
  `Option`; `none` means the fuel ran out (the C++ loop would have kept
  running).  Failure paths that would be undefined behaviour in C++
  (e.g. dereferencing `CRef_Undef`) also return `none`.
* `assert(...)` statements compile to nothing in release builds; they are
  dropped here except where the asserted condition guards an otherwise
  undefined dereference (those become `none`).
* I/O (printf / fprintf logging), the visualizer semaphores
  (`propagationDone` / `calculationDone`, `vizFlag`, `seenx`) and the
  metrics vectors sampled by the plotting thread are omitted: they do not
  affect the solver state read by any other engine operation.
* Small inline helpers that live in headers not present under `src/`
  (`Solver.h`, `SolverTypes.h`, `Heap.h`, `Sort.h`) are modelled from the
  specification; each such definition carries a doc comment saying so.
-/

namespace MinisatViz

/-- Variables are dense nonnegative indices (spec §3). -/
abbrev Var := Nat

/-- Literals in the packed MiniSat encoding: index `2*v + (sign ? 1 : 0)`.
Modelled from the spec: `Lit` is a (variable, sign) pair packed so that
complementation is a single bit flip and both polarities occupy adjacent
slots in watch-list tables (`SolverTypes.h` is not under `src/`). -/
abbrev Lit := Nat

/-- Modelled from the spec: literal constructor (`SolverTypes.h`). -/
def mkLit (v : Var) (s : Bool) : Lit := 2 * v + (if s then 1 else 0)

/-- Modelled from the spec: variable of a literal (`SolverTypes.h`). -/
def litVar (p : Lit) : Var := p / 2

/-- Modelled from the spec: sign of a literal (`SolverTypes.h`). -/
def litSign (p : Lit) : Bool := decide (p % 2 = 1)

/-- Modelled from the spec: complementation is a single bit flip
(`SolverTypes.h`). -/
def litNeg (p : Lit) : Lit := p ^^^ 1

/-- Modelled from the spec: the `sort` template of `Sort.h` (not under
`src/`) sorts ascending by a strict comparator `lt`; insertion step. -/
def isortInsert {α : Type} (lt : α → α → Bool) (x : α) : List α → List α
  | [] => [x]
  | y :: ys => if lt x y then x :: y :: ys else y :: isortInsert lt x ys

/-- Modelled from the spec: the `sort` template of `Sort.h` (not under
`src/`) — a comparison sort, realized as insertion sort so that the
definition evaluates by kernel reduction. -/
def isort {α : Type} (lt : α → α → Bool) : List α → List α
  | [] => []
  | x :: xs => isortInsert lt x (isort lt xs)

/-- The lifted Boolean `lbool` (spec §3): three-valued `{True, False, Undef}`. -/
inductive LBool where
  | t
  | f
  | undef
  deriving DecidableEq, Repr

/-- Modelled from the spec: `lbool(bool)` lifts a `bool` (`SolverTypes.h`). -/
def LBool.ofBool : Bool → LBool
  | true => .t
  | false => .f

/-- Modelled from the spec: `lbool ^ bool` flips the value when the flag is
set, `Undef` is a fixed point (`SolverTypes.h`). -/
def LBool.lxor : LBool → Bool → LBool
  | .t, true => .f
  | .f, true => .t
  | .undef, _ => .undef
  | x, false => x

/-- A clause record in the arena: literals, a learnt tag, an activity
(learnt clauses only), the `mark` bits (1 = deleted) and the relocation
forward pointer used during garbage collection.  The C++ clause stores the
forward pointer inside its first literal slot; an explicit `Option` field
holds it here, which is observationally the same because a relocated
record is only ever read through the forwarding path. -/
structure Clause where
  lits : List Lit
  learnt : Bool
  act : ℚ
  mark : Nat
  reloced : Option Nat
  deriving DecidableEq, Repr

instance : Inhabited Clause := ⟨⟨[], false, 0, 0, none⟩⟩

/-- Clause size in 32-bit region units: one header word, one word per
literal, and one extra word for the activity of a learnt clause.
Modelled from the spec §4.1 (`ClauseAllocator` lives in `SolverTypes.h`,
not under `src/`). -/
def Clause.units (c : Clause) : Nat :=
  1 + c.lits.length + (if c.learnt then 1 else 0)

/-- A watch-list entry: clause reference plus blocker literal (spec §3). -/
structure Watcher where
  cref : Nat
  blocker : Lit
  deriving DecidableEq, Repr

/-- Per-variable data: reason clause (`none` = `CRef_Undef`) and decision
level (spec §3). -/
structure VarData where
  reason : Option Nat
  level : Nat
  deriving DecidableEq, Repr

instance : Inhabited VarData := ⟨⟨none, 0⟩⟩

/-- Work-stack element of `litRedundant` (`Solver.h`): a position inside a
reason clause together with the literal whose reason is being scanned. -/
structure ShrinkStackElem where
  i : Nat
  l : Lit
  deriving DecidableEq, Repr

/-- The solver state: every field of `Minisat::Solver` that the embedded
operations read or write.  Clause references are indices into `ca`. -/
structure Solver where
  ok : Bool
  ca : List Clause
  caWasted : Nat
  clauses : List Nat
  learnts : List Nat
  watches : List (List Watcher)
  dirty : List Bool
  assigns : List LBool
  vardata : List VarData
  activity : List ℚ
  polarity : List Bool
  user_pol : List LBool
  decision : List Bool
  seen : List Nat
  trail : List Lit
  trail_lim : List Nat
  qhead : Nat
  order_heap : List Var
  assumptions : List Lit
  model : List LBool
  conflict : List Lit
  released_vars : List Var
  free_vars : List Var
  next_var : Nat
  analyze_toclear : List Lit
  analyze_stack : List ShrinkStackElem
  var_decay : ℚ
  clause_decay : ℚ
  random_var_freq : ℚ
  random_seed : ℚ
  luby_restart : Bool
  ccmin_mode : Nat
  phase_saving : Nat
  rnd_pol : Bool
  rnd_init_act : Bool
  garbage_frac : ℚ
  min_learnts_lim : Nat
  restart_first : Nat
  restart_inc : ℚ
  learntsize_factor : ℚ
  learntsize_inc : ℚ
  learntsize_adjust_start_confl : ℚ
  learntsize_adjust_inc : ℚ
  learntsize_adjust_confl : ℚ
  learntsize_adjust_cnt : Int
  max_learnts : ℚ
  remove_satisfied : Bool
  cla_inc : ℚ
  var_inc : ℚ
  simpDB_assigns : Int
  simpDB_props : Int
  progress_estimate : ℚ
  conflict_budget : Int
  propagation_budget : Int
  asynch_interrupt : Bool
  solves : Nat
  starts : Nat
  decisions : Nat
  rnd_decisions : Nat
  propagations : Nat
  conflicts : Nat
  dec_vars : Nat
  num_clauses : Nat
  num_learnts : Nat
  clauses_literals : Nat
  learnts_literals : Nat
  max_literals : Nat
  tot_literals : Nat
  curr_restarts : Nat
  averageActivity : ℚ

namespace Solver

/-- `Solver::Solver()` (lines 422-466): the constructor's initializer list,
with every option at its default value from the option registry
(lines 402-414). -/
def init : Solver where
  ok := true
  ca := []
  caWasted := 0
  clauses := []
  learnts := []
  watches := []
  dirty := []
  assigns := []
  vardata := []
  activity := []
  polarity := []
  user_pol := []
  decision := []
  seen := []
  trail := []
  trail_lim := []
  qhead := 0
  order_heap := []
  assumptions := []
  model := []
  conflict := []
  released_vars := []
  free_vars := []
  next_var := 0
  analyze_toclear := []
  analyze_stack := []
  var_decay := 95/100
  clause_decay := 999/1000
  random_var_freq := 0
  random_seed := 91648253
  luby_restart := true
  ccmin_mode := 2
  phase_saving := 2
  rnd_pol := false
  rnd_init_act := false
  garbage_frac := 1/5
  min_learnts_lim := 0
  restart_first := 100
  restart_inc := 2
  learntsize_factor := 1/3
  learntsize_inc := 11/10
  learntsize_adjust_start_confl := 100
  learntsize_adjust_inc := 3/2
  learntsize_adjust_confl := 0
  learntsize_adjust_cnt := 0
  max_learnts := 0
  remove_satisfied := true
  cla_inc := 1
  var_inc := 1
  simpDB_assigns := -1
  simpDB_props := 0
  progress_estimate := 0
  conflict_budget := -1
  propagation_budget := -1
  asynch_interrupt := false
  solves := 0
  starts := 0
  decisions := 0
  rnd_decisions := 0
  propagations := 0
  conflicts := 0
  dec_vars := 0
  num_clauses := 0
  num_learnts := 0
  clauses_literals := 0
  learnts_literals := 0
  max_literals := 0
  tot_literals := 0
  curr_restarts := 0
  averageActivity := 0

/-- Modelled from the spec: `value(Var)` reads the assignment table
(`Solver.h`). -/
def valueVar (s : Solver) (v : Var) : LBool :=
  s.assigns.getD v (.undef)

/-- Modelled from the spec: `value(Lit)` is the variable's value flipped by
the literal's sign (`Solver.h`). -/
def value (s : Solver) (p : Lit) : LBool :=
  (s.valueVar (litVar p)).lxor (litSign p)

/-- Clause lookup `ca[cr]`. -/
def clauseAt (s : Solver) (cr : Nat) : Clause :=
  s.ca.getD cr default

/-- The projection of a clause that garbage collection preserves
(everything except the relocation bookkeeping). -/
def cval (c : Clause) : List Lit × Bool × ℚ × Nat :=
  (c.lits, c.learnt, c.act, c.mark)

/-- Modelled from the spec: `decisionLevel()` is the number of trail
delimiters (`Solver.h`, spec §3). -/
def decisionLevel (s : Solver) : Nat := s.trail_lim.length

/-- Modelled from the spec: `nAssigns()` (`Solver.h`). -/
def nAssigns (s : Solver) : Nat := s.trail.length

/-- Modelled from the spec: `nClauses()` (`Solver.h`). -/
def nClauses (s : Solver) : Nat := s.num_clauses

/-- Modelled from the spec: `nLearnts()` (`Solver.h`). -/
def nLearnts (s : Solver) : Nat := s.num_learnts

/-- Modelled from the spec: `nVars()` (`Solver.h`). -/
def nVars (s : Solver) : Nat := s.next_var

/-- Modelled from the spec: `reason(Var)` (`Solver.h`). -/
def reasonOf (s : Solver) (v : Var) : Option Nat :=
  (s.vardata.getD v default).reason

/-- Modelled from the spec: `level(Var)` (`Solver.h`). -/
def levelOf (s : Solver) (v : Var) : Nat :=
  (s.vardata.getD v default).level

/-- Modelled from the spec: a clause is `locked` when it is currently the
reason of the assignment of its first literal (`Solver.h`, spec §4.5). -/
def locked (s : Solver) (cr : Nat) : Bool :=
  let c := s.clauseAt cr
  let c0 := c.lits.getD 0 0
  decide (s.value c0 = .t) && decide (s.reasonOf (litVar c0) = some cr)

/-- Modelled from the spec: `mkVarData` (`Solver.h`). -/
def mkVarData (reason : Option Nat) (level : Nat) : VarData := ⟨reason, level⟩

/-- Modelled from the spec: the pseudo-random double generator `drand`
(`Solver.h`).  The seed stays an integer below `2^31 · 1389796 < 2^52`, so
double arithmetic is exact and the update is an exact linear congruence. -/
def drand (seed : ℚ) : ℚ × ℚ :=
  let seed1 := seed * 1389796
  let q : ℤ := ⌊seed1 / 2147483647⌋
  let seed2 := seed1 - (q : ℚ) * 2147483647
  (seed2 / 2147483647, seed2)

/-- Modelled from the spec: `irand(seed, size)` (`Solver.h`). -/
def irand (seed : ℚ) (size : Nat) : Nat × ℚ :=
  let (d, seed1) := drand seed
  ((⌊d * size⌋).toNat, seed1)

/-- Modelled from the spec: the activity-ordered variable heap (`Heap.h` is
not under `src/`).  No claim proved here depends on the extraction order,
so the heap is modelled as the list of its members: `insert` appends and
`removeMin` pops the front. -/
def insertVarOrder (s : Solver) (x : Var) : Solver :=
  if x ∈ s.order_heap ∨ s.decision.getD x false = false then s
  else { s with order_heap := s.order_heap ++ [x] }

/-- Modelled from the spec: `varBumpActivity` adds `var_inc` to a
variable's activity and rescales everything by `1e-100` once activities
exceed `1e100` (`Solver.h`, spec §3). -/
def varBumpActivity (s : Solver) (v : Var) : Solver :=
  let a := s.activity.getD v 0 + s.var_inc
  let s := { s with activity := s.activity.set v a }
  if a > 10 ^ 100 then
    { s with activity := s.activity.map (fun x => x * (10 ^ 100)⁻¹),
             var_inc := s.var_inc * (10 ^ 100)⁻¹ }
  else s

/-- Modelled from the spec: `varDecayActivity` (`Solver.h`). -/
def varDecayActivity (s : Solver) : Solver :=
  { s with var_inc := s.var_inc * s.var_decay⁻¹ }

/-- Modelled from the spec: `claBumpActivity` adds `cla_inc` to a learnt
clause's activity and rescales all learnt activities by `1e-20` once one
exceeds `1e20` (`Solver.h`, spec §3). -/
def claBumpActivity (s : Solver) (cr : Nat) : Solver :=
  let c := s.clauseAt cr
  let a := c.act + s.cla_inc
  let s := { s with ca := s.ca.set cr { c with act := a } }
  if a > 10 ^ 20 then
    { s with ca := s.ca.map (fun c => if c.learnt then { c with act := c.act * (10 ^ 20)⁻¹ } else c),
             cla_inc := s.cla_inc * (10 ^ 20)⁻¹ }
  else s

/-- Modelled from the spec: `claDecayActivity` (`Solver.h`). -/
def claDecayActivity (s : Solver) : Solver :=
  { s with cla_inc := s.cla_inc * s.clause_decay⁻¹ }

/-- Modelled from the spec: `setDecisionVar` (`Solver.h`). -/
def setDecisionVar (s : Solver) (v : Var) (b : Bool) : Solver :=
  let old := s.decision.getD v false
  let s :=
    if b && !old then { s with dec_vars := s.dec_vars + 1 }
    else if !b && old then { s with dec_vars := s.dec_vars - 1 }
    else s
  let s := { s with decision := s.decision.set v b }
  s.insertVarOrder v

/-- Grow a list with a default so that position `v` exists, then set it:
the effect of `vec::insert(v, x)` / `IntMap::insert` on the per-variable
tables (`Vec.h` / `IntMap.h`, modelled from the spec's data model §3). -/
def listInsert {α : Type} (l : List α) (v : Nat) (x : α) (dflt : α) : List α :=
  (l ++ List.replicate (v + 1 - l.length) dflt).set v x

/-- `Solver::newVar` (lines 497-516). -/
def newVar (s : Solver) (upol : LBool) (dvar : Bool) : Var × Solver :=
  let (v, s) :=
    match s.free_vars.getLast? with
    | some v => (v, { s with free_vars := s.free_vars.dropLast })
    | none => (s.next_var, { s with next_var := s.next_var + 1 })
  let s := { s with
    watches := listInsert (listInsert s.watches (mkLit v false) [] []) (mkLit v true) [] [],
    dirty := listInsert (listInsert s.dirty (mkLit v false) false false) (mkLit v true) false false,
    assigns := listInsert s.assigns v .undef .undef,
    vardata := listInsert s.vardata v (mkVarData none 0) default,
    activity := listInsert s.activity v
      (if s.rnd_init_act then ((drand s.random_seed).1) * (1/100000) else 0) 0,
    random_seed := if s.rnd_init_act then (drand s.random_seed).2 else s.random_seed,
    seen := listInsert s.seen v 0 0,
    polarity := listInsert s.polarity v true true,
    user_pol := listInsert s.user_pol v upol .undef,
    decision := listInsert s.decision v (s.decision.getD v false) false }
  (v, s.setDecisionVar v dvar)

/-- Push a watcher onto the bucket of a literal
(`watches[p].push(w)`). -/
def pushWatch (s : Solver) (p : Lit) (w : Watcher) : Solver :=
  { s with watches := s.watches.set p ((s.watches.getD p []) ++ [w]) }

/-- `Solver::attachClause` (lines 556-570). -/
def attachClause (s : Solver) (cr : Nat) : Solver :=
  let c := s.clauseAt cr
  let c0 := c.lits.getD 0 0
  let c1 := c.lits.getD 1 0
  let s := s.pushWatch (litNeg c0) ⟨cr, c1⟩
  let s := s.pushWatch (litNeg c1) ⟨cr, c0⟩
  if c.learnt then
    { s with num_learnts := s.num_learnts + 1,
             learnts_literals := s.learnts_literals + c.lits.length }
  else
    { s with num_clauses := s.num_clauses + 1,
             clauses_literals := s.clauses_literals + c.lits.length }

/-- Modelled from the spec: `OccLists::smudge` marks a bucket dirty
(`SolverTypes.h`, spec §4.2). -/
def smudge (s : Solver) (p : Lit) : Solver :=
  { s with dirty := s.dirty.set p true }

/-- Modelled from the spec: a watcher is dead when its clause has been
marked deleted (`WatcherDeleted`, `Solver.h`). -/
def watcherDeleted (s : Solver) (w : Watcher) : Bool :=
  decide ((s.clauseAt w.cref).mark = 1)

/-- Modelled from the spec: `OccLists::clean` filters the dead watchers out
of one bucket and clears its dirty flag (`SolverTypes.h`, spec §4.2). -/
def cleanBucket (s : Solver) (p : Lit) : Solver :=
  if s.dirty.getD p false then
    { s with
      watches := s.watches.set p ((s.watches.getD p []).filter (fun w => !s.watcherDeleted w)),
      dirty := s.dirty.set p false }
  else s

/-- Modelled from the spec: `OccLists::cleanAll` sweeps every dirty bucket
(`SolverTypes.h`, spec §4.2). -/
def cleanAll (s : Solver) : Solver :=
  (List.range s.watches.length).foldl (fun s p => s.cleanBucket p) s

/-- `Solver::detachClause` (lines 573-593); `strict` defaults to false, so
the watches are smudged rather than eagerly removed. -/
def detachClause (s : Solver) (cr : Nat) (strict : Bool) : Solver :=
  let c := s.clauseAt cr
  let c0 := c.lits.getD 0 0
  let c1 := c.lits.getD 1 0
  let s :=
    if strict then
      let w1 := (s.watches.getD (litNeg c0) []).erase ⟨cr, c1⟩
      let s := { s with watches := s.watches.set (litNeg c0) w1 }
      let w2 := (s.watches.getD (litNeg c1) []).erase ⟨cr, c0⟩
      { s with watches := s.watches.set (litNeg c1) w2 }
    else
      (s.smudge (litNeg c0)).smudge (litNeg c1)
  if c.learnt then
    { s with num_learnts := s.num_learnts - 1,
             learnts_literals := s.learnts_literals - c.lits.length }
  else
    { s with num_clauses := s.num_clauses - 1,
             clauses_literals := s.clauses_literals - c.lits.length }

/-- Modelled from the spec §4.1: `RegionAllocator::free` only adds the
record's size to the wasted count (`SolverTypes.h`). -/
def caFree (s : Solver) (cr : Nat) : Solver :=
  { s with caWasted := s.caWasted + (s.clauseAt cr).units }

/-- Total allocated region size `ca.size()` in units (spec §4.1). -/
def caSize (s : Solver) : Nat :=
  (s.ca.map Clause.units).sum

/-- `Solver::removeClause` (lines 596-602). -/
def removeClause (s : Solver) (cr : Nat) : Solver :=
  let s := s.detachClause cr false
  let s :=
    if s.locked cr then
      let c0 := (s.clauseAt cr).lits.getD 0 0
      let vd := { s.vardata.getD (litVar c0) default with reason := none }
      { s with vardata := s.vardata.set (litVar c0) vd }
    else s
  let s := { s with ca := s.ca.set cr { s.clauseAt cr with mark := 1 } }
  s.caFree cr

/-- `Solver::satisfied` (lines 605-609). -/
def satisfied (s : Solver) (c : Clause) : Bool :=
  c.lits.any (fun l => decide (s.value l = .t))

/-- `Solver::cancelUntil` (lines 612-625): undo the trail above `level`.
The C++ loop walks trail positions from the top down to
`trail_lim[level]`; the position `c` itself enters the
`phase_saving == 1` condition. -/
def cancelUntil (s : Solver) (level : Nat) : Solver :=
  if s.decisionLevel > level then
    let bound := s.trail_lim.getD level 0
    let idxs := (List.range' bound (s.trail.length - bound)).reverse
    let s1 := idxs.foldl
      (fun s c =>
        let p := s.trail.getD c 0
        let x := litVar p
        let s := { s with assigns := s.assigns.set x .undef }
        let s :=
          if s.phase_saving > 1 ∨
             (s.phase_saving = 1 ∧ c > s.trail_lim.getD (s.trail_lim.length - 1) 0) then
            { s with polarity := s.polarity.set x (litSign p) }
          else s
        s.insertVarOrder x) s
    { s1 with qhead := bound,
              trail := s1.trail.take bound,
              trail_lim := s1.trail_lim.take level }
  else s

/-- Modelled from the spec: `newDecisionLevel()` pushes a trail delimiter
(`Solver.h`, spec §3). -/
def newDecisionLevel (s : Solver) : Solver :=
  { s with trail_lim := s.trail_lim ++ [s.trail.length] }

/-- `Solver::uncheckedEnqueue` (lines 874-879). -/
def uncheckedEnqueue (s : Solver) (p : Lit) (from_ : Option Nat) : Solver :=
  { s with
    assigns := s.assigns.set (litVar p) (LBool.ofBool !(litSign p)),
    vardata := s.vardata.set (litVar p) (mkVarData from_ s.decisionLevel),
    trail := s.trail ++ [p] }

/-- The replacement-watch scan of `propagate` (lines 921-927), walking the
suffix of the literal list that starts at the scan position: the position
of the first literal that is not false. -/
def findNonFalseAux (s : Solver) : List Lit → Nat → Option Nat
  | [], _ => none
  | l :: ls, k => if s.value l ≠ .f then some k else findNonFalseAux s ls (k + 1)

/-- The replacement-watch scan of `propagate` (lines 921-927): the first
position `k ≥ start` whose literal is not false. -/
def findNonFalse (s : Solver) (lits : List Lit) (k : Nat) : Option Nat :=
  findNonFalseAux s (lits.drop k) k

/-- The watched-slot normalization of `propagate` (line 912): make sure
the falsified literal sits in slot 1, swapping slots 0 and 1 in the arena
if needed. -/
def propNormalize (s : Solver) (cr : Nat) (false_lit : Lit) : Solver × Clause :=
  let c := s.clauseAt cr
  if c.lits.getD 0 0 = false_lit then
    let c1 := { c with lits := (c.lits.set 0 (c.lits.getD 1 0)).set 1 false_lit }
    ({ s with ca := s.ca.set cr c1 }, c1)
  else (s, c)

/-- The inner watcher loop of `Solver::propagate` (lines 903-937):
rewrites the bucket of the newly assigned literal `p` in place.  `kept` is
the prefix already written through the `j` pointer; the result is the
final bucket contents, the updated solver and the conflict reference, if
any.  (In C++ a push onto the bucket being traversed would invalidate the
`i`/`j` pointers — undefined behaviour; here the traversal works on the
snapshot taken at entry.) -/
def propInner (p : Lit) : Solver → List Watcher → List Watcher →
    Solver × List Watcher × Option Nat
  | s, [], kept => (s, kept, none)
  | s, w :: rest, kept =>
    if s.value w.blocker = .t then
      propInner p s rest (kept ++ [w])
    else
      let cr := w.cref
      let false_lit := litNeg p
      let step := propNormalize s cr false_lit
      let s := step.1
      let c := step.2
      let first := c.lits.getD 0 0
      let w1 : Watcher := ⟨cr, first⟩
      if first ≠ w.blocker ∧ s.value first = .t then
        propInner p s rest (kept ++ [w1])
      else
        match findNonFalse s c.lits 2 with
        | some k =>
          let c2 := { c with lits := (c.lits.set 1 (c.lits.getD k 0)).set k false_lit }
          let s := { s with ca := s.ca.set cr c2 }
          let s := s.pushWatch (litNeg (c2.lits.getD 1 0)) w1
          propInner p s rest kept
        | none =>
          if s.value first = .f then
            ({ s with qhead := s.trail.length }, kept ++ [w1] ++ rest, some cr)
          else
            propInner p (s.uncheckedEnqueue first (some cr)) rest (kept ++ [w1])

/-- The outer `while (qhead < trail.size())` loop of `Solver::propagate`
(lines 898-939), with fuel.  `confl` and the local counter `num_props`
are threaded through the iterations. -/
def propagateAux : Nat → Solver → Option Nat → Nat → Option (Option Nat × Solver)
  | 0, _, _, _ => none
  | fuel + 1, s, confl, num_props =>
    if s.qhead < s.trail.length then
      let p := s.trail.getD s.qhead 0
      let s := { s with qhead := s.qhead + 1 }
      let s := s.cleanBucket p
      let ws := s.watches.getD p []
      let res := propInner p s ws []
      let s := res.1
      let s := { s with watches := s.watches.set p res.2.1 }
      let confl := match res.2.2 with
        | some cr => some cr
        | none => confl
      propagateAux fuel s confl (num_props + 1)
    else
      some (confl, { s with propagations := s.propagations + num_props,
                            simpDB_props := s.simpDB_props - num_props })

/-- `Solver::propagate` (lines 894-943). -/
def propagate (fuel : Nat) (s : Solver) : Option (Option Nat × Solver) :=
  propagateAux fuel s none 0

/-- The run of `propagate` raises no conflict: every pass of the inner
watcher loop reports `CRef_Undef`.  The recursion mirrors `propagateAux`
step for step. -/
def propNoConfl : Nat → Solver → Bool
  | 0, _ => true
  | fuel + 1, s =>
    if s.qhead < s.trail.length then
      let p := s.trail.getD s.qhead 0
      let s := { s with qhead := s.qhead + 1 }
      let s := s.cleanBucket p
      let ws := s.watches.getD p []
      let res := propInner p s ws []
      let s := res.1
      let s := { s with watches := s.watches.set p res.2.1 }
      decide (res.2.2 = none) && propNoConfl fuel s
    else true

/-- Modelled from the spec: `sort(ps)` in `addClause_` orders the literals
by their packed encoding (`Sort.h` is not under `src/`; the engine relies
only on equal and complementary literals becoming adjacent, which any
sort by literal index achieves). -/
def sortLits (ps : List Lit) : List Lit :=
  isort (fun a b => decide (a < b)) ps

/-- The literal-simplification loop of `Solver::addClause_`
(lines 533-539): drop false and duplicate literals, return `none` (the
early `return true`) when the clause is satisfied or tautological.
`p` is the last kept literal, `acc` the kept prefix. -/
def addClauseSimp (s : Solver) : Option Lit → List Lit → List Lit → Option (List Lit)
  | _, [], acc => some acc
  | p, cur :: rest, acc =>
    if s.value cur = .t ∨ p = some (litNeg cur) then none
    else if s.value cur ≠ .f ∧ p ≠ some cur then
      addClauseSimp s (some cur) rest (acc ++ [cur])
    else
      addClauseSimp s p rest acc

/-- Modelled from the spec §4.1: `ClauseAllocator::alloc` appends a fresh
record and returns its reference (`SolverTypes.h`).  A learnt clause
starts with activity 0. -/
def allocClause (s : Solver) (lits : List Lit) (learnt : Bool) : Nat × Solver :=
  (s.ca.length, { s with ca := s.ca ++ [⟨lits, learnt, 0, 0, none⟩] })

/-- `Solver::addClause_` (lines 529-553).  The `vec<Lit>& ps` argument is
the caller's scratch buffer whose final contents are not observable
through the solver, so only the return value and the solver state are
produced. -/
def addClause_ (fuel : Nat) (s : Solver) (ps0 : List Lit) : Option (Bool × Solver) :=
  if s.ok = false then some (false, s)
  else
    let ps := sortLits ps0
    match addClauseSimp s none ps [] with
    | none => some (true, s)
    | some ps1 =>
      match ps1 with
      | [] => some (false, { s with ok := false })
      | [u] =>
        let s := s.uncheckedEnqueue u none
        match propagate fuel s with
        | none => none
        | some (confl, s) =>
          some (decide (confl = none), { s with ok := decide (confl = none) })
      | _ :: _ :: _ =>
        let step := s.allocClause ps1 false
        let s := { step.2 with clauses := step.2.clauses ++ [step.1] }
        let s := s.attachClause step.1
        some (true, s)

/-- Modelled from the spec: the public `addClause(Lit)` wrapper copies the
single literal into the scratch buffer and calls `addClause_`
(`Solver.h`). -/
def addClause1 (fuel : Nat) (s : Solver) (p : Lit) : Option (Bool × Solver) :=
  addClause_ fuel s [p]

/-- `Solver::releaseVar` (lines 521-526). -/
def releaseVar (fuel : Nat) (s : Solver) (l : Lit) : Option Solver :=
  if s.value l = .undef then
    match addClause1 fuel s l with
    | none => none
    | some (_, s) => some { s with released_vars := s.released_vars ++ [litVar l] }
  else some s

/-- Whether the while-condition of `pickBranchLit`'s pop loop holds:
no candidate yet, or the candidate is assigned or not a decision
variable. -/
def pickInvalid (s : Solver) (next : Option Var) : Bool :=
  match next with
  | none => true
  | some v => decide (s.valueVar v ≠ .undef) || !s.decision.getD v false

/-- The pop loop of `pickBranchLit` (lines 679-685): pop `removeMin` until
an unassigned decision variable surfaces, or the heap empties. -/
def pickLoop (s : Solver) (next : Option Var) : Solver × Option Var :=
  if pickInvalid s next then
    match h : s.order_heap with
    | [] => (s, none)
    | v :: rest => pickLoop { s with order_heap := rest } (some v)
  else (s, next)
termination_by s.order_heap.length
decreasing_by simp [h]

/-- The random-pick preamble of `pickBranchLit` (lines 674-678): draw
`drand`, optionally pick a random heap entry as the candidate. -/
def pickBranchPre (s : Solver) : Solver × Option Var :=
  let d1 := drand s.random_seed
  let s := { s with random_seed := d1.2 }
  if d1.1 < s.random_var_freq ∧ s.order_heap ≠ [] then
    let r := irand s.random_seed s.order_heap.length
    let s := { s with random_seed := r.2 }
    let nv := s.order_heap.getD r.1 0
    let s :=
      if s.valueVar nv = .undef ∧ s.decision.getD nv false then
        { s with rnd_decisions := s.rnd_decisions + 1 }
      else s
    (s, some nv)
  else (s, none)

/-- The polarity selection of `pickBranchLit` (lines 686-689). -/
def pickPolarity (s : Solver) (v : Var) : Solver × Option Lit :=
  if s.user_pol.getD v .undef ≠ .undef then
    (s, some (mkLit v (decide (s.user_pol.getD v .undef = .t))))
  else if s.rnd_pol then
    let d2 := drand s.random_seed
    ({ s with random_seed := d2.2 }, some (mkLit v (decide (d2.1 < 1/2))))
  else (s, some (mkLit v (s.polarity.getD v true)))

/-- `Solver::pickBranchLit` (lines 673-690). -/
def pickBranchLit (s : Solver) : Solver × Option Lit :=
  let step := pickBranchPre s
  let step2 := pickLoop step.1 step.2
  match step2.2 with
  | none => (step2.1, none)
  | some v => pickPolarity step2.1 v

/-- The trail walk `while (!seen[var(trail[index--])]);` of `analyze`
(line 732): the largest position `≤ i` whose variable is seen, or `none`
if the walk runs off the bottom of the trail (out-of-bounds access in
C++, unreachable in legal states). -/
def findSeenIndex (s : Solver) : Nat → Option Nat
  | 0 => if s.seen.getD (litVar (s.trail.getD 0 0)) 0 ≠ 0 then some 0 else none
  | i + 1 =>
    if s.seen.getD (litVar (s.trail.getD (i + 1) 0)) 0 ≠ 0 then some (i + 1)
    else findSeenIndex s i

/-- The reason-clause scan of the `analyze` resolution loop
(lines 722-731): mark and bump unseen literals above level 0, counting
current-level ones in `pathC` and pushing the others onto the learnt
clause. -/
def analyzeScan (s : Solver) (lits : List Lit) (pathC : Nat) (out : List Lit) :
    Solver × Nat × List Lit :=
  lits.foldl
    (fun (acc : Solver × Nat × List Lit) q =>
      let s := acc.1
      if s.seen.getD (litVar q) 0 = 0 ∧ s.levelOf (litVar q) > 0 then
        let s := s.varBumpActivity (litVar q)
        let s := { s with seen := s.seen.set (litVar q) 1 }
        if s.levelOf (litVar q) ≥ s.decisionLevel then (s, acc.2.1 + 1, acc.2.2)
        else (s, acc.2.1, acc.2.2 ++ [q])
      else (s, acc.2.1, acc.2.2))
    (s, pathC, out)

/-- The `do … while (pathC > 0)` resolution loop of `Solver::analyze`
(lines 717-739), with fuel.  Returns the final solver, the first-UIP
literal `p` and the pushed non-asserting literals.  Dereferencing
`CRef_Undef` (the asserted condition at line 718) yields `none`. -/
def analyzeLoop : Nat → Solver → Option Nat → Option Lit → Nat → List Lit → Nat →
    Option (Solver × Lit × List Lit)
  | 0, _, _, _, _, _, _ => none
  | fuel + 1, s, confl, p, pathC, out, index =>
    match confl with
    | none => none
    | some cr =>
      let s := if (s.clauseAt cr).learnt then s.claBumpActivity cr else s
      let c := s.clauseAt cr
      let start : Nat := match p with | none => 0 | some _ => 1
      let res := analyzeScan s (c.lits.drop start) pathC out
      let s := res.1
      match findSeenIndex s index with
      | none => none
      | some idx =>
        let p1 := s.trail.getD idx 0
        let confl1 := s.reasonOf (litVar p1)
        let s := { s with seen := s.seen.set (litVar p1) 0 }
        let pathC := res.2.1 - 1
        if pathC > 0 then analyzeLoop fuel s confl1 (some p1) pathC res.2.2 (idx - 1)
        else some (s, p1, res.2.2)

/-- The failure path of `litRedundant` (lines 804-811): mark every
still-undef stack literal (and `p` itself, pushed as element `(0, p)`)
as `seen_failed` and record it for clearing. -/
def litRedundantFail (s : Solver) (p : Lit) : Solver :=
  let s := { s with analyze_stack := s.analyze_stack ++ [(⟨0, p⟩ : ShrinkStackElem)] }
  s.analyze_stack.foldl
    (fun (s : Solver) (e : ShrinkStackElem) =>
      if s.seen.getD (litVar e.l) 0 = 0 then
        { s with seen := s.seen.set (litVar e.l) 3,
                 analyze_toclear := s.analyze_toclear ++ [e.l] }
      else s)
    s

/-- The main loop of `Solver::litRedundant` (lines 797-830), with fuel.
`clits` are the literals of the reason clause of the current `p`; the
seen tags are 0 = undef, 1 = source, 2 = removable, 3 = failed. -/
def litRedundantLoop : Nat → Solver → Lit → List Lit → Nat → Option (Solver × Bool)
  | 0, _, _, _, _ => none
  | fuel + 1, s, p, clits, i =>
    if i < clits.length then
      let l := clits.getD i 0
      if s.levelOf (litVar l) = 0 ∨ s.seen.getD (litVar l) 0 = 1 ∨
         s.seen.getD (litVar l) 0 = 2 then
        litRedundantLoop fuel s p clits (i + 1)
      else if s.reasonOf (litVar l) = none ∨ s.seen.getD (litVar l) 0 = 3 then
        some (litRedundantFail s p, false)
      else
        match s.reasonOf (litVar l) with
        | none => none
        | some cr1 =>
          let s := { s with analyze_stack := s.analyze_stack ++ [⟨i, p⟩] }
          litRedundantLoop fuel s l (s.clauseAt cr1).lits 1
    else
      let s :=
        if s.seen.getD (litVar p) 0 = 0 then
          { s with seen := s.seen.set (litVar p) 2,
                   analyze_toclear := s.analyze_toclear ++ [p] }
        else s
      match s.analyze_stack.getLast? with
      | none => some (s, true)
      | some e =>
        let s := { s with analyze_stack := s.analyze_stack.dropLast }
        match s.reasonOf (litVar e.l) with
        | none => none
        | some cr2 => litRedundantLoop fuel s e.l (s.clauseAt cr2).lits (e.i + 1)

/-- `Solver::litRedundant` (lines 788-832). -/
def litRedundant (fuel : Nat) (s : Solver) (p : Lit) : Option (Solver × Bool) :=
  match s.reasonOf (litVar p) with
  | none => none
  | some cr =>
    let s := { s with analyze_stack := [] }
    litRedundantLoop fuel s p (s.clauseAt cr).lits 1

/-- The `ccmin_mode == 2` minimization pass of `analyze`
(lines 744-748): keep a literal when it has no reason or is not
redundant. -/
def ccmin2Filter (fuel : Nat) : Solver → List Lit → List Lit →
    Option (Solver × List Lit)
  | s, [], acc => some (s, acc)
  | s, l :: rest, acc =>
    match s.reasonOf (litVar l) with
    | none => ccmin2Filter fuel s rest (acc ++ [l])
    | some _ =>
      match litRedundant fuel s l with
      | none => none
      | some (s, red) =>
        if red then ccmin2Filter fuel s rest acc
        else ccmin2Filter fuel s rest (acc ++ [l])

/-- The `ccmin_mode == 1` minimization pass of `analyze`
(lines 750-765): keep a literal whose reason contains an unseen literal
above level 0. -/
def ccmin1Filter (s : Solver) : List Lit → List Lit → List Lit
  | [], acc => acc
  | l :: rest, acc =>
    match s.reasonOf (litVar l) with
    | none => ccmin1Filter s rest (acc ++ [l])
    | some cr =>
      if ((s.clauseAt cr).lits.drop 1).any
          (fun q => decide (s.seen.getD (litVar q) 0 = 0) &&
                    decide (s.levelOf (litVar q) > 0)) then
        ccmin1Filter s rest (acc ++ [l])
      else ccmin1Filter s rest acc

/-- The backjump-level selection at the end of `Solver::analyze`
(lines 772-781): level 0 for a unit clause, otherwise the maximum level
among the non-UIP literals, whose carrier is swapped into position 1. -/
def selectBtLevel (s : Solver) (out : List Lit) : List Lit × Nat :=
  if out.length = 1 then (out, 0)
  else
    let max_i := (List.range' 2 (out.length - 2)).foldl
      (fun m i =>
        if s.levelOf (litVar (out.getD i 0)) > s.levelOf (litVar (out.getD m 0)) then i
        else m) 1
    let p := out.getD max_i 0
    let out := (out.set max_i (out.getD 1 0)).set 1 p
    (out, s.levelOf (litVar p))

/-- The final `seen[]` clearing of `analyze` (line 783). -/
def clearSeen (s : Solver) : Solver :=
  { s with seen := s.analyze_toclear.foldl (fun sn l => sn.set (litVar l) 0) s.seen }

/-- `Solver::analyze` (lines 712-784): first-UIP conflict analysis with
optional self-subsumption minimization.  Returns the learnt clause and
the backjump level. -/
def analyze (fuel : Nat) (s : Solver) (confl : Nat) :
    Option (List Lit × Nat × Solver) :=
  match analyzeLoop fuel s (some confl) none 0 [] (s.trail.length - 1) with
  | none => none
  | some (s, p, pushed) =>
    let outL := litNeg p :: pushed
    let s := { s with analyze_toclear := outL }
    let minRes : Option (Solver × List Lit) :=
      if s.ccmin_mode = 2 then
        match ccmin2Filter fuel s pushed [] with
        | none => none
        | some (s, keptTail) => some (s, keptTail)
      else if s.ccmin_mode = 1 then
        some (s, ccmin1Filter s pushed [])
      else some (s, pushed)
    match minRes with
    | none => none
    | some (s, tailM) =>
      let outM := litNeg p :: tailM
      let s := { s with max_literals := s.max_literals + outL.length }
      let s := { s with tot_literals := s.tot_literals + outM.length }
      let sel := selectBtLevel s outM
      let s := s.clearSeen
      some (sel.1, sel.2, s)

/-- Modelled from the spec: `LSet::insert` adds a literal to the conflict
set (`SolverTypes.h`); membership-deduplicating insertion. -/
def lsetInsert (l : List Lit) (x : Lit) : List Lit :=
  if x ∈ l then l else l ++ [x]

/-- `Solver::analyzeFinal` (lines 846-871): express the final conflict in
terms of assumptions.  Returns the updated solver and the conflict set. -/
def analyzeFinal (s : Solver) (p : Lit) : Solver × List Lit :=
  let conf := lsetInsert [] p
  if s.decisionLevel = 0 then (s, conf)
  else
    let s := { s with seen := s.seen.set (litVar p) 1 }
    let lim0 := s.trail_lim.getD 0 0
    let idxs := (List.range' lim0 (s.trail.length - lim0)).reverse
    let res := idxs.foldl
      (fun (acc : Solver × List Lit) i =>
        let s := acc.1
        let conf := acc.2
        let x := litVar (s.trail.getD i 0)
        if s.seen.getD x 0 ≠ 0 then
          let step : Solver × List Lit :=
            match s.reasonOf x with
            | none => (s, lsetInsert conf (litNeg (s.trail.getD i 0)))
            | some cr =>
              (((s.clauseAt cr).lits.drop 1).foldl
                (fun s q =>
                  if s.levelOf (litVar q) > 0 then
                    { s with seen := s.seen.set (litVar q) 1 }
                  else s) s, conf)
          ({ step.1 with seen := step.1.seen.set x 0 }, step.2)
        else (s, conf))
      (s, conf)
    ({ res.1 with seen := res.1.seen.set (litVar p) 0 }, res.2)

/-- Modelled from the spec §4.7: `ClauseAllocator::reloc` — copy the
record into the new arena on the first visit, store a forwarding
reference in the old record, and return the new reference
(`SolverTypes.h`; the C++ stores the forward pointer inside the record's
first literal slot, the explicit field here is observationally the same
because a relocated record is only read through the forwarding path). -/
def reloc (oldCa : List Clause) (toCa : List Clause) (cr : Nat) :
    Nat × List Clause × List Clause :=
  let c := oldCa.getD cr default
  match c.reloced with
  | some ncr => (ncr, oldCa, toCa)
  | none =>
    let ncr := toCa.length
    (ncr, oldCa.set cr { c with reloced := some ncr }, toCa ++ [{ c with reloced := none }])

/-- The watcher pass of `Solver::relocAll` (lines 1388-1396): relocate
every watcher reference of every literal, in variable-major order. -/
def relocWatches (s : Solver) (toCa : List Clause) : Solver × List Clause :=
  (List.range (2 * s.next_var)).foldl
    (fun (acc : Solver × List Clause) p =>
      let s := acc.1
      let res := (s.watches.getD p []).foldl
        (fun (acc2 : List Watcher × List Clause × List Clause) w =>
          let r := reloc acc2.2.1 acc2.2.2 w.cref
          (acc2.1 ++ [{ w with cref := r.1 }], r.2.1, r.2.2))
        ([], s.ca, acc.2)
      ({ s with ca := res.2.1, watches := s.watches.set p res.1 }, res.2.2))
    (s, toCa)

/-- The reason pass of `Solver::relocAll` (lines 1398-1406): relocate the
reason of every trail variable that is already relocated or locked. -/
def relocReasons (s : Solver) (toCa : List Clause) : Solver × List Clause :=
  s.trail.foldl
    (fun (acc : Solver × List Clause) p =>
      let s := acc.1
      let v := litVar p
      match s.reasonOf v with
      | none => (s, acc.2)
      | some cr =>
        if (s.clauseAt cr).reloced ≠ none ∨ s.locked cr then
          let r := reloc s.ca acc.2 cr
          let vd := { s.vardata.getD v default with reason := some r.1 }
          ({ s with ca := r.2.1, vardata := s.vardata.set v vd }, r.2.2)
        else (s, acc.2))
    (s, toCa)

/-- The learnt/original passes of `Solver::relocAll` (lines 1408-1425):
drop removed references, relocate the rest in order. -/
def relocCRefList (oldCa : List Clause) (toCa : List Clause) (l : List Nat) :
    List Nat × List Clause × List Clause :=
  l.foldl
    (fun (acc : List Nat × List Clause × List Clause) cr =>
      if (acc.2.1.getD cr default).mark = 1 then acc
      else
        let r := reloc acc.2.1 acc.2.2 cr
        (acc.1 ++ [r.1], r.2.1, r.2.2))
    ([], oldCa, toCa)

/-- `Solver::relocAll` (lines 1385-1426). -/
def relocAll (s : Solver) : Solver × List Clause :=
  let s := s.cleanAll
  let r1 := relocWatches s []
  let r2 := relocReasons r1.1 r1.2
  let r3 := relocCRefList r2.1.ca r2.2 r2.1.learnts
  let s := { r2.1 with ca := r3.2.1, learnts := r3.1 }
  let r4 := relocCRefList s.ca r3.2.2 s.clauses
  ({ s with ca := r4.2.1, clauses := r4.1 }, r4.2.2)

/-- Stage view of `relocAll`: the state after the watcher pass. -/
def gcW (s : Solver) : Solver × List Clause := relocWatches s.cleanAll []

/-- Stage view of `relocAll`: the state after the reason pass. -/
def gcR (s : Solver) : Solver × List Clause := relocReasons (gcW s).1 (gcW s).2

/-- Stage view of `relocAll`: the learnt-reference pass. -/
def gcL (s : Solver) : List Nat × List Clause × List Clause :=
  relocCRefList (gcR s).1.ca (gcR s).2 (gcR s).1.learnts

/-- Stage view of `relocAll`: the original-clause reference pass. -/
def gcC (s : Solver) : List Nat × List Clause × List Clause :=
  relocCRefList (gcL s).2.1 (gcL s).2.2 (gcR s).1.clauses

/-- `Solver::garbageCollect` (lines 1432-1438): relocate everything into a
fresh arena and swap it in (`moveTo` resets the wasted count). -/
def garbageCollect (s : Solver) : Solver :=
  let r := s.relocAll
  { r.1 with ca := r.2, caWasted := 0 }

/-- Modelled from the spec §4.1: `checkGarbage()` collects once the wasted
fraction exceeds `garbage_frac` (`Solver.h`). -/
def checkGarbage (s : Solver) : Solver :=
  if (s.caWasted : ℚ) > (s.caSize : ℚ) * s.garbage_frac then s.garbageCollect else s

/-- The comparison functor `reduceDB_lt` (lines 955-961). -/
def reduceDB_lt (s : Solver) (x y : Nat) : Bool :=
  decide ((s.clauseAt x).lits.length > 2) &&
    (decide ((s.clauseAt y).lits.length = 2) ||
     decide ((s.clauseAt x).act < (s.clauseAt y).act))

/-- Modelled from the spec §4.5: `sort(learnts, reduceDB_lt(ca))` orders
the learnt references ascending by the comparator (`Sort.h` is not under
`src/`; a merge sort realizes the same specification). -/
def sortLearnts (s : Solver) : List Nat :=
  isort (reduceDB_lt s) s.learnts

/-- `Solver::reduceDB` (lines 964-977). -/
def reduceDB (s : Solver) : Solver :=
  let extra_lim : ℚ := s.cla_inc / (s.learnts.length : ℚ)
  let sorted := sortLearnts s
  let n := sorted.length
  let res := sorted.enum.foldl
    (fun (acc : Solver × List Nat) ic =>
      let s := acc.1
      let c := s.clauseAt ic.2
      if c.lits.length > 2 ∧ s.locked ic.2 = false ∧ (ic.1 < n / 2 ∨ c.act < extra_lim) then
        (s.removeClause ic.2, acc.2)
      else (s, acc.2 ++ [ic.2]))
    (s, [])
  let s := { res.1 with learnts := res.2 }
  s.checkGarbage

/-- The false-literal shrinking loop inside `removeSatisfied`
(lines 987-992): starting at position 2, a false literal is overwritten
by the last literal, which is then popped and the position retried. -/
def shrinkClauseLits (s : Solver) (k : Nat) (lits : List Lit) : List Lit :=
  if h : k < lits.length then
    if s.value (lits.getD k 0) = .f then
      shrinkClauseLits s k ((lits.set k (lits.getD (lits.length - 1) 0)).dropLast)
    else shrinkClauseLits s (k + 1) lits
  else lits
termination_by 2 * lits.length - k
decreasing_by
  · simp only [List.length_dropLast, List.length_set]
    omega
  · omega

/-- `Solver::removeSatisfied` (lines 980-997).  The C++ takes the clause
vector by reference; `which = true` selects `learnts`, `false` selects
`clauses`. -/
def removeSatisfied (s : Solver) (which : Bool) : Solver :=
  let cs := if which then s.learnts else s.clauses
  let res := cs.foldl
    (fun (acc : Solver × List Nat) cr =>
      let s := acc.1
      let c := s.clauseAt cr
      if s.satisfied c then (s.removeClause cr, acc.2)
      else
        let newLits := shrinkClauseLits s 2 c.lits
        let s := { s with ca := s.ca.set cr { c with lits := newLits } }
        (s, acc.2 ++ [cr]))
    (s, [])
  if which then { res.1 with learnts := res.2 } else { res.1 with clauses := res.2 }

/-- `Solver::rebuildOrderHeap` (lines 1000-1007); `Heap::build(vs)`
replaces the heap contents by `vs`. -/
def rebuildOrderHeap (s : Solver) : Solver :=
  let vs := (List.range s.nVars).filter
    (fun v => s.decision.getD v false && decide (s.valueVar v = .undef))
  { s with order_heap := vs }

/-- The `remove_satisfied` branch of `Solver::simplify` (lines 1036-1049):
sweep the problem clauses too, then retire the released variables —
their trail entries are filtered out via the `seen` markers and they move
to the free list. -/
def simplifyRelease (s : Solver) : Solver :=
  let s := s.removeSatisfied false
  let s := s.released_vars.foldl
    (fun (s : Solver) v => { s with seen := s.seen.set v 1 }) s
  let keptTrail := s.trail.filter (fun p => decide (s.seen.getD (litVar p) 0 = 0))
  let s := { s with trail := keptTrail, qhead := keptTrail.length }
  let s := s.released_vars.foldl
    (fun (s : Solver) v => { s with seen := s.seen.set v 0 }) s
  { s with free_vars := s.free_vars ++ s.released_vars, released_vars := [] }

/-- The removal tail of `Solver::simplify` (lines 1032-1053): sweep the
learnt clauses, and — when `remove_satisfied` is on — the problem
clauses and the release bookkeeping, then collect garbage, rebuild the
heap and stamp the next simplification threshold. -/
def simplifyBody (s : Solver) : Solver :=
  let s := s.removeSatisfied true
  let s := if s.remove_satisfied then s.simplifyRelease else s
  let s := s.checkGarbage
  let s := s.rebuildOrderHeap
  { s with simpDB_assigns := (s.nAssigns : Int),
           simpDB_props := (s.clauses_literals : Int) + (s.learnts_literals : Int) }

/-- `Solver::simplify` (lines 1023-1054). -/
def simplify (fuel : Nat) (s : Solver) : Option (Bool × Solver) :=
  if s.ok = false then some (false, { s with ok := false })
  else
    match propagate fuel s with
    | none => none
    | some (confl, s) =>
      if confl ≠ none then some (false, { s with ok := false })
      else if (s.nAssigns : Int) = s.simpDB_assigns ∨ s.simpDB_props > 0 then some (true, s)
      else some (true, s.simplifyBody)

/-- Modelled from the spec §5: `withinBudget()` (`Solver.h`). -/
def withinBudget (s : Solver) : Bool :=
  !s.asynch_interrupt &&
    (decide (s.conflict_budget < 0) || decide ((s.conflicts : Int) < s.conflict_budget)) &&
    (decide (s.propagation_budget < 0) || decide ((s.propagations : Int) < s.propagation_budget))

/-- `Solver::progressEstimate` (lines 1160-1169).  (With no variables the
C++ divides by zero in doubles; `ℚ` yields 0 instead — the value is only
reported, never branched on.) -/
def progressEstimate (s : Solver) : ℚ :=
  let F : ℚ := 1 / (s.nVars : ℚ)
  let progress := (List.range (s.decisionLevel + 1)).foldl
    (fun acc i =>
      let beg := if i = 0 then 0 else s.trail_lim.getD (i - 1) 0
      let en := if i = s.decisionLevel then s.trail.length else s.trail_lim.getD i 0
      acc + F ^ i * ((en : ℚ) - (beg : ℚ)))
    0
  progress / (s.nVars : ℚ)

end Solver

/-- Outcome of one iteration of the `for (;;)` loop of `search`. -/
inductive SearchStep where
  | again (s : Solver) (conflictC : Nat)
  | done (r : LBool) (s : Solver)

namespace Solver

/-- The assumption-processing loop of `search` (lines 1131-1144): either
a branching literal is produced (`none` when every assumption is already
enqueued and a heuristic decision is needed) or the search ends
`l_False`. -/
def assumpLoop : Nat → Solver → Option (Sum (Solver × Option Lit) (LBool × Solver))
  | 0, _ => none
  | fuel + 1, s =>
    if s.decisionLevel < s.assumptions.length then
      let p := s.assumptions.getD s.decisionLevel 0
      if s.value p = .t then assumpLoop fuel s.newDecisionLevel
      else if s.value p = .f then
        let r := s.analyzeFinal (litNeg p)
        some (.inr (.f, { r.1 with conflict := r.2 }))
      else some (.inl (s, some p))
    else some (.inl (s, none))

/-- The decision tail of one iteration of `Solver::search`
(lines 1130-1155): process the assumptions, then pick and enqueue the
next branching literal. -/
def searchDecide (fuel : Nat) (s : Solver) (conflictC : Nat) : Option SearchStep :=
  match assumpLoop fuel s with
  | none => none
  | some (.inr r) => some (.done r.1 r.2)
  | some (.inl (s, nextA)) =>
    match nextA with
    | some nx =>
      let s := s.newDecisionLevel
      some (.again (s.uncheckedEnqueue nx none) conflictC)
    | none =>
      let s := { s with decisions := s.decisions + 1 }
      let pick := s.pickBranchLit
      match pick.2 with
      | none => some (.done .t pick.1)
      | some nx =>
        let s := pick.1
        let s := { s with
          averageActivity := s.averageActivity + s.activity.getD (litVar nx) 0 }
        let s := s.newDecisionLevel
        some (.again (s.uncheckedEnqueue nx none) conflictC)

/-- One iteration of the `for (;;)` loop of `Solver::search`
(lines 1078-1156).  The periodic statistics print (lines 1102-1116) has
no solver-state effect and is omitted. -/
def searchBody (fuel : Nat) (s : Solver) (nof_conflicts : Int) (conflictC : Nat) :
    Option SearchStep :=
  match propagate fuel s with
  | none => none
  | some (confl, s) =>
    match confl with
    | some cr =>
      let s := { s with conflicts := s.conflicts + 1 }
      let conflictC := conflictC + 1
      if s.decisionLevel = 0 then some (.done .f s)
      else
        match s.analyze fuel cr with
        | none => none
        | some (learnt_clause, backtrack_level, s) =>
          let s := s.cancelUntil backtrack_level
          let s :=
            match learnt_clause with
            | [u] => s.uncheckedEnqueue u none
            | _ =>
              let step := s.allocClause learnt_clause true
              let s := { step.2 with learnts := step.2.learnts ++ [step.1] }
              let s := s.attachClause step.1
              let s := s.claBumpActivity step.1
              s.uncheckedEnqueue (learnt_clause.getD 0 0) (some step.1)
          let s := s.varDecayActivity
          let s := s.claDecayActivity
          let s := { s with learntsize_adjust_cnt := s.learntsize_adjust_cnt - 1 }
          let s :=
            if s.learntsize_adjust_cnt = 0 then
              let confl2 := s.learntsize_adjust_confl * s.learntsize_adjust_inc
              { s with learntsize_adjust_confl := confl2,
                       learntsize_adjust_cnt := ⌊confl2⌋,
                       max_learnts := s.max_learnts * s.learntsize_inc }
            else s
          some (.again s conflictC)
    | none =>
      if (0 ≤ nof_conflicts ∧ (conflictC : Int) ≥ nof_conflicts) ∨ s.withinBudget = false then
        let s := { s with progress_estimate := s.progressEstimate }
        some (.done .undef (s.cancelUntil 0))
      else
        match (if s.decisionLevel = 0 then simplify fuel s else some (true, s)) with
        | none => none
        | some (ok1, s) =>
          if ok1 = false then some (.done .f s)
          else
            let s :=
              if (((s.learnts.length : Int) - (s.nAssigns : Int) : Int) : ℚ) ≥ s.max_learnts
              then s.reduceDB else s
            searchDecide fuel s conflictC

/-- The fueled `for (;;)` loop of `Solver::search`. -/
def searchLoop : Nat → Solver → Int → Nat → Option (LBool × Solver)
  | 0, _, _, _ => none
  | fuel + 1, s, nof, cC =>
    match searchBody fuel s nof cC with
    | none => none
    | some (.done r s) => some (r, s)
    | some (.again s cC1) => searchLoop fuel s nof cC1

/-- `Solver::search` (lines 1071-1157). -/
def search (fuel : Nat) (s : Solver) (nof_conflicts : Int) : Option (LBool × Solver) :=
  let s := { s with starts := s.starts + 1 }
  searchLoop fuel s nof_conflicts 0

end Solver

/-- The first loop of `luby` (line 1186): find the finite subsequence
containing index `x`, returning its size and ordinal. -/
def lubySizeLoop (x : Nat) (size seq : Nat) : Nat × Nat :=
  if size < x + 1 then lubySizeLoop x (2 * size + 1) (seq + 1) else (size, seq)
termination_by x + 1 - size
decreasing_by omega

/-- The second loop of `luby` (lines 1188-1192).  `size` is always of the
form `2 ^ (seq + 1) - 1 ≥ 1` at every call reached from `luby`; the
`size = 0` branch only makes the recursion well-founded. -/
def lubyWhileLoop (x size : Nat) (seq : Int) : Int :=
  if size = 0 then seq
  else if size - 1 = x then seq
  else lubyWhileLoop (x % ((size - 1) / 2)) ((size - 1) / 2) (seq - 1)
termination_by size
decreasing_by omega

/-- `luby(y, x)` (lines 1181-1195). -/
def luby (y : ℚ) (x : Nat) : ℚ :=
  let r := lubySizeLoop x 1 0
  y ^ lubyWhileLoop x r.1 (r.2 : Int)

/-- Structural floor base-2 logarithm (fuel-indexed helper; the fuel is
always sufficient at `log2f`). -/
def log2fAux : Nat → Nat → Nat
  | 0, _ => 0
  | fuel + 1, n => if n < 2 then 0 else 1 + log2fAux fuel (n / 2)

/-- Floor of the base-2 logarithm, computed structurally so that it
evaluates by kernel reduction. -/
def log2f (n : Nat) : Nat := log2fAux n n

/-- Fuel-indexed helper for `lubySeq`; the fuel is always sufficient at
`lubySeq` because the recursion strictly decreases its argument. -/
def lubySeqAux : Nat → Nat → Nat
  | 0, _ => 0
  | fuel + 1, x =>
    if 2 ^ log2f (x + 2) = x + 2 then log2f (x + 2) - 1
    else lubySeqAux fuel (x - (2 ^ log2f (x + 2) - 1))

/-- Modelled from the spec (§4.5 and glossary): the exponent of the
standard Luby recurrence, 0-indexed, so the restart sequence is
`2 ^ lubySeq i` = 1,1,2,1,1,2,4,…  When `x = 2^k − 2` (the last index of a
finite subsequence) the exponent is `k − 1`; otherwise the tail of the
subsequence repeats the sequence from its start. -/
def lubySeq (x : Nat) : Nat := lubySeqAux (x + 1) x

namespace Solver

/-- The restart budget expression of `solve_`'s loop (lines 1228-1229):
`rest_base * restart_first` for the current restart ordinal. -/
def restartBudget (s : Solver) (i : Nat) : ℚ :=
  (if s.luby_restart then luby s.restart_inc i else s.restart_inc ^ i) * (s.restart_first : ℚ)

/-- The `while (status == l_Undef)` restart loop of `solve_`
(lines 1227-1232), with fuel.  The implicit double-to-int conversion of
the search budget truncates; the budget is nonnegative, so truncation is
`⌊·⌋`. -/
def solveLoop : Nat → Solver → LBool → Option (LBool × Solver)
  | 0, _, _ => none
  | fuel + 1, s, status =>
    if status ≠ .undef then some (status, s)
    else
      match search fuel s ⌊s.restartBudget s.curr_restarts⌋ with
      | none => none
      | some (status, s) =>
        if s.withinBudget = false then some (status, s)
        else solveLoop fuel { s with curr_restarts := s.curr_restarts + 1 } status

/-- `Solver::solve_` (lines 1198-1251).  The banner printing
(lines 1210-1224, 1234-1240) and the visualizer bookkeeping (`seenx`,
line 1226) have no effect on engine state and are omitted. -/
def solve_ (fuel : Nat) (s : Solver) : Option (LBool × Solver) :=
  let s := { s with model := [], conflict := [] }
  if s.ok = false then some (.f, s)
  else
    let s := { s with solves := s.solves + 1 }
    let ml := (s.nClauses : ℚ) * s.learntsize_factor
    let s := { s with max_learnts := if ml < (s.min_learnts_lim : ℚ) then (s.min_learnts_lim : ℚ) else ml }
    let s := { s with learntsize_adjust_confl := s.learntsize_adjust_start_confl }
    let s := { s with learntsize_adjust_cnt := ⌊s.learntsize_adjust_confl⌋ }
    match solveLoop fuel s .undef with
    | none => none
    | some (status, s) =>
      let s :=
        if status = .t then
          { s with model := (List.range s.nVars).map (fun v => s.valueVar v) }
        else if status = .f ∧ s.conflict.length = 0 then { s with ok := false }
        else s
      some (status, s.cancelUntil 0)

end Solver

/-!
## Concrete states used by the witnesses -/

/-- A fresh solver with one decision variable. -/
def W1 : Solver := (Solver.init.newVar .undef true).2

/-- A fresh solver with two decision variables. -/
def W2 : Solver := (W1.newVar .undef true).2

/-- `W1` with variable 0 assigned true (as by a level-0 unit). -/
def W1t : Solver :=
  { W1 with assigns := [LBool.t], trail := [mkLit 0 false], qhead := 1 }

/-- The solver produced by adding the unit clause `x0` to `W1`. -/
def W1addRes : Bool × Solver := (Solver.addClause_ 5 W1 [mkLit 0 false]).getD (false, W1)

/-- A two-variable state set up for a one-step conflict analysis: the
conflicting clause 0 holds a level-0 literal of variable 0, the trail
tops with variable 1 already marked `seen`, and `ccmin_mode = 0`. -/
def W3 : Solver :=
  { W2 with
    ca := [⟨[mkLit 0 false], false, 0, 0, none⟩],
    assigns := [LBool.f, LBool.t],
    vardata := [⟨none, 0⟩, ⟨none, 1⟩],
    seen := [0, 1],
    trail := [mkLit 1 false],
    trail_lim := [0],
    qhead := 1,
    ccmin_mode := 0 }

/-- The (clause, backjump level, state) produced by `analyze` on `W3`. -/
def W3res : List Lit × Nat × Solver := (Solver.analyze 3 W3 0).getD ([], 0, W3)

/-- A two-variable state in which propagating literal `¬x1` (index 3)
through the watcher of clause 0 (`x1 ∨ x0`, both false) hits a conflict:
no replacement watch exists and the first literal is false. -/
def WP : Solver :=
  { W2 with
    ca := [⟨[mkLit 1 false, mkLit 0 false], false, 0, 0, none⟩],
    assigns := [LBool.f, LBool.f],
    vardata := [⟨none, 0⟩, ⟨none, 0⟩],
    trail := [mkLit 0 true, mkLit 1 true],
    qhead := 2 }

/-- The fresh one-variable solver raised to decision level 1 with an
empty trail: propagation is a no-op on it. -/
def W4 : Solver := { W1 with trail_lim := [0] }

/-- The state produced by the vacuous propagation on `W4`. -/
def W4p : Solver := ((Solver.propagate 1 W4).getD (none, W4)).2

/-- A level-0 one-variable solver holding the satisfied unit clause `x0`
on which a simplification round has not yet been earned:
`simpDB_props > 0` makes `simplify` take its early heuristic exit. -/
def W6 : Solver :=
  { W1 with
    ca := [⟨[mkLit 0 false], false, 0, 0, none⟩],
    clauses := [0],
    assigns := [LBool.t],
    vardata := [⟨none, 0⟩],
    trail := [mkLit 0 false],
    qhead := 1,
    simpDB_props := 1 }

/-- The state `simplify` returns on `W6` (the early-exit path). -/
def W6p : Solver := ((Solver.simplify 1 W6).getD (true, W6)).2

/-- A two-variable level-0 state ready for a real simplification round:
variable 0 is assigned true, problem clause 0 (`x0`) is satisfied,
problem clause 1 (`x1`) and the learnt clause 2 (`¬x0 ∨ x1`) are not,
and the `simpDB` counters let `simplify` reach the removal passes. -/
def W7 : Solver :=
  { W2 with
    ca := [⟨[mkLit 0 false], false, 0, 0, none⟩,
           ⟨[mkLit 1 false], false, 0, 0, none⟩,
           ⟨[mkLit 0 true, mkLit 1 false], true, 0, 0, none⟩],
    clauses := [0, 1],
    learnts := [2],
    assigns := [LBool.t, LBool.undef],
    vardata := [⟨none, 0⟩, ⟨none, 0⟩],
    trail := [mkLit 0 false],
    qhead := 1 }

/-- The no-conflict state `propagate` reaches on `W7` (the queue is
already empty, so only the propagation counters move). -/
def W7p : Solver := ((Solver.propagate 1 W7).getD (none, W7)).2

/-!
## Basic frame lemmas

Projections of the solver state that the propagation machinery never
touches. -/

namespace Solver

/-- Length of the `vardata` table (used to carry bounds through states). -/
def vardataLen (s : Solver) : Nat := s.vardata.length

/-- Two solver states agree on the stored clause contents (literals and
activities), position by position, over the whole arena. -/
def caContentEq (s0 s1 : Solver) : Prop :=
  ∀ j : Nat, (s1.clauseAt j).lits = (s0.clauseAt j).lits ∧
    (s1.clauseAt j).act = (s0.clauseAt j).act

/-- Arena extension: the second arena keeps every record of the first at
its position and only appends. -/
def caExt (t1 t2 : List Clause) : Prop :=
  t1.length ≤ t2.length ∧ ∀ n, n < t1.length → t2.getD n default = t1.getD n default

/-- The invariant of a relocation pass, relative to the arena contents
`ca0` at entry to the garbage collection: the old arena still carries the
entry literals and marks at every position, and every forwarding pointer
already stored leads to a record of the new arena with the same
literals. -/
def relocInv (ca0 oldCa toCa : List Clause) : Prop :=
  (∀ j : Nat, (oldCa.getD j default).lits = (ca0.getD j default).lits ∧
    (oldCa.getD j default).mark = (ca0.getD j default).mark) ∧
  (∀ j n : Nat, (oldCa.getD j default).reloced = some n →
    n < toCa.length ∧ (toCa.getD n default).lits = (ca0.getD j default).lits)

/-- Projections of the solver state untouched by propagation. -/
def propFrame (s : Solver) :=
  (s.ok, s.clauses, s.learnts, s.trail_lim, s.released_vars, s.free_vars,
   s.model, s.conflict, s.assumptions, s.next_var, s.decision, s.order_heap,
   s.vardataLen)

end Solver

namespace Solver

theorem propNormalize_frame (s : Solver) (cr : Nat) (fl : Lit) :
    (propNormalize s cr fl).1.propFrame = s.propFrame ∧
    (propNormalize s cr fl).1.trail = s.trail ∧
    (propNormalize s cr fl).1.assigns = s.assigns ∧
    (propNormalize s cr fl).1.vardata = s.vardata := by
  unfold propNormalize
  dsimp only
  split <;> simp [propFrame, vardataLen]

theorem uncheckedEnqueue_frame (s : Solver) (p : Lit) (r : Option Nat) :
    (s.uncheckedEnqueue p r).propFrame = s.propFrame ∧
    (s.uncheckedEnqueue p r).trail = s.trail ++ [p] := by
  simp [uncheckedEnqueue, propFrame, vardataLen]

theorem propInner_frame (p : Lit) (s : Solver) (ws kept : List Watcher) :
    (propInner p s ws kept).1.propFrame = s.propFrame ∧
    (∃ t, (propInner p s ws kept).1.trail = s.trail ++ t) := by
  induction ws generalizing s kept with
  | nil => exact ⟨rfl, [], by simp [propInner]⟩
  | cons w rest ih =>
    simp only [propInner]
    split
    · exact ih ..
    · have hn := propNormalize_frame s w.cref (litNeg p)
      split
      · refine ⟨(ih ..).1.trans hn.1, ?_⟩
        obtain ⟨t, ht⟩ := (ih ..).2
        exact ⟨t, by rw [ht, hn.2.1]⟩
      · split
        · rename_i k hk
          have hpush : ∀ (q : Lit) (w1 : Watcher) (s1 : Solver),
              (s1.pushWatch q w1).propFrame = s1.propFrame ∧
              (s1.pushWatch q w1).trail = s1.trail := by
            intro q w1 s1
            simp [pushWatch, propFrame, vardataLen]
          refine ⟨(ih ..).1.trans ?_, ?_⟩
          · rw [(hpush ..).1]
            simp only [propFrame, vardataLen] at hn ⊢
            simp_all [propFrame, vardataLen]
          · obtain ⟨t, ht⟩ := (ih ..).2
            refine ⟨t, ?_⟩
            rw [ht, (hpush ..).2]
            simp only at hn
            rw [hn.2.1]
        · split
          · refine ⟨?_, [], ?_⟩
            · simpa [propFrame, vardataLen] using hn.1
            · simpa using hn.2.1
          · refine ⟨(ih ..).1.trans (((uncheckedEnqueue_frame ..).1).trans hn.1), ?_⟩
            obtain ⟨t, ht⟩ := (ih ..).2
            exact ⟨[(propNormalize s w.cref (litNeg p)).2.lits.getD 0 0] ++ t,
              by rw [ht, (uncheckedEnqueue_frame ..).2, hn.2.1]; simp⟩

theorem cleanBucket_frame (s : Solver) (p : Lit) :
    (s.cleanBucket p).propFrame = s.propFrame ∧
    (s.cleanBucket p).trail = s.trail ∧
    (s.cleanBucket p).qhead = s.qhead := by
  unfold cleanBucket
  split <;> simp [propFrame, vardataLen]

theorem propagateAux_frame (fuel : Nat) (s : Solver) (confl : Option Nat)
    (np : Nat) (res : Option Nat × Solver)
    (h : propagateAux fuel s confl np = some res) :
    res.2.propFrame = s.propFrame ∧ ∃ t, res.2.trail = s.trail ++ t := by
  induction fuel generalizing s confl np with
  | zero => simp [propagateAux] at h
  | succ fuel ih =>
    rw [propagateAux] at h
    split at h
    · have hcb := cleanBucket_frame { s with qhead := s.qhead + 1 } (s.trail.getD s.qhead 0)
      set s1 := ({ s with qhead := s.qhead + 1 } : Solver).cleanBucket (s.trail.getD s.qhead 0)
      have hpi := propInner_frame (s.trail.getD s.qhead 0) s1 (s1.watches.getD (s.trail.getD s.qhead 0) []) []
      set r := propInner (s.trail.getD s.qhead 0) s1 (s1.watches.getD (s.trail.getD s.qhead 0) []) []
      have := ih _ _ _ h
      constructor
      · refine this.1.trans ?_
        have : ({ r.1 with watches := r.1.watches.set (s.trail.getD s.qhead 0) r.2.1 } : Solver).propFrame
            = r.1.propFrame := by simp [propFrame, vardataLen]
        rw [this, hpi.1, hcb.1]
        simp [propFrame, vardataLen]
      · obtain ⟨t1, ht1⟩ := this.2
        obtain ⟨t2, ht2⟩ := hpi.2
        refine ⟨t2 ++ t1, ?_⟩
        rw [ht1]
        have hw : ({ r.1 with watches := r.1.watches.set (s.trail.getD s.qhead 0) r.2.1 } : Solver).trail
            = r.1.trail := rfl
        rw [hw, ht2, hcb.2.1]
        simp
    · cases h
      exact ⟨by simp [propFrame, vardataLen], [], by simp⟩

theorem propagate_frame (fuel : Nat) (s : Solver) (res : Option Nat × Solver)
    (h : propagate fuel s = some res) :
    res.2.propFrame = s.propFrame ∧ ∃ t, res.2.trail = s.trail ++ t :=
  propagateAux_frame fuel s none 0 res h

/-- `addClause_` never touches `released_vars`. -/
theorem addClause_released (fuel : Nat) (s : Solver) (ps : List Lit)
    (b : Bool) (s1 : Solver) (h : addClause_ fuel s ps = some (b, s1)) :
    s1.released_vars = s.released_vars := by
  unfold addClause_ at h
  split at h
  · cases h; rfl
  · dsimp only at h
    split at h
    · cases h; rfl
    · split at h
      · cases h; rfl
      · rename_i ps1 u heq
        split at h
        · exact absurd h (by simp)
        · rename_i r hprop
          cases h
          have := (propagate_frame _ _ _ hprop).1
          have h2 := congrArg (fun x => x.2.2.2.2.1) this
          simp [propFrame] at h2
          rw [h2]
          rfl
      · cases h
        unfold attachClause
        dsimp only
        split <;> rfl

/-- Overwriting `ok` with its current value is the identity. -/
theorem update_ok_self (s : Solver) (h : s.ok = false) :
    ({ s with ok := false } : Solver) = s := by
  rw [← h]

theorem insertVarOrder_ok (s : Solver) (x : Var) : (s.insertVarOrder x).ok = s.ok := by
  unfold insertVarOrder
  split <;> rfl

theorem setDecisionVar_ok (s : Solver) (v : Var) (b : Bool) :
    (s.setDecisionVar v b).ok = s.ok := by
  unfold setDecisionVar
  dsimp only
  rw [insertVarOrder_ok]
  split
  · rfl
  · split <;> rfl

/-- `newVar` does not touch the `ok` latch. -/
theorem newVar_ok (s : Solver) (upol : LBool) (dvar : Bool) :
    (s.newVar upol dvar).2.ok = s.ok := by
  unfold newVar
  dsimp only
  split <;> (dsimp only; rw [setDecisionVar_ok])

/-- C1: once the solver has derived a top-level inconsistency the
`ok` flag is latched false and every subsequent public call short
circuits: `solve_` returns `l_False` immediately (only the `model` and
`conflict` outputs are cleared, no search runs), `addClause_` returns
false without modifying the clause database, `simplify` returns false,
and neither `releaseVar` nor `newVar` ever resets the latch. -/
theorem c1_ok_latch (fuel : Nat) (s : Solver) (ps : List Lit) (l : Lit)
    (upol : LBool) (dvar : Bool) (h : s.ok = false) :
    solve_ fuel s = some (.f, { s with model := [], conflict := [] }) ∧
    addClause_ fuel s ps = some (false, s) ∧
    simplify fuel s = some (false, s) ∧
    (∀ s1, releaseVar fuel s l = some s1 → s1.ok = false) ∧
    (s.newVar upol dvar).2.ok = false := by
  have hadd : addClause_ fuel s ps = some (false, s) := by
    unfold addClause_
    simp [h]
  refine ⟨?_, hadd, ?_, ?_, ?_⟩
  · unfold solve_
    simp [h]
  · unfold simplify
    rw [if_pos h, update_ok_self _ h]
  · intro s1 hrel
    unfold releaseVar at hrel
    split at hrel
    · have hadd1 : addClause_ fuel s [l] = some (false, s) := by
        unfold addClause_
        simp [h]
      rw [addClause1, hadd1] at hrel
      cases hrel
      exact h
    · cases hrel
      exact h
  · rw [newVar_ok]
    exact h

/-- Witness for C1 at a concrete latched state. -/
theorem c1_ok_latch_witness :
    solve_ 1 { W1 with ok := false } =
      some (.f, { { W1 with ok := false } with model := [], conflict := [] }) ∧
    addClause_ 1 { W1 with ok := false } [mkLit 0 false] =
      some (false, { W1 with ok := false }) ∧
    simplify 1 { W1 with ok := false } = some (false, { W1 with ok := false }) ∧
    (∀ s1, releaseVar 1 { W1 with ok := false } (mkLit 0 false) = some s1 → s1.ok = false) ∧
    (({ W1 with ok := false } : Solver).newVar .undef true).2.ok = false :=
  c1_ok_latch 1 { W1 with ok := false } [mkLit 0 false] (mkLit 0 false) .undef true rfl

/-- C10: calling `releaseVar` on a literal whose variable is already
assigned leaves the entire solver state unchanged — no unit clause is
added, nothing is propagated and the variable is not appended to
`released_vars`; only on an unassigned literal does `releaseVar` add the
unit clause and record the variable for release. -/
theorem c10_releaseVar_frame (fuel : Nat) (s : Solver) (l : Lit) :
    (s.value l ≠ .undef → releaseVar fuel s l = some s) ∧
    (∀ b s1, s.value l = .undef → addClause_ fuel s [l] = some (b, s1) →
      releaseVar fuel s l =
        some { s1 with released_vars := s.released_vars ++ [litVar l] }) := by
  constructor
  · intro h
    unfold releaseVar
    simp [h]
  · intro b s1 h hadd
    unfold releaseVar
    rw [if_pos h, addClause1, hadd]
    dsimp only
    rw [addClause_released fuel s [l] b s1 hadd]

/-- Witness for C10: an assigned literal is a no-op, an unassigned one is
recorded. -/
theorem c10_releaseVar_frame_witness :
    releaseVar 5 W1t (mkLit 0 false) = some W1t ∧
    releaseVar 5 W1 (mkLit 0 false) =
      some { W1addRes.2 with released_vars := W1.released_vars ++ [litVar (mkLit 0 false)] } :=
  ⟨(c10_releaseVar_frame 5 W1t (mkLit 0 false)).1 (by decide),
   (c10_releaseVar_frame 5 W1 (mkLit 0 false)).2 W1addRes.1 W1addRes.2 (by decide) rfl⟩

end Solver

/-!
## The Luby sequence (claim C5) -/

theorem log2fAux_stable : ∀ (f g n : Nat), n ≤ f → n ≤ g →
    log2fAux f n = log2fAux g n := by
  intro f
  induction f with
  | zero =>
    intro g n hf _
    interval_cases n
    cases g <;> simp [log2fAux]
  | succ f ih =>
    intro g n hf hg
    match g with
    | 0 =>
      interval_cases n
      simp [log2fAux]
    | g + 1 =>
      simp only [log2fAux]
      split
      · rfl
      · rename_i hn
        rw [ih g (n / 2) (by omega) (by omega)]

theorem log2fAux_spec : ∀ (f n : Nat), 1 ≤ n → n ≤ f →
    2 ^ log2fAux f n ≤ n ∧ n < 2 ^ (log2fAux f n + 1) := by
  intro f
  induction f with
  | zero => omega
  | succ f ih =>
    intro n h1 hf
    simp only [log2fAux]
    split
    · rename_i hlt
      simp
      omega
    · rename_i hge
      obtain ⟨ha, hb⟩ := ih (n / 2) (by omega) (by omega)
      constructor
      · calc 2 ^ (1 + log2fAux f (n / 2)) = 2 * 2 ^ log2fAux f (n / 2) := by
              rw [Nat.pow_add, Nat.pow_one]
          _ ≤ 2 * (n / 2) := by omega
          _ ≤ n := by omega
      · have : 2 ^ (1 + log2fAux f (n / 2) + 1) = 2 * 2 ^ (log2fAux f (n / 2) + 1) := by
          rw [show 1 + log2fAux f (n / 2) + 1 = (log2fAux f (n / 2) + 1) + 1 by omega,
            Nat.pow_succ]
          omega
        omega

theorem log2f_spec (n : Nat) (h1 : 1 ≤ n) :
    2 ^ log2f n ≤ n ∧ n < 2 ^ (log2f n + 1) :=
  log2fAux_spec n n h1 (le_refl n)

theorem log2f_eq {k n : Nat} (h1 : 2 ^ k ≤ n) (h2 : n < 2 ^ (k + 1)) :
    log2f n = k := by
  have h0 : 1 ≤ n := le_trans (Nat.one_le_two_pow) h1
  obtain ⟨ha, hb⟩ := log2f_spec n h0
  rcases Nat.lt_trichotomy (log2f n) k with hlt | heq | hgt
  · have : 2 ^ (log2f n + 1) ≤ 2 ^ k := Nat.pow_le_pow_right (by omega) (by omega)
    omega
  · exact heq
  · have : 2 ^ (k + 1) ≤ 2 ^ log2f n := Nat.pow_le_pow_right (by omega) (by omega)
    omega

theorem log2f_ge_one {n : Nat} (h : 2 ≤ n) : 1 ≤ log2f n := by
  obtain ⟨ha, hb⟩ := log2f_spec n (by omega)
  by_contra hc
  push_neg at hc
  have h0 : log2f n = 0 := by omega
  rw [h0] at hb
  norm_num at hb
  omega

theorem lubySeqAux_stable : ∀ (f g x : Nat), x < f → x < g →
    lubySeqAux f x = lubySeqAux g x := by
  intro f
  induction f with
  | zero => omega
  | succ f ih =>
    intro g x hf hg
    match g with
    | 0 => omega
    | g + 1 =>
      simp only [lubySeqAux]
      split
      · rfl
      · rename_i hne
        have hL1 : 1 ≤ log2f (x + 2) := log2f_ge_one (by omega)
        have h2 : 2 ^ 1 ≤ 2 ^ log2f (x + 2) := Nat.pow_le_pow_right (by omega) hL1
        have hle : 2 ^ log2f (x + 2) ≤ x + 2 := (log2f_spec (x + 2) (by omega)).1
        exact ih g _ (by omega) (by omega)

/-- One unfolding of the standard Luby recurrence. -/
theorem lubySeq_eq (x : Nat) :
    lubySeq x =
      if 2 ^ log2f (x + 2) = x + 2 then log2f (x + 2) - 1
      else lubySeq (x - (2 ^ log2f (x + 2) - 1)) := by
  unfold lubySeq
  conv_lhs => rw [lubySeqAux]
  split
  · rfl
  · rename_i hne
    have hL1 : 1 ≤ log2f (x + 2) := log2f_ge_one (by omega)
    have h2 : 2 ^ 1 ≤ 2 ^ log2f (x + 2) := Nat.pow_le_pow_right (by omega) hL1
    have hle : 2 ^ log2f (x + 2) ≤ x + 2 := (log2f_spec (x + 2) (by omega)).1
    exact lubySeqAux_stable _ _ _ (by omega) (by omega)

/-- The last index of a finite Luby subsequence carries its top power. -/
theorem lubySeq_last (m : Nat) : lubySeq (2 ^ (m + 1) - 2) = m := by
  have hp : 2 ≤ 2 ^ (m + 1) := by
    calc 2 = 2 ^ 1 := by norm_num
    _ ≤ 2 ^ (m + 1) := Nat.pow_le_pow_right (by omega) (by omega)
  have hx2 : 2 ^ (m + 1) - 2 + 2 = 2 ^ (m + 1) := by omega
  have hlog : log2f (2 ^ (m + 1) - 2 + 2) = m + 1 := by
    rw [hx2]
    exact log2f_eq (le_refl _) (Nat.pow_lt_pow_right (by omega) (by omega))
  rw [lubySeq_eq, hlog, if_pos (by omega)]
  omega

/-- Inside a finite Luby subsequence the tail repeats the sequence. -/
theorem lubySeq_step (m x : Nat) (h1 : 2 ^ (m + 1) - 1 ≤ x)
    (h2 : x < 2 ^ (m + 2) - 2) :
    lubySeq x = lubySeq (x - (2 ^ (m + 1) - 1)) := by
  have hp1 : 2 ≤ 2 ^ (m + 1) := by
    calc 2 = 2 ^ 1 := by norm_num
    _ ≤ 2 ^ (m + 1) := Nat.pow_le_pow_right (by omega) (by omega)
  have hp2 : 2 ^ (m + 2) = 2 * 2 ^ (m + 1) := by
    rw [Nat.pow_succ]
    omega
  have hlog : log2f (x + 2) = m + 1 :=
    log2f_eq (by omega) (by omega)
  rw [lubySeq_eq, hlog, if_neg (by omega)]

theorem lubyWhileLoop_spec : ∀ (m x : Nat) (seq : Int), x < 2 ^ (m + 1) - 1 →
    lubyWhileLoop x (2 ^ (m + 1) - 1) seq = seq - ((m : Int) - (lubySeq x : Int)) := by
  intro m
  induction m with
  | zero =>
    intro x seq hx
    have hx0 : x = 0 := by omega
    subst hx0
    rw [lubyWhileLoop]
    rw [show lubySeq 0 = 0 from by decide]
    norm_num
  | succ m ih =>
    intro x seq hx
    have hp1 : 2 ≤ 2 ^ (m + 1) := by
      calc 2 = 2 ^ 1 := by norm_num
      _ ≤ 2 ^ (m + 1) := Nat.pow_le_pow_right (by omega) (by omega)
    have hp2 : 2 ^ (m + 2) = 2 * 2 ^ (m + 1) := by
      rw [Nat.pow_succ]
      omega
    rw [lubyWhileLoop]
    rw [if_neg (by omega)]
    by_cases hlast : 2 ^ (m + 1 + 1) - 1 - 1 = x
    · rw [if_pos hlast]
      have : x = 2 ^ (m + 2) - 2 := by omega
      subst this
      rw [show m + 1 + 1 = m + 2 by omega] at *
      rw [lubySeq_last (m + 1)]
      omega
    · rw [if_neg hlast]
      have hsz : (2 ^ (m + 1 + 1) - 1 - 1) / 2 = 2 ^ (m + 1) - 1 := by
        rw [show m + 1 + 1 = m + 2 by omega, hp2]
        omega
      rw [hsz]
      have hmod : x % (2 ^ (m + 1) - 1) < 2 ^ (m + 1) - 1 :=
        Nat.mod_lt _ (by omega)
      rw [ih _ (seq - 1) hmod]
      by_cases hsmall : x < 2 ^ (m + 1) - 1
      · rw [Nat.mod_eq_of_lt hsmall]
        omega
      · push_neg at hsmall
        have hxlt : x < 2 ^ (m + 2) - 2 := by omega
        have hmod2 : x % (2 ^ (m + 1) - 1) = x - (2 ^ (m + 1) - 1) := by
          rw [Nat.mod_eq_sub_mod hsmall, Nat.mod_eq_of_lt (by omega)]
        rw [hmod2, ← lubySeq_step m x hsmall hxlt]
        omega

theorem lubySizeLoop_spec : ∀ (fuel x size seq : Nat), size = 2 ^ (seq + 1) - 1 →
    x + 1 - size ≤ fuel →
    ∃ m, lubySizeLoop x size seq = (2 ^ (m + 1) - 1, m) ∧ x < 2 ^ (m + 1) - 1 := by
  intro fuel
  induction fuel with
  | zero =>
    intro x size seq hsz hf
    rw [lubySizeLoop, if_neg (by omega)]
    exact ⟨seq, by rw [hsz], by omega⟩
  | succ fuel ih =>
    intro x size seq hsz hf
    rw [lubySizeLoop]
    split
    · rename_i hlt
      have hstep : 2 * size + 1 = 2 ^ (seq + 2) - 1 := by
        rw [hsz]
        have hp1 : 1 ≤ 2 ^ (seq + 1) := Nat.one_le_two_pow
        have hp2 : 2 ^ (seq + 2) = 2 * 2 ^ (seq + 1) := by
          rw [Nat.pow_succ]
          omega
        omega
      exact ih x (2 * size + 1) (seq + 1) hstep (by omega)
    · rename_i hge
      exact ⟨seq, by rw [hsz], by omega⟩

/-- `luby(y, x)` computes `y` to the standard Luby exponent. -/
theorem luby_eq_pow_lubySeq (y : ℚ) (x : Nat) : luby y x = y ^ lubySeq x := by
  unfold luby
  obtain ⟨m, hL, hx⟩ := lubySizeLoop_spec (x + 1) x 1 0 (by norm_num) (by omega)
  rw [hL]
  dsimp only
  rw [lubyWhileLoop_spec m x (m : Int) hx]
  have h : (m : Int) - ((m : Int) - (lubySeq x : Int)) = (lubySeq x : Int) := by ring
  rw [h, zpow_natCast]

namespace Solver

/-- C5: with Luby restarts enabled the conflict budget handed to `search`
for the `i`-th restart equals `restart_first · restart_inc ^ seq(i)`
where `seq` is the standard Luby exponent; the helper `luby(y, x)`
computes `y ^ seq(x)` for every `x ≥ 0`, and with `restart_inc = 2`,
`restart_first = 1` the successive budgets are 1,1,2,1,1,2,4,1,1,2,1,1,2,4,8. -/
theorem c5_luby_budget :
    (∀ (y : ℚ) (x : Nat), luby y x = y ^ lubySeq x) ∧
    (∀ (s : Solver) (i : Nat), s.luby_restart = true →
      s.restartBudget i = (s.restart_first : ℚ) * s.restart_inc ^ lubySeq i) ∧
    ((List.range 15).map
        (fun i => ({ Solver.init with restart_first := 1 } : Solver).restartBudget i) =
      [1, 1, 2, 1, 1, 2, 4, 1, 1, 2, 1, 1, 2, 4, 8]) := by
  have hmain := luby_eq_pow_lubySeq
  refine ⟨hmain, ?_, ?_⟩
  · intro s i h
    unfold restartBudget
    rw [if_pos h, hmain]
    ring
  · have hcongr : ∀ i, i ∈ List.range 15 →
        ({ Solver.init with restart_first := 1 } : Solver).restartBudget i =
          (2 : ℚ) ^ lubySeq i := by
      intro i _
      unfold restartBudget
      have h1 : ({ Solver.init with restart_first := 1 } : Solver).luby_restart = true := rfl
      have h2 : ({ Solver.init with restart_first := 1 } : Solver).restart_inc = 2 := rfl
      have h3 : ({ Solver.init with restart_first := 1 } : Solver).restart_first = 1 := rfl
      rw [if_pos h1, h2, h3, hmain]
      norm_num
    rw [List.map_congr_left hcongr]
    simp only [show (15 : Nat) = 14 + 1 from rfl, List.range_succ, List.map_append,
      List.map_cons, List.map_nil]
    norm_num [show lubySeq 0 = 0 from by decide, show lubySeq 1 = 0 from by decide,
      show lubySeq 2 = 1 from by decide, show lubySeq 3 = 0 from by decide,
      show lubySeq 4 = 0 from by decide, show lubySeq 5 = 1 from by decide,
      show lubySeq 6 = 2 from by decide, show lubySeq 7 = 0 from by decide,
      show lubySeq 8 = 0 from by decide, show lubySeq 9 = 1 from by decide,
      show lubySeq 10 = 0 from by decide, show lubySeq 11 = 0 from by decide,
      show lubySeq 12 = 1 from by decide, show lubySeq 13 = 2 from by decide,
      show lubySeq 14 = 3 from by decide]

/-- Witness for C5 at the concrete restart ordinal 6. -/
theorem c5_luby_budget_witness :
    luby 2 6 = 2 ^ lubySeq 6 ∧
    ({ Solver.init with restart_first := 1 } : Solver).restartBudget 6 =
      ((({ Solver.init with restart_first := 1 } : Solver).restart_first : ℚ)) *
        ({ Solver.init with restart_first := 1 } : Solver).restart_inc ^ lubySeq 6 :=
  ⟨c5_luby_budget.1 2 6, c5_luby_budget.2.1 _ 6 rfl⟩

end Solver

/-!
## Backjump-level selection (claim C3) -/

/-- The running maximum of the `max_i` scan: the fold result is the initial
candidate or lies in the scanned range, and its key dominates both. -/
theorem argmax_foldl_spec (lvl : Nat → Nat) :
    ∀ (cnt k m : Nat),
      ((List.range' k cnt).foldl (fun m i => if lvl i > lvl m then i else m) m = m ∨
        (List.range' k cnt).foldl (fun m i => if lvl i > lvl m then i else m) m ∈
          List.range' k cnt) ∧
      lvl m ≤ lvl ((List.range' k cnt).foldl (fun m i => if lvl i > lvl m then i else m) m) ∧
      (∀ i ∈ List.range' k cnt,
        lvl i ≤ lvl ((List.range' k cnt).foldl (fun m i => if lvl i > lvl m then i else m) m)) := by
  intro cnt
  induction cnt with
  | zero => simp
  | succ cnt ih =>
    intro k m
    rw [List.range'_succ]
    simp only [List.foldl_cons]
    obtain ⟨hmem, hdom, hall⟩ := ih (k + 1) (if lvl k > lvl m then k else m)
    refine ⟨?_, ?_, ?_⟩
    · rcases hmem with h | h
      · rw [h]
        split
        · exact Or.inr (List.mem_cons_self ..)
        · exact Or.inl rfl
      · exact Or.inr (List.mem_cons_of_mem _ h)
    · refine le_trans ?_ hdom
      split <;> omega
    · intro i hi
      rcases List.mem_cons.mp hi with h | h
      · subst h
        refine le_trans ?_ hdom
        split <;> omega
      · exact hall i h

namespace Solver

/-- Characterization of the backjump-level selection block: a unit clause
gets level 0; otherwise the returned level is attained by the literal
swapped into slot 1 and dominates every literal after slot 0. -/
theorem selectBtLevel_spec (s : Solver) (out : List Lit) :
    (out.length = 1 → selectBtLevel s out = (out, 0)) ∧
    ((selectBtLevel s out).1.length = out.length) ∧
    (1 < out.length →
      s.levelOf (litVar ((selectBtLevel s out).1.getD 1 0)) = (selectBtLevel s out).2 ∧
      ∀ l ∈ (selectBtLevel s out).1.drop 1,
        s.levelOf (litVar l) ≤ (selectBtLevel s out).2) := by
  by_cases h1 : out.length = 1
  · refine ⟨fun _ => by rw [selectBtLevel, if_pos h1], ?_, fun h => by omega⟩
    rw [selectBtLevel, if_pos h1]
  · unfold selectBtLevel
    rw [if_neg h1]
    refine ⟨fun h => absurd h h1, by simp, fun hlen => ?_⟩
    set lvl := fun i => s.levelOf (litVar (out.getD i 0)) with hlvl
    obtain ⟨hmem, hdom, hall⟩ := argmax_foldl_spec lvl (out.length - 2) 2 1
    set mi := (List.range' 2 (out.length - 2)).foldl
      (fun m i => if lvl i > lvl m then i else m) 1 with hmi
    have hmi1 : 1 ≤ mi := by
      rcases hmem with h | h
      · omega
      · have := List.mem_range'_1.mp h
        omega
    have hmilt : mi < out.length := by
      rcases hmem with h | h
      · omega
      · have := List.mem_range'_1.mp h
        omega
    have hall1 : ∀ j, 1 ≤ j → j < out.length → lvl j ≤ lvl mi := by
      intro j hj1 hjlt
      rcases Nat.eq_or_lt_of_le hj1 with h | h
      · rw [← h]
        exact hdom
      · exact hall j (List.mem_range'_1.mpr ⟨by omega, by omega⟩)
    have hget : ∀ j, j < out.length →
        ((out.set mi (out.getD 1 0)).set 1 (out.getD mi 0)).getD j 0 =
          if j = 1 then out.getD mi 0
          else if j = mi then out.getD 1 0 else out.getD j 0 := by
      intro j hj
      by_cases hj1 : j = 1
      · subst hj1
        rw [if_pos rfl, List.getD_eq_getElem?_getD, List.getElem?_set, if_pos rfl,
          if_pos (by simp; omega)]
        rw [List.getD_eq_getElem?_getD]
        rfl
      · rw [if_neg hj1, List.getD_eq_getElem?_getD, List.getElem?_set,
          if_neg (fun hh => hj1 hh.symm)]
        by_cases hjm : j = mi
        · subst hjm
          rw [if_pos rfl, List.getElem?_set, if_pos rfl, if_pos hmilt]
          rw [List.getD_eq_getElem?_getD]
          rfl
        · rw [if_neg hjm, List.getElem?_set, if_neg (fun hh => hjm hh.symm),
            List.getD_eq_getElem?_getD]
    constructor
    · dsimp only
      rw [hget 1 (by omega), if_pos rfl]
    · intro l hl
      dsimp only at hl
      obtain ⟨i, hi, heq⟩ := List.mem_iff_getElem.mp hl
      rw [List.getElem_drop] at heq
      have hidx : 1 + i < out.length := by
        rw [List.length_drop, List.length_set, List.length_set] at hi
        omega
      have heq2 : ((out.set mi (out.getD 1 0)).set 1 (out.getD mi 0)).getD (1 + i) 0 = l := by
        rw [List.getD_eq_getElem?_getD, List.getElem?_eq_getElem (by simpa using hidx)]
        simpa using heq
      rw [hget (1 + i) hidx] at heq2
      dsimp only
      split at heq2
      · rw [← heq2]
      · split at heq2
        · rw [← heq2]
          exact hall1 1 (by omega) (by omega)
        · rw [← heq2]
          exact hall1 (1 + i) (by omega) hidx

/-- Combination of `selectBtLevel_spec` with the final `seen[]` clearing:
the backjump selection over a nonempty clause, levels read through
`clearSeen` (which does not touch `vardata`). -/
theorem selectBtLevel_clearSeen (sx : Solver) (p : Lit) (tl : List Lit) :
    ((selectBtLevel sx (litNeg p :: tl)).1.length = 1 →
      (selectBtLevel sx (litNeg p :: tl)).2 = 0) ∧
    (1 < (selectBtLevel sx (litNeg p :: tl)).1.length →
      sx.clearSeen.levelOf (litVar ((selectBtLevel sx (litNeg p :: tl)).1.getD 1 0)) =
        (selectBtLevel sx (litNeg p :: tl)).2 ∧
      ∀ l ∈ (selectBtLevel sx (litNeg p :: tl)).1.drop 1,
        sx.clearSeen.levelOf (litVar l) ≤ (selectBtLevel sx (litNeg p :: tl)).2) := by
  obtain ⟨hu, hlen, hmax⟩ := selectBtLevel_spec sx (litNeg p :: tl)
  have hcs : ∀ v, (sx.clearSeen).levelOf v = sx.levelOf v := fun v => rfl
  constructor
  · intro h1
    rw [hlen] at h1
    rw [hu h1]
  · intro h1
    rw [hlen] at h1
    obtain ⟨hat, hub⟩ := hmax h1
    exact ⟨by rw [hcs]; exact hat, fun l hl => by rw [hcs]; exact hub l hl⟩

/-- C3: whenever `analyze` terminates, a unit learnt clause gets backjump
level 0; otherwise `out_btlevel` is the maximum decision level among the
literals of the learnt clause other than `out_learnt[0]`, and a literal
attaining it sits at `out_learnt[1]`. -/
theorem c3_analyze_btlevel (fuel : Nat) (s : Solver) (confl : Nat)
    (outF : List Lit) (bt : Nat) (s1 : Solver)
    (h : analyze fuel s confl = some (outF, bt, s1)) :
    (outF.length = 1 → bt = 0) ∧
    (1 < outF.length →
      s1.levelOf (litVar (outF.getD 1 0)) = bt ∧
      ∀ l ∈ outF.drop 1, s1.levelOf (litVar l) ≤ bt) := by
  unfold analyze at h
  split at h
  · exact absurd h (by simp)
  · rename_i r sr p pushed heq
    dsimp only at h
    split at h
    · exact absurd h (by simp)
    · rename_i mr s2 tailM heqM
      rw [Option.some_inj] at h
      simp only [Prod.mk.injEq] at h
      obtain ⟨ho, hb, hs⟩ := h
      subst ho
      subst hb
      subst hs
      exact selectBtLevel_clearSeen _ p tailM

/-- Witness for C3: the crafted one-step analysis on `W3` terminates with
a unit learnt clause, so the backjump level is 0. -/
theorem c3_analyze_btlevel_witness : W3res.2.1 = 0 :=
  (c3_analyze_btlevel 3 W3 0 W3res.1 W3res.2.1 W3res.2.2 rfl).1 (by decide)

/-!
## Branching-literal selection (claim C9) -/

theorem litVar_mkLit (v : Var) (b : Bool) : litVar (mkLit v b) = v := by
  have h0 : ∀ n : Nat, (2 * n + 0) / 2 = n := by intro n; omega
  have h1 : ∀ n : Nat, (2 * n + 1) / 2 = n := by intro n; omega
  unfold litVar mkLit
  cases b
  · rw [if_neg (by decide)]
    exact h0 v
  · rw [if_pos (by decide)]
    exact h1 v

theorem pickInvalid_false {s : Solver} {next : Option Var}
    (h : pickInvalid s next = false) :
    ∃ v, next = some v ∧ s.valueVar v = .undef ∧ s.decision.getD v false = true := by
  match next with
  | none => simp [pickInvalid] at h
  | some v =>
    unfold pickInvalid at h
    simp only [Bool.or_eq_false_iff, decide_eq_false_iff_not] at h
    exact ⟨v, rfl, not_not.mp h.1, by simpa using h.2⟩

theorem pickInvalid_false_intro {s : Solver} {v : Var}
    (h1 : s.valueVar v = .undef) (h2 : s.decision.getD v false = true) :
    pickInvalid s (some v) = false := by
  unfold pickInvalid
  show (decide (s.valueVar v ≠ LBool.undef) || !s.decision.getD v false) = false
  rw [h2]
  simp [h1]

/-- The heap-pop loop of `pickBranchLit`: it only consumes the heap, a
returned variable is unassigned and decision-eligible, and if it returns
nothing then no heap member was eligible. -/
theorem pickLoop_spec : ∀ (n : Nat) (s : Solver), s.order_heap.length ≤ n → ∀ next,
    ((pickLoop s next).1.assigns = s.assigns ∧
     (pickLoop s next).1.decision = s.decision) ∧
    (∀ v, (pickLoop s next).2 = some v →
      s.valueVar v = .undef ∧ s.decision.getD v false = true) ∧
    ((pickLoop s next).2 = none →
      ∀ v ∈ s.order_heap, ¬(s.valueVar v = .undef ∧ s.decision.getD v false = true)) := by
  intro n
  induction n with
  | zero =>
    intro s hle next
    rw [pickLoop]
    split
    · have hnil : s.order_heap = [] := List.length_eq_zero.mp (by omega)
      rw [hnil]
      simp
    · rename_i hval
      refine ⟨⟨rfl, rfl⟩, ?_, ?_⟩
      · intro v hv
        obtain ⟨v1, hv1, ha, hd⟩ := pickInvalid_false (Bool.not_eq_true _ ▸ hval)
        rw [hv1] at hv
        cases hv
        exact ⟨ha, hd⟩
      · intro hnone
        obtain ⟨v1, hv1, _, _⟩ := pickInvalid_false (Bool.not_eq_true _ ▸ hval)
        rw [hv1] at hnone
        cases hnone
  | succ n ih =>
    intro s hle next
    rw [pickLoop]
    split
    · rename_i hval
      split
      · rename_i hnil
        rw [hnil]
        simp
      · rename_i v rest hheap
        have hlen : ({ s with order_heap := rest } : Solver).order_heap.length ≤ n := by
          have := congrArg List.length hheap
          simp at this
          simp
          omega
        obtain ⟨hst, hsome, hnone⟩ := ih { s with order_heap := rest } hlen (some v)
        refine ⟨hst, hsome, ?_⟩
        intro hn v1 hv1
        rw [hheap] at hv1
        rcases List.mem_cons.mp hv1 with h | h
        · subst h
          intro ⟨ha, hd⟩
          have hinv : pickInvalid { s with order_heap := rest } (some v1) = false :=
            pickInvalid_false_intro ha hd
          rw [pickLoop, hinv] at hn
          simp at hn
        · exact hnone hn v1 h
    · rename_i hval
      refine ⟨⟨rfl, rfl⟩, ?_, ?_⟩
      · intro v hv
        obtain ⟨v1, hv1, ha, hd⟩ := pickInvalid_false (Bool.not_eq_true _ ▸ hval)
        rw [hv1] at hv
        cases hv
        exact ⟨ha, hd⟩
      · intro hnone
        obtain ⟨v1, hv1, _, _⟩ := pickInvalid_false (Bool.not_eq_true _ ▸ hval)
        rw [hv1] at hnone
        cases hnone

theorem pickBranchPre_inv (s : Solver) :
    (pickBranchPre s).1.assigns = s.assigns ∧
    (pickBranchPre s).1.decision = s.decision ∧
    (pickBranchPre s).1.order_heap = s.order_heap := by
  unfold pickBranchPre
  dsimp only
  split
  · dsimp only
    split <;> exact ⟨rfl, rfl, rfl⟩
  · exact ⟨rfl, rfl, rfl⟩

theorem pickPolarity_some (s : Solver) (v : Var) :
    ∃ p, (pickPolarity s v).2 = some p := by
  unfold pickPolarity
  split
  · exact ⟨_, rfl⟩
  · split <;> exact ⟨_, rfl⟩

theorem pickPolarity_var (s : Solver) (v : Var) (p : Lit)
    (h : (pickPolarity s v).2 = some p) : litVar p = v := by
  unfold pickPolarity at h
  split at h
  · cases h
    exact litVar_mkLit ..
  · split at h <;> (cases h; exact litVar_mkLit ..)

/-- C9: `pickBranchLit` returns `lit_Undef` iff no unassigned
decision-eligible variable remains (given the heap invariant that every
such variable is in the heap); a returned literal has an unassigned,
decision-eligible variable. -/
theorem c9_pickBranchLit (s : Solver)
    (hcomp : ∀ v, s.valueVar v = .undef → s.decision.getD v false = true →
      v ∈ s.order_heap) :
    (s.pickBranchLit.2 = none ↔
      ¬ ∃ v, s.valueVar v = .undef ∧ s.decision.getD v false = true) ∧
    (∀ p, s.pickBranchLit.2 = some p →
      s.valueVar (litVar p) = .undef ∧ s.decision.getD (litVar p) false = true) := by
  obtain ⟨hpa, hpd, hph⟩ := pickBranchPre_inv s
  obtain ⟨hst, hsome, hnone⟩ :=
    pickLoop_spec (pickBranchPre s).1.order_heap.length (pickBranchPre s).1 (le_refl _)
      (pickBranchPre s).2
  have hvv : ∀ v, (pickBranchPre s).1.valueVar v = s.valueVar v := by
    intro v
    unfold valueVar
    rw [hpa]
  have hpost : ∀ v, (pickLoop (pickBranchPre s).1 (pickBranchPre s).2).2 = some v →
      s.valueVar v = .undef ∧ s.decision.getD v false = true := by
    intro v hv
    obtain ⟨h1, h2⟩ := hsome v hv
    rw [hvv] at h1
    rw [hpd] at h2
    exact ⟨h1, h2⟩
  have hbody : s.pickBranchLit =
      match (pickLoop (pickBranchPre s).1 (pickBranchPre s).2).2 with
      | none => ((pickLoop (pickBranchPre s).1 (pickBranchPre s).2).1, none)
      | some v => pickPolarity (pickLoop (pickBranchPre s).1 (pickBranchPre s).2).1 v := rfl
  constructor
  · constructor
    · intro hres
      rcases hr : (pickLoop (pickBranchPre s).1 (pickBranchPre s).2).2 with _ | v
      · rintro ⟨v, ha, hd⟩
        have hmem := hcomp v ha hd
        have := hnone hr v (by rw [hph]; exact hmem)
        rw [hvv, hpd] at this
        exact this ⟨ha, hd⟩
      · obtain ⟨p0, hp0⟩ := pickPolarity_some
          (pickLoop (pickBranchPre s).1 (pickBranchPre s).2).1 v
        rw [hbody, hr] at hres
        dsimp only at hres
        rw [hp0] at hres
        cases hres
    · intro hnex
      rcases hr : (pickLoop (pickBranchPre s).1 (pickBranchPre s).2).2 with _ | v
      · rw [hbody, hr]
      · exact absurd ⟨v, hpost v hr⟩ hnex
  · intro p hp
    rw [hbody] at hp
    rcases hr : (pickLoop (pickBranchPre s).1 (pickBranchPre s).2).2 with _ | v
    · rw [hr] at hp
      exact absurd hp (by simp)
    · rw [hr] at hp
      have hvar := pickPolarity_var _ v _ hp
      rw [hvar]
      exact hpost v hr

/-- Witness for C9 at the fresh one-variable solver (heap `[0]`). -/
theorem c9_pickBranchLit_witness :
    (W1.pickBranchLit.2 = none ↔
      ¬ ∃ v, W1.valueVar v = .undef ∧ W1.decision.getD v false = true) ∧
    (∀ p, W1.pickBranchLit.2 = some p →
      W1.valueVar (litVar p) = .undef ∧ W1.decision.getD (litVar p) false = true) :=
  c9_pickBranchLit W1 (by
    intro v h1 h2
    have hlen : W1.decision.length = 1 := by decide
    have hv : v < 1 := by
      by_contra hge
      push_neg at hge
      have hnn : W1.decision[v]? = none := List.getElem?_eq_none (by rw [hlen]; exact hge)
      rw [List.getD_eq_getElem?_getD, hnn] at h2
      simp at h2
    interval_cases v
    decide)

/-!
## Unit propagation (claim C2) -/

/-- Once `qhead` has caught up with the trail, one further step of the
outer loop returns the accumulated conflict and books the counters. -/
theorem propagateAux_halt (fuel : Nat) (s : Solver) (confl : Option Nat) (np : Nat)
    (h : ¬ s.qhead < s.trail.length) :
    propagateAux (fuel + 1) s confl np =
      some (confl, { s with propagations := s.propagations + np,
                            simpDB_props := s.simpDB_props - (np : Int) }) := by
  unfold propagateAux
  rw [if_neg h]

/-- A conflicting pass of the inner watcher loop leaves `qhead` at the end
of the trail. -/
theorem propInner_conflict_qhead (p : Lit) (ws : List Watcher) :
    ∀ (s : Solver) (kept : List Watcher) (cr : Nat),
      (propInner p s ws kept).2.2 = some cr →
      (propInner p s ws kept).1.qhead = (propInner p s ws kept).1.trail.length := by
  induction ws with
  | nil =>
    intro s kept cr h
    exact Option.noConfusion h
  | cons w rest ih =>
    intro s kept cr
    unfold propInner
    split
    · exact ih _ _ _
    · dsimp only
      split
      · exact ih _ _ _
      · split
        · exact ih _ _ _
        · split
          · exact fun _ => rfl
          · exact ih _ _ _

/-- A run of the outer loop in which every inner pass reports
`CRef_Undef` returns the conflict accumulator it started from. -/
theorem propNoConfl_propagateAux : ∀ (fuel : Nat) (s : Solver) (confl : Option Nat)
    (np : Nat) (r : Option Nat) (s' : Solver), propNoConfl fuel s = true →
    propagateAux fuel s confl np = some (r, s') → r = confl := by
  intro fuel
  induction fuel with
  | zero =>
    intro s confl np r s' _ hp
    exact Option.noConfusion hp
  | succ n ih =>
    intro s confl np r s' hnc hp
    unfold propNoConfl at hnc
    unfold propagateAux at hp
    by_cases hq : s.qhead < s.trail.length
    · rw [if_pos hq] at hnc hp
      dsimp only at hnc hp
      rw [Bool.and_eq_true, decide_eq_true_eq] at hnc
      obtain ⟨hres, hnc2⟩ := hnc
      rw [hres] at hp
      dsimp only at hp
      exact ih _ _ _ _ _ hnc2 hp
    · rw [if_neg hq] at hp
      injection hp with hp1
      injection hp1 with hp2 _
      exact hp2.symm

/-- C2: the unit-propagation contract of `Solver::propagate` (lines
894-943).  (i) In the inner watcher loop, when the blocker is not true
and the watched clause has no non-false replacement literal, then if the
clause's first literal (after the slot normalization) is false the
watcher is kept, `qhead` is advanced to the end of the trail, the
remaining watchers of the bucket are flushed unchanged and the clause
reference is returned as the conflict; otherwise the first literal is
enqueued with the clause as its reason.  (ii) `uncheckedEnqueue` appends
the literal to the trail and records the reason clause.  (iii) Once
`qhead` has reached the end of the trail the outer loop stops and returns
the accumulated conflict, incrementing the `propagations` counter.
(iv) When the inner pass at the head of the queue reports a conflict,
`propagate`'s outer loop returns exactly that clause reference.  (v) A
run in which no inner pass reports a conflict returns `CRef_Undef`
(`none`). -/
theorem c2_propagate :
    (∀ (p : Lit) (s : Solver) (w : Watcher) (rest kept : List Watcher),
      s.value w.blocker ≠ .t →
      ¬((propNormalize s w.cref (litNeg p)).2.lits.getD 0 0 ≠ w.blocker ∧
        (propNormalize s w.cref (litNeg p)).1.value
          ((propNormalize s w.cref (litNeg p)).2.lits.getD 0 0) = .t) →
      findNonFalse (propNormalize s w.cref (litNeg p)).1
        (propNormalize s w.cref (litNeg p)).2.lits 2 = none →
      ((propNormalize s w.cref (litNeg p)).1.value
          ((propNormalize s w.cref (litNeg p)).2.lits.getD 0 0) = .f →
        propInner p s (w :: rest) kept =
          ({ (propNormalize s w.cref (litNeg p)).1 with
              qhead := (propNormalize s w.cref (litNeg p)).1.trail.length },
            kept ++ [⟨w.cref, (propNormalize s w.cref (litNeg p)).2.lits.getD 0 0⟩] ++ rest,
            some w.cref)) ∧
      ((propNormalize s w.cref (litNeg p)).1.value
          ((propNormalize s w.cref (litNeg p)).2.lits.getD 0 0) ≠ .f →
        propInner p s (w :: rest) kept =
          propInner p
            ((propNormalize s w.cref (litNeg p)).1.uncheckedEnqueue
              ((propNormalize s w.cref (litNeg p)).2.lits.getD 0 0) (some w.cref))
            rest
            (kept ++ [⟨w.cref, (propNormalize s w.cref (litNeg p)).2.lits.getD 0 0⟩]))) ∧
    (∀ (s : Solver) (q : Lit) (cr : Nat), litVar q < s.vardata.length →
      (s.uncheckedEnqueue q (some cr)).trail = s.trail ++ [q] ∧
      (s.uncheckedEnqueue q (some cr)).reasonOf (litVar q) = some cr) ∧
    (∀ (fuel : Nat) (s : Solver) (confl : Option Nat) (np : Nat),
      ¬ s.qhead < s.trail.length →
      propagateAux (fuel + 1) s confl np =
        some (confl, { s with propagations := s.propagations + np,
                              simpDB_props := s.simpDB_props - (np : Int) })) ∧
    (∀ (fuel : Nat) (s : Solver) (confl : Option Nat) (np : Nat)
        (p0 : Lit) (sc : Solver) (ws : List Watcher)
        (res : Solver × List Watcher × Option Nat) (cr : Nat),
      s.qhead < s.trail.length →
      p0 = s.trail.getD s.qhead 0 →
      sc = Solver.cleanBucket { s with qhead := s.qhead + 1 } p0 →
      ws = sc.watches.getD p0 [] →
      res = propInner p0 sc ws [] →
      res.2.2 = some cr →
      propagateAux (fuel + 1 + 1) s confl np =
        some (some cr,
          { res.1 with
              watches := res.1.watches.set p0 res.2.1,
              propagations := res.1.propagations + (np + 1),
              simpDB_props := res.1.simpDB_props - ((np + 1 : Nat) : Int) })) ∧
    (∀ (fuel : Nat) (s : Solver) (r : Option Nat) (s' : Solver),
      propNoConfl fuel s = true → propagate fuel s = some (r, s') → r = none) := by
  refine ⟨?_, ?_, ?_, ?_, ?_⟩
  · intro p s w rest kept h1 h2 h3
    constructor
    · intro h4
      unfold propInner
      rw [if_neg h1]
      dsimp only
      rw [if_neg h2, h3]
      dsimp only
      rw [if_pos h4]
    · intro h4
      conv_lhs => unfold propInner
      rw [if_neg h1]
      dsimp only
      rw [if_neg h2, h3]
      dsimp only
      rw [if_neg h4]
  · intro s q cr h
    refine ⟨rfl, ?_⟩
    unfold reasonOf uncheckedEnqueue
    dsimp only
    rw [List.getD_eq_getElem?_getD, List.getElem?_set, if_pos rfl, if_pos h]
    rfl
  · intro fuel s confl np h
    exact propagateAux_halt fuel s confl np h
  · intro fuel s confl np p0 sc ws res cr hq hp0 hsc hws hres hcr
    subst hp0
    subst hsc
    subst hws
    subst hres
    have hstep : propagateAux (fuel + 1 + 1) s confl np =
        propagateAux (fuel + 1)
          (let p := s.trail.getD s.qhead 0
           let s1 := Solver.cleanBucket { s with qhead := s.qhead + 1 } p
           let res := propInner p s1 (s1.watches.getD p []) []
           { res.1 with watches := res.1.watches.set p res.2.1 })
          (some cr) (np + 1) := by
      conv_lhs => unfold propagateAux
      rw [if_pos hq]
      dsimp only
      rw [hcr]
    rw [hstep]
    dsimp only
    have hqh : ¬ ({ (propInner (s.trail.getD s.qhead 0)
          (Solver.cleanBucket { s with qhead := s.qhead + 1 } (s.trail.getD s.qhead 0))
          ((Solver.cleanBucket { s with qhead := s.qhead + 1 }
              (s.trail.getD s.qhead 0)).watches.getD (s.trail.getD s.qhead 0) []) []).1 with
        watches := (propInner (s.trail.getD s.qhead 0)
          (Solver.cleanBucket { s with qhead := s.qhead + 1 } (s.trail.getD s.qhead 0))
          ((Solver.cleanBucket { s with qhead := s.qhead + 1 }
              (s.trail.getD s.qhead 0)).watches.getD (s.trail.getD s.qhead 0) []) []).1.watches.set
          (s.trail.getD s.qhead 0)
          (propInner (s.trail.getD s.qhead 0)
            (Solver.cleanBucket { s with qhead := s.qhead + 1 } (s.trail.getD s.qhead 0))
            ((Solver.cleanBucket { s with qhead := s.qhead + 1 }
                (s.trail.getD s.qhead 0)).watches.getD (s.trail.getD s.qhead 0) []) []).2.1 }
        : Solver).qhead <
        ({ (propInner (s.trail.getD s.qhead 0)
          (Solver.cleanBucket { s with qhead := s.qhead + 1 } (s.trail.getD s.qhead 0))
          ((Solver.cleanBucket { s with qhead := s.qhead + 1 }
              (s.trail.getD s.qhead 0)).watches.getD (s.trail.getD s.qhead 0) []) []).1 with
        watches := (propInner (s.trail.getD s.qhead 0)
          (Solver.cleanBucket { s with qhead := s.qhead + 1 } (s.trail.getD s.qhead 0))
          ((Solver.cleanBucket { s with qhead := s.qhead + 1 }
              (s.trail.getD s.qhead 0)).watches.getD (s.trail.getD s.qhead 0) []) []).1.watches.set
          (s.trail.getD s.qhead 0)
          (propInner (s.trail.getD s.qhead 0)
            (Solver.cleanBucket { s with qhead := s.qhead + 1 } (s.trail.getD s.qhead 0))
            ((Solver.cleanBucket { s with qhead := s.qhead + 1 }
                (s.trail.getD s.qhead 0)).watches.getD (s.trail.getD s.qhead 0) []) []).2.1 }
        : Solver).trail.length := by
      have := propInner_conflict_qhead (s.trail.getD s.qhead 0)
        ((Solver.cleanBucket { s with qhead := s.qhead + 1 }
            (s.trail.getD s.qhead 0)).watches.getD (s.trail.getD s.qhead 0) [])
        (Solver.cleanBucket { s with qhead := s.qhead + 1 } (s.trail.getD s.qhead 0))
        [] cr hcr
      show ¬ (propInner _ _ _ _).1.qhead < (propInner _ _ _ _).1.trail.length
      omega
    rw [propagateAux_halt fuel _ (some cr) (np + 1) hqh]
  · intro fuel s r s' h1 h2
    exact propNoConfl_propagateAux fuel s none 0 r s' h1 h2

/-- Witness for C2: propagating literal 3 (`¬x1`) through the single
watcher of clause 0 in `WP` hits the no-replacement, first-literal-false
case and reports clause 0 as the conflict with the bucket flushed. -/
theorem c2_propagate_witness :
    propInner 3 WP [(⟨0, 0⟩ : Watcher)] [] =
      ({ (propNormalize WP 0 (litNeg 3)).1 with
          qhead := (propNormalize WP 0 (litNeg 3)).1.trail.length },
        [] ++ [⟨0, (propNormalize WP 0 (litNeg 3)).2.lits.getD 0 0⟩] ++ [],
        some 0) :=
  (c2_propagate.1 3 WP ⟨0, 0⟩ [] [] (by decide) (by decide) (by decide)).1 (by decide)

/-!
## The `trail_lim` invariant (claim C7) -/

/-- Generic preservation of a predicate along a left fold. -/
theorem foldl_inv {σ α : Type} (P : σ → Prop) (f : σ → α → σ)
    (hf : ∀ s a, P s → P (f s a)) :
    ∀ (l : List α) (s : σ), P s → P (l.foldl f s) := by
  intro l
  induction l with
  | nil => exact fun s h => h
  | cons x xs ih => exact fun s h => ih (f s x) (hf s x h)

/-- Equal propagation frames have equal `trail_lim`. -/
theorem propFrame_trail_lim {a b : Solver} (h : a.propFrame = b.propFrame) :
    a.trail_lim = b.trail_lim := by
  unfold propFrame at h
  simp only [Prod.mk.injEq] at h
  exact h.2.2.2.1

theorem insertVarOrder_trail_lim (s : Solver) (x : Var) :
    (s.insertVarOrder x).trail_lim = s.trail_lim := by
  unfold insertVarOrder
  split <;> rfl

theorem setDecisionVar_trail_lim (s : Solver) (v : Var) (b : Bool) :
    (s.setDecisionVar v b).trail_lim = s.trail_lim := by
  unfold setDecisionVar
  dsimp only
  rw [insertVarOrder_trail_lim]
  split
  · rfl
  · split <;> rfl

theorem newVar_trail_lim (s : Solver) (upol : LBool) (dvar : Bool) :
    (s.newVar upol dvar).2.trail_lim = s.trail_lim := by
  unfold newVar
  dsimp only
  split <;> (dsimp only; rw [setDecisionVar_trail_lim])

theorem removeClause_trail_lim (s : Solver) (cr : Nat) :
    (s.removeClause cr).trail_lim = s.trail_lim := by
  unfold removeClause detachClause
  dsimp only
  split <;> (split <;> (split <;> rfl))

theorem removeSatisfied_trail_lim (s : Solver) (which : Bool) :
    (s.removeSatisfied which).trail_lim = s.trail_lim := by
  unfold removeSatisfied
  dsimp only
  split
  · refine foldl_inv (fun (acc : Solver × List Nat) => acc.1.trail_lim = s.trail_lim)
      _ ?_ _ _ rfl
    intro acc cr h
    dsimp only
    split
    · rw [removeClause_trail_lim]; exact h
    · exact h
  · refine foldl_inv (fun (acc : Solver × List Nat) => acc.1.trail_lim = s.trail_lim)
      _ ?_ _ _ rfl
    intro acc cr h
    dsimp only
    split
    · rw [removeClause_trail_lim]; exact h
    · exact h

theorem cleanAll_trail_lim (s : Solver) : s.cleanAll.trail_lim = s.trail_lim := by
  unfold cleanAll
  exact foldl_inv (fun (s2 : Solver) => s2.trail_lim = s.trail_lim) _
    (fun s2 p h => ((propFrame_trail_lim (cleanBucket_frame s2 p).1).trans h)) _ _ rfl

theorem relocWatches_trail_lim (s : Solver) (toCa : List Clause) :
    (relocWatches s toCa).1.trail_lim = s.trail_lim := by
  unfold relocWatches
  refine foldl_inv (fun (acc : Solver × List Clause) => acc.1.trail_lim = s.trail_lim)
    _ ?_ _ _ rfl
  exact fun acc p h => h

theorem relocReasons_trail_lim (s : Solver) (toCa : List Clause) :
    (relocReasons s toCa).1.trail_lim = s.trail_lim := by
  unfold relocReasons
  refine foldl_inv (fun (acc : Solver × List Clause) => acc.1.trail_lim = s.trail_lim)
    _ ?_ _ _ rfl
  intro acc p h
  dsimp only
  split
  · exact h
  · split
    · exact h
    · exact h

theorem relocAll_trail_lim (s : Solver) : (relocAll s).1.trail_lim = s.trail_lim := by
  unfold relocAll
  dsimp only
  show (relocReasons (relocWatches s.cleanAll []).1
    (relocWatches s.cleanAll []).2).1.trail_lim = s.trail_lim
  rw [relocReasons_trail_lim, relocWatches_trail_lim, cleanAll_trail_lim]

theorem garbageCollect_trail_lim (s : Solver) :
    s.garbageCollect.trail_lim = s.trail_lim := by
  unfold garbageCollect
  dsimp only
  show (relocAll s).1.trail_lim = s.trail_lim
  exact relocAll_trail_lim s

theorem checkGarbage_trail_lim (s : Solver) :
    s.checkGarbage.trail_lim = s.trail_lim := by
  unfold checkGarbage
  split
  · exact garbageCollect_trail_lim s
  · rfl

theorem seenFold_trail_lim (l : List Var) (k : Nat) :
    ∀ (base : Solver),
      (l.foldl (fun (s : Solver) v => { s with seen := s.seen.set v k }) base).trail_lim
        = base.trail_lim := by
  intro base
  refine foldl_inv (fun (s2 : Solver) => s2.trail_lim = base.trail_lim) _ ?_ _ _ rfl
  exact fun s2 v h => h

theorem addClause_trail_lim (fuel : Nat) (s : Solver) (ps : List Lit)
    (b : Bool) (s1 : Solver) (h : addClause_ fuel s ps = some (b, s1)) :
    s1.trail_lim = s.trail_lim := by
  unfold addClause_ at h
  split at h
  · cases h; rfl
  · dsimp only at h
    split at h
    · cases h; rfl
    · split at h
      · cases h; rfl
      · rename_i ps1 u heq
        split at h
        · exact absurd h (by simp)
        · rename_i r hprop
          cases h
          exact (propFrame_trail_lim (propagate_frame _ _ _ hprop).1).trans
            (propFrame_trail_lim (uncheckedEnqueue_frame s u none).1)
      · cases h
        unfold attachClause
        dsimp only
        split <;> rfl

theorem releaseVar_trail_lim (fuel : Nat) (s : Solver) (l : Lit) (s1 : Solver)
    (h : releaseVar fuel s l = some s1) : s1.trail_lim = s.trail_lim := by
  unfold releaseVar at h
  split at h
  · split at h
    · exact Option.noConfusion h
    · rename_i b2 s2 heq
      cases h
      show s2.trail_lim = s.trail_lim
      unfold addClause1 at heq
      exact addClause_trail_lim fuel s [l] b2 s2 heq
  · cases h; rfl

theorem rebuildOrderHeap_trail_lim (s : Solver) :
    s.rebuildOrderHeap.trail_lim = s.trail_lim := rfl

theorem simplify_trail_lim (fuel : Nat) (s : Solver) (b : Bool) (s1 : Solver)
    (h : simplify fuel s = some (b, s1)) : s1.trail_lim = s.trail_lim := by
  unfold simplify at h
  split at h
  · cases h; rfl
  · split at h
    · exact Option.noConfusion h
    · rename_i confl cs hprop
      have h2 := propFrame_trail_lim (propagate_frame _ _ _ hprop).1
      split at h
      · cases h; exact h2
      · split at h
        · cases h; exact h2
        · cases h
          unfold simplifyBody
          dsimp only
          rw [rebuildOrderHeap_trail_lim, checkGarbage_trail_lim]
          split
          · unfold simplifyRelease
            dsimp only
            rw [seenFold_trail_lim]
            dsimp only
            rw [seenFold_trail_lim, removeSatisfied_trail_lim,
              removeSatisfied_trail_lim]
            exact h2
          · rw [removeSatisfied_trail_lim]
            exact h2

theorem cancelUntil_zero_trail_lim (s : Solver) :
    (s.cancelUntil 0).trail_lim = [] := by
  unfold cancelUntil
  split
  · dsimp only
    exact List.take_zero _
  · rename_i hnot
    unfold decisionLevel at hnot
    exact List.length_eq_zero.mp (by omega)

/-- C7: the `trail_lim` invariant at public-operation boundaries.  No
public operation ever leaves a decision level open: `newVar`,
`addClause_`, `releaseVar` and `simplify` never touch `trail_lim`,
`cancelUntil 0` always empties it, and `solve_` either returns before
searching (leaving `trail_lim` as it was) or ends with `cancelUntil 0`,
so between two public operations `trail_lim` stays the empty sequence it
starts as — which is (vacuously) strictly increasing, with every entry
bounded by the trail length. -/
theorem c7_trail_lim_invariant :
    (Solver.init.trail_lim = []) ∧
    (∀ (s : Solver) (upol : LBool) (dvar : Bool),
      (s.newVar upol dvar).2.trail_lim = s.trail_lim) ∧
    (∀ (fuel : Nat) (s : Solver) (ps : List Lit) (b : Bool) (s1 : Solver),
      addClause_ fuel s ps = some (b, s1) → s1.trail_lim = s.trail_lim) ∧
    (∀ (fuel : Nat) (s : Solver) (l : Lit) (s1 : Solver),
      releaseVar fuel s l = some s1 → s1.trail_lim = s.trail_lim) ∧
    (∀ (fuel : Nat) (s : Solver) (b : Bool) (s1 : Solver),
      simplify fuel s = some (b, s1) → s1.trail_lim = s.trail_lim) ∧
    (∀ (s : Solver), (s.cancelUntil 0).trail_lim = []) ∧
    (∀ (fuel : Nat) (s : Solver) (r : LBool) (s1 : Solver),
      solve_ fuel s = some (r, s1) →
      s1.trail_lim = [] ∨ s1.trail_lim = s.trail_lim) ∧
    (∀ (s : Solver), s.trail_lim = [] →
      s.trail_lim.Pairwise (· < ·) ∧ ∀ e ∈ s.trail_lim, e ≤ s.trail.length) := by
  refine ⟨rfl, newVar_trail_lim, addClause_trail_lim, releaseVar_trail_lim,
    simplify_trail_lim, cancelUntil_zero_trail_lim, ?_, ?_⟩
  · intro fuel s r s1 h
    unfold solve_ at h
    dsimp only at h
    split at h
    · cases h
      exact Or.inr rfl
    · split at h
      · exact Option.noConfusion h
      · rename_i st hloop
        injection h with h1
        injection h1 with hr hs
        subst hs
        exact Or.inl (cancelUntil_zero_trail_lim _)
  · intro s h
    rw [h]
    exact ⟨List.Pairwise.nil, fun e he => absurd he (List.not_mem_nil e)⟩

/-- Witness for C7: a solver whose `ok` latch is down returns from
`solve_` immediately, and the boundary invariant holds at the fresh
solver. -/
theorem c7_trail_lim_invariant_witness :
    (({ W1 with ok := false, model := [], conflict := [] } : Solver).trail_lim = [] ∨
      ({ W1 with ok := false, model := [], conflict := [] } : Solver).trail_lim =
        ({ W1 with ok := false } : Solver).trail_lim) ∧
    (Solver.init.trail_lim.Pairwise (· < ·) ∧
      ∀ e ∈ Solver.init.trail_lim, e ≤ Solver.init.trail.length) :=
  ⟨c7_trail_lim_invariant.2.2.2.2.2.2.1 1 { W1 with ok := false } .f
      { W1 with ok := false, model := [], conflict := [] } rfl,
    c7_trail_lim_invariant.2.2.2.2.2.2.2 Solver.init rfl⟩

/-!
## Clause addition (claim C8) -/

theorem xor_one_even (v : Nat) : (2 * v) ^^^ 1 = 2 * v + 1 := by
  have h := Nat.xor_bit false v true 0
  simpa [Nat.bit] using h

theorem xor_one_odd (v : Nat) : (2 * v + 1) ^^^ 1 = 2 * v := by
  have h := Nat.xor_bit true v true 0
  simpa [Nat.bit] using h

theorem litNeg_even (v : Nat) : litNeg (2 * v) = 2 * v + 1 := xor_one_even v

theorem litNeg_odd (v : Nat) : litNeg (2 * v + 1) = 2 * v := xor_one_odd v

theorem litVar_even (v : Nat) : litVar (2 * v) = v := by
  unfold litVar
  have key : ∀ c : Nat, 2 * c / 2 = c := by
    intro c
    omega
  exact key v

theorem litVar_odd (v : Nat) : litVar (2 * v + 1) = v := by
  unfold litVar
  have key : ∀ c : Nat, (2 * c + 1) / 2 = c := by
    intro c
    omega
  exact key v

theorem litSign_even (v : Nat) : litSign (2 * v) = false := by
  unfold litSign
  simp only [decide_eq_false_iff_not]
  have key : ∀ c : Nat, ¬(2 * c % 2 = 1) := by
    intro c
    omega
  exact key v

theorem litSign_odd (v : Nat) : litSign (2 * v + 1) = true := by
  unfold litSign
  simp only [decide_eq_true_eq]
  have key : ∀ c : Nat, (2 * c + 1) % 2 = 1 := by
    intro c
    omega
  exact key v

theorem value_even (s : Solver) (v : Nat) : s.value (2 * v) = s.valueVar v := by
  unfold value
  rw [litVar_even, litSign_even]
  cases s.valueVar v <;> rfl

theorem value_odd_t (s : Solver) (v : Nat) (h : s.value (2 * v) = .f) :
    s.value (2 * v + 1) = .t := by
  unfold value at h ⊢
  rw [litVar_even, litSign_even] at h
  rw [litVar_odd, litSign_odd]
  cases hv : s.valueVar v
  · rw [hv] at h
    exact absurd h (by decide)
  · rfl
  · rw [hv] at h
    exact absurd h (by decide)

theorem lbool_eq_undef (x : LBool) (h1 : x ≠ .t) (h2 : x ≠ .f) : x = .undef := by
  cases x
  · exact absurd rfl h1
  · exact absurd rfl h2
  · rfl

theorem isortInsert_mem {α : Type} (lt : α → α → Bool) (x : α) :
    ∀ (l : List α) (a : α), a ∈ isortInsert lt x l ↔ a = x ∨ a ∈ l := by
  intro l
  induction l with
  | nil =>
    intro a
    simp [isortInsert]
  | cons y ys ih =>
    intro a
    unfold isortInsert
    split
    · simp [List.mem_cons]
    · simp only [List.mem_cons, ih]
      tauto

theorem isortInsert_sorted (x : Nat) :
    ∀ (l : List Nat), l.Pairwise (· ≤ ·) →
      (isortInsert (fun a b => decide (a < b)) x l).Pairwise (· ≤ ·) := by
  intro l
  induction l with
  | nil =>
    intro _
    simp [isortInsert]
  | cons y ys ih =>
    intro hp
    rw [List.pairwise_cons] at hp
    obtain ⟨hy, hys⟩ := hp
    unfold isortInsert
    split
    · rename_i hlt
      rw [decide_eq_true_eq] at hlt
      refine List.pairwise_cons.mpr ⟨?_, List.pairwise_cons.mpr ⟨hy, hys⟩⟩
      intro b hb
      rcases List.mem_cons.mp hb with rfl | hb
      · exact Nat.le_of_lt hlt
      · exact Nat.le_trans (Nat.le_of_lt hlt) (hy b hb)
    · rename_i hnlt
      refine List.pairwise_cons.mpr ⟨?_, ih hys⟩
      intro b hb
      rcases (isortInsert_mem _ x ys b).mp hb with rfl | hb
      · exact Nat.le_of_not_lt (by simpa using hnlt)
      · exact hy b hb

theorem isort_mem {α : Type} (lt : α → α → Bool) :
    ∀ (l : List α) (a : α), a ∈ isort lt l ↔ a ∈ l := by
  intro l
  induction l with
  | nil =>
    intro a
    simp [isort]
  | cons x xs ih =>
    intro a
    unfold isort
    rw [isortInsert_mem]
    simp [List.mem_cons, ih]

theorem isort_sorted : ∀ (l : List Nat),
    (isort (fun a b => decide (a < b)) l).Pairwise (· ≤ ·) := by
  intro l
  induction l with
  | nil => simp [isort]
  | cons x xs ih =>
    unfold isort
    exact isortInsert_sorted x _ ih

theorem sortLits_sorted (ps : List Lit) : (sortLits ps).Pairwise (· ≤ ·) :=
  isort_sorted ps

theorem sortLits_mem (ps : List Lit) (a : Lit) : a ∈ sortLits ps ↔ a ∈ ps :=
  isort_mem _ ps a

/-- The simplification loop keeps the accumulator strictly sorted: the
output of `addClauseSimp` on a sorted input contains no duplicates. -/
theorem addClauseSimp_pairwise (s : Solver) :
    ∀ (l : List Lit) (p : Option Lit) (acc out : List Lit),
      l.Pairwise (· ≤ ·) →
      (∀ a, p = some a → ∀ x ∈ l, a ≤ x) →
      acc.Pairwise (· < ·) →
      (∀ y ∈ acc, ∃ a, p = some a ∧ y ≤ a) →
      addClauseSimp s p l acc = some out →
      out.Pairwise (· < ·) := by
  intro l
  induction l with
  | nil =>
    intro p acc out _ _ hacc _ h
    unfold addClauseSimp at h
    injection h with h
    subst h
    exact hacc
  | cons cur rest ih =>
    intro p acc out hsort hpl hacc haccp h
    rw [List.pairwise_cons] at hsort
    obtain ⟨hcur, hrest⟩ := hsort
    unfold addClauseSimp at h
    split at h
    · exact Option.noConfusion h
    · split at h
      · rename_i hcond hkeep
        refine ih (some cur) (acc ++ [cur]) out hrest ?_ ?_ ?_ h
        · intro a ha x hx
          injection ha with ha
          subst ha
          exact hcur x hx
        · rw [List.pairwise_append]
          refine ⟨hacc, List.pairwise_singleton .., ?_⟩
          intro y hy z hz
          rw [List.mem_singleton] at hz
          obtain ⟨a, hpa, hya⟩ := haccp y hy
          have hax : a ≤ cur := hpl a hpa cur (List.mem_cons_self ..)
          have hane : a ≠ cur := by
            intro hh
            exact hkeep.2 (by rw [hpa, hh])
          rw [hz]
          exact Nat.lt_of_le_of_lt hya (Nat.lt_of_le_of_ne hax hane)
        · intro y hy
          rcases List.mem_append.mp hy with hy | hy
          · obtain ⟨a, hpa, hya⟩ := haccp y hy
            exact ⟨cur, rfl, Nat.le_trans hya (hpl a hpa cur (List.mem_cons_self ..))⟩
          · rw [List.mem_singleton] at hy
            rw [hy]
            exact ⟨cur, rfl, Nat.le_refl _⟩
      · exact ih p acc out hrest
          (fun a hpa x hx => hpl a hpa x (List.mem_cons_of_mem _ hx)) hacc haccp h

/-- If a literal of the clause is already true, the simplification loop
returns `none` (the clause is satisfied). -/
theorem addClauseSimp_sat (s : Solver) :
    ∀ (l : List Lit) (p : Option Lit) (acc : List Lit) (o : Nat),
      o ∈ l → s.value o = .t → addClauseSimp s p l acc = none := by
  intro l
  induction l with
  | nil =>
    intro p acc o ho _
    exact absurd ho (List.not_mem_nil o)
  | cons cur rest ih =>
    intro p acc o ho hot
    by_cases hc : cur = o
    · subst hc
      unfold addClauseSimp
      rw [if_pos (Or.inl hot)]
    · have ho2 : o ∈ rest := by
        rcases List.mem_cons.mp ho with h | h
        · exact absurd h.symm hc
        · exact h
      unfold addClauseSimp
      by_cases h1 : s.value cur = .t ∨ p = some (litNeg cur)
      · rw [if_pos h1]
      · rw [if_neg h1]
        split
        · exact ih _ _ o ho2 hot
        · exact ih _ _ o ho2 hot

/-- Once the even literal `2v` has been kept (it is the pending literal
`p`) and its variable is unassigned, meeting the odd literal `2v+1` later
in the sorted remainder triggers the tautology exit. -/
theorem addClauseSimp_taut_aux (s : Solver) (v : Nat)
    (hu : s.value (2 * v) = .undef) :
    ∀ (l : List Lit) (acc : List Lit),
      l.Pairwise (· ≤ ·) → (2 * v + 1) ∈ l → (∀ y ∈ l, 2 * v ≤ y) →
      addClauseSimp s (some (2 * v)) l acc = none := by
  intro l
  induction l with
  | nil =>
    intro acc _ ho _
    exact absurd ho (List.not_mem_nil _)
  | cons cur rest ih =>
    intro acc hsort ho hlow
    rw [List.pairwise_cons] at hsort
    obtain ⟨hcur, hrest⟩ := hsort
    by_cases hc : cur = 2 * v + 1
    · subst hc
      unfold addClauseSimp
      rw [if_pos (Or.inr (by rw [litNeg_odd]))]
    · have ho2 : (2 * v + 1) ∈ rest := by
        rcases List.mem_cons.mp ho with h | h
        · exact absurd h.symm hc
        · exact h
      have hce : cur = 2 * v := by
        have h1 : 2 * v ≤ cur := hlow cur (List.mem_cons_self ..)
        have h2 : cur ≤ 2 * v + 1 := hcur _ ho2
        have key : ∀ c : Nat, 2 * v ≤ c → c ≤ 2 * v + 1 → c ≠ 2 * v + 1 → c = 2 * v := by
          intro c hh1 hh2 hh3
          omega
        exact key cur h1 h2 hc
      subst hce
      unfold addClauseSimp
      rw [if_neg ?hc1]
      case hc1 =>
        rintro (hh | hh)
        · rw [hu] at hh
          exact absurd hh (by decide)
        · injection hh with hh
          rw [litNeg_even] at hh
          have key2 : ∀ c : Nat, 2 * c ≠ 2 * c + 1 := by
            intro c
            omega
          exact key2 v hh
      rw [if_neg ?hc2]
      case hc2 =>
        rintro ⟨_, hh⟩
        exact hh rfl
      exact ih acc hrest ho2 (fun y hy => hlow y (List.mem_cons_of_mem _ hy))

/-- On a sorted clause containing some variable in both polarities, the
simplification loop of `addClause_` returns `none`: either one of the two
literals is already true, or they meet adjacently and the tautology exit
fires. -/
theorem addClauseSimp_taut (s : Solver) (v : Nat) :
    ∀ (l : List Lit) (p : Option Lit) (acc : List Lit),
      l.Pairwise (· ≤ ·) → (2 * v) ∈ l → (2 * v + 1) ∈ l →
      addClauseSimp s p l acc = none := by
  intro l
  induction l with
  | nil =>
    intro p acc _ he _
    exact absurd he (List.not_mem_nil _)
  | cons cur rest ih =>
    intro p acc hsort he ho
    rw [List.pairwise_cons] at hsort
    obtain ⟨hcur, hrest⟩ := hsort
    by_cases hvt : s.value cur = .t
    · unfold addClauseSimp
      rw [if_pos (Or.inl hvt)]
    · by_cases hpn : p = some (litNeg cur)
      · unfold addClauseSimp
        rw [if_pos (Or.inr hpn)]
      · have hcond : ¬(s.value cur = .t ∨ p = some (litNeg cur)) := by
          rintro (hh | hh)
          · exact hvt hh
          · exact hpn hh
        by_cases hce : cur = 2 * v
        · subst hce
          have ho2 : (2 * v + 1) ∈ rest := by
            rcases List.mem_cons.mp ho with h | h
            · exact absurd h (by
                have key : ∀ c : Nat, ¬(2 * c + 1 = 2 * c) := by
                  intro c
                  omega
                exact key v)
            · exact h
          by_cases hvf : s.value (2 * v) = .f
          · have hot : s.value (2 * v + 1) = .t := value_odd_t s v hvf
            unfold addClauseSimp
            rw [if_neg hcond]
            split
            · exact addClauseSimp_sat s rest _ _ (2 * v + 1) ho2 hot
            · exact addClauseSimp_sat s rest _ _ (2 * v + 1) ho2 hot
          · have hund : s.value (2 * v) = .undef := lbool_eq_undef _ hvt hvf
            unfold addClauseSimp
            rw [if_neg hcond]
            split
            · exact addClauseSimp_taut_aux s v hund rest _ hrest ho2 hcur
            · rename_i hnk
              have hp2v : p = some (2 * v) := by
                by_contra hne
                exact hnk ⟨hvf, hne⟩
              rw [hp2v]
              exact addClauseSimp_taut_aux s v hund rest _ hrest ho2 hcur
        · have he2 : (2 * v) ∈ rest := by
            rcases List.mem_cons.mp he with h | h
            · exact absurd h.symm hce
            · exact h
          have ho2 : (2 * v + 1) ∈ rest := by
            rcases List.mem_cons.mp ho with h | h
            · exact absurd h (by
                intro hh
                have hle : cur ≤ 2 * v := hcur _ he2
                have key : ∀ c cc : Nat, cc = 2 * c + 1 → cc ≤ 2 * c → False := by
                  intro c cc hh1 hh2
                  omega
                exact key v cur hh.symm (hh ▸ hle))
            · exact h
          unfold addClauseSimp
          rw [if_neg hcond]
          split
          · exact ih _ _ hrest he2 ho2
          · exact ih _ _ hrest he2 ho2

theorem attachClause_ok (s : Solver) (cr : Nat) : (s.attachClause cr).ok = s.ok := by
  unfold attachClause
  dsimp only
  split <;> rfl

/-- Both polarities of the variable of `x` are in any list containing `x`
and its negation. -/
theorem lit_pair_mem (l : List Lit) (x : Lit) (hx : x ∈ l) (hnx : litNeg x ∈ l) :
    (2 * litVar x) ∈ l ∧ (2 * litVar x + 1) ∈ l := by
  unfold litVar
  have key : ∀ c : Nat, c = 2 * (c / 2) ∨ c = 2 * (c / 2) + 1 := by
    intro c
    omega
  rcases key x with h | h
  · have h2 : litNeg x = 2 * (x / 2) + 1 := by
      conv_lhs => rw [h]
      rw [litNeg_even]
    constructor
    · rw [← h]
      exact hx
    · rw [← h2]
      exact hnx
  · have h2 : litNeg x = 2 * (x / 2) := by
      conv_lhs => rw [h]
      rw [litNeg_odd]
    constructor
    · rw [← h2]
      exact hnx
    · rw [← h]
      exact hx

/-- C8: the `addClause_` contract (lines 529-553).  (i) The returned
Boolean always equals the resulting `ok` flag, so `addClause_` returns
false exactly when the solver has become (and stays) unsatisfiable.
(ii) A clause whose literals all simplify away returns false and latches
`ok := false`.  (iii) The simplification loop collapses duplicate
literals: its output on the sorted input has no duplicates.  (iv) A
tautological clause — one containing a literal and its negation — is
accepted (returns true) and silently dropped: the state is returned
unchanged.  (v) A clause simplifying to a unit literal is enqueued at the
current (level-0) trail position and propagated, the result of the
propagation deciding the returned Boolean and the `ok` flag. -/
theorem c8_addClause :
    (∀ (fuel : Nat) (s : Solver) (ps : List Lit) (b : Bool) (s1 : Solver),
      addClause_ fuel s ps = some (b, s1) → s1.ok = b) ∧
    (∀ (fuel : Nat) (s : Solver) (ps : List Lit),
      s.ok ≠ false → addClauseSimp s none (sortLits ps) [] = some [] →
      addClause_ fuel s ps = some (false, { s with ok := false })) ∧
    (∀ (s : Solver) (ps ps1 : List Lit),
      addClauseSimp s none (sortLits ps) [] = some ps1 → ps1.Nodup) ∧
    (∀ (fuel : Nat) (s : Solver) (ps : List Lit) (x : Lit),
      s.ok ≠ false → x ∈ ps → litNeg x ∈ ps →
      addClause_ fuel s ps = some (true, s)) ∧
    (∀ (fuel : Nat) (s : Solver) (ps : List Lit) (u : Lit),
      s.ok ≠ false → addClauseSimp s none (sortLits ps) [] = some [u] →
      addClause_ fuel s ps =
        match propagate fuel (s.uncheckedEnqueue u none) with
        | none => none
        | some (confl, s2) =>
          some (decide (confl = none), { s2 with ok := decide (confl = none) })) := by
  refine ⟨?_, ?_, ?_, ?_, ?_⟩
  · intro fuel s ps b s1 h
    unfold addClause_ at h
    split at h
    · rename_i hok
      injection h with h1
      injection h1 with hb hs
      subst hb
      subst hs
      exact hok
    · rename_i hok
      have hok' : s.ok = true := by
        cases hh : s.ok
        · exact absurd hh hok
        · rfl
      dsimp only at h
      split at h
      · injection h with h1
        injection h1 with hb hs
        subst hb
        subst hs
        exact hok'
      · split at h
        · injection h with h1
          injection h1 with hb hs
          subst hb
          subst hs
          rfl
        · split at h
          · exact Option.noConfusion h
          · rename_i r hprop
            injection h with h1
            injection h1 with hb hs
            subst hb
            subst hs
            rfl
        · injection h with h1
          injection h1 with hb hs
          subst hb
          subst hs
          rw [attachClause_ok]
          exact hok'
  · intro fuel s ps hok hsimp
    unfold addClause_
    rw [if_neg hok]
    dsimp only
    rw [hsimp]
  · intro s ps ps1 h
    have hp := addClauseSimp_pairwise s (sortLits ps) none [] ps1
      (sortLits_sorted ps) (fun a ha => Option.noConfusion ha) (List.Pairwise.nil)
      (fun y hy => absurd hy (List.not_mem_nil y)) h
    exact hp.imp (fun hlt => Nat.ne_of_lt hlt)
  · intro fuel s ps x hok hx hnx
    obtain ⟨he, ho⟩ := lit_pair_mem (sortLits ps) x
      ((sortLits_mem ps x).mpr hx) ((sortLits_mem ps (litNeg x)).mpr hnx)
    have hnone : addClauseSimp s none (sortLits ps) [] = none :=
      addClauseSimp_taut s (litVar x) (sortLits ps) none []
        (sortLits_sorted ps) he ho
    unfold addClause_
    rw [if_neg hok]
    dsimp only
    rw [hnone]
  · intro fuel s ps u hok hsimp
    unfold addClause_
    rw [if_neg hok]
    dsimp only
    rw [hsimp]

/-- Witness for C8: adding the tautology `x0 ∨ ¬x0` to the fresh
one-variable solver returns true and leaves the state unchanged. -/
theorem c8_addClause_witness :
    addClause_ 1 W1 [mkLit 0 false, mkLit 0 true] = some (true, W1) :=
  c8_addClause.2.2.2.1 1 W1 [mkLit 0 false, mkLit 0 true] (mkLit 0 false)
    (by decide) (by decide) (by decide)

/-!
## Learnt-clause reduction (claim C4) -/

theorem clauseAt_set (ca : List Clause) (cr j : Nat) (c' : Clause) :
    (ca.set cr c').getD j default =
      if cr = j ∧ cr < ca.length then c' else ca.getD j default := by
  rw [List.getD_eq_getElem?_getD, List.getElem?_set]
  by_cases h1 : cr = j
  · subst h1
    by_cases h2 : cr < ca.length
    · rw [if_pos rfl, if_pos h2, if_pos ⟨rfl, h2⟩]
      rfl
    · rw [if_pos rfl, if_neg h2, if_neg (fun hh => h2 hh.2)]
      rw [List.getD_eq_getElem?_getD, List.getElem?_eq_none (Nat.le_of_not_lt h2)]
  · rw [if_neg h1, if_neg (fun hh => h1 hh.1)]
    rw [List.getD_eq_getElem?_getD]

theorem detachClause_frameCA (s : Solver) (cr : Nat) (st : Bool) :
    (s.detachClause cr st).ca = s.ca ∧ (s.detachClause cr st).assigns = s.assigns ∧
      (s.detachClause cr st).vardata = s.vardata := by
  unfold detachClause
  dsimp only
  split <;> (split <;> exact ⟨rfl, rfl, rfl⟩)

theorem locked_congr (s0 s1 : Solver) (cr : Nat)
    (hca : (s1.clauseAt cr).lits = (s0.clauseAt cr).lits)
    (ha : s1.assigns = s0.assigns) (hv : s1.vardata = s0.vardata) :
    s1.locked cr = s0.locked cr := by
  unfold locked value valueVar reasonOf
  dsimp only
  rw [hca, ha, hv]

/-- Removing an unlocked clause only marks its record: literals and
activities at every arena position, the assignment and the variable data
are unchanged. -/
theorem removeClause_content (s1 : Solver) (cr : Nat) (hl : s1.locked cr = false) :
    caContentEq s1 (s1.removeClause cr) ∧
      (s1.removeClause cr).assigns = s1.assigns ∧
      (s1.removeClause cr).vardata = s1.vardata := by
  obtain ⟨hca, has, hvd⟩ := detachClause_frameCA s1 cr false
  have hlock2 : (s1.detachClause cr false).locked cr = false := by
    rw [locked_congr s1 _ cr (by unfold clauseAt; rw [hca]) has hvd]
    exact hl
  unfold removeClause
  dsimp only
  rw [if_neg (by rw [hlock2]; decide)]
  unfold caFree
  dsimp only
  refine ⟨?_, has, hvd⟩
  intro j
  unfold clauseAt
  dsimp only
  rw [hca, clauseAt_set]
  split
  · rename_i hj
    rw [← hj.1]
    exact ⟨rfl, rfl⟩
  · exact ⟨rfl, rfl⟩

/-- The removal loop of `reduceDB`, characterized against the entry
state: the kept references are exactly those failing the removal
condition, and the loop only marks records. -/
theorem reduceFold (s0 : Solver) (extra_lim : ℚ) (n : Nat) :
    ∀ (l : List (Nat × Nat)) (s1 : Solver) (acc : List Nat),
      caContentEq s0 s1 → s1.assigns = s0.assigns → s1.vardata = s0.vardata →
      (l.foldl (fun (acc : Solver × List Nat) ic =>
          if (acc.1.clauseAt ic.2).lits.length > 2 ∧ acc.1.locked ic.2 = false ∧
             (ic.1 < n / 2 ∨ (acc.1.clauseAt ic.2).act < extra_lim) then
            (acc.1.removeClause ic.2, acc.2)
          else (acc.1, acc.2 ++ [ic.2])) (s1, acc)).2 =
        acc ++ (l.filter (fun ic =>
          !(decide ((s0.clauseAt ic.2).lits.length > 2) && !s0.locked ic.2 &&
            (decide (ic.1 < n / 2) ||
             decide ((s0.clauseAt ic.2).act < extra_lim))))).map Prod.snd ∧
      caContentEq s0
        (l.foldl (fun (acc : Solver × List Nat) ic =>
          if (acc.1.clauseAt ic.2).lits.length > 2 ∧ acc.1.locked ic.2 = false ∧
             (ic.1 < n / 2 ∨ (acc.1.clauseAt ic.2).act < extra_lim) then
            (acc.1.removeClause ic.2, acc.2)
          else (acc.1, acc.2 ++ [ic.2])) (s1, acc)).1 ∧
      (l.foldl (fun (acc : Solver × List Nat) ic =>
          if (acc.1.clauseAt ic.2).lits.length > 2 ∧ acc.1.locked ic.2 = false ∧
             (ic.1 < n / 2 ∨ (acc.1.clauseAt ic.2).act < extra_lim) then
            (acc.1.removeClause ic.2, acc.2)
          else (acc.1, acc.2 ++ [ic.2])) (s1, acc)).1.assigns = s0.assigns ∧
      (l.foldl (fun (acc : Solver × List Nat) ic =>
          if (acc.1.clauseAt ic.2).lits.length > 2 ∧ acc.1.locked ic.2 = false ∧
             (ic.1 < n / 2 ∨ (acc.1.clauseAt ic.2).act < extra_lim) then
            (acc.1.removeClause ic.2, acc.2)
          else (acc.1, acc.2 ++ [ic.2])) (s1, acc)).1.vardata = s0.vardata := by
  intro l
  induction l with
  | nil =>
    intro s1 acc h1 h2 h3
    exact ⟨by simp, h1, h2, h3⟩
  | cons ic rest ih =>
    intro s1 acc h1 h2 h3
    rw [List.foldl_cons, List.filter_cons]
    dsimp only
    have hlocked : s1.locked ic.2 = s0.locked ic.2 :=
      locked_congr s0 s1 ic.2 (h1 ic.2).1 h2 h3
    by_cases hc : (s0.clauseAt ic.2).lits.length > 2 ∧ s0.locked ic.2 = false ∧
        (ic.1 < n / 2 ∨ (s0.clauseAt ic.2).act < extra_lim)
    · have hcs : (s1.clauseAt ic.2).lits.length > 2 ∧ s1.locked ic.2 = false ∧
          (ic.1 < n / 2 ∨ (s1.clauseAt ic.2).act < extra_lim) := by
        rw [(h1 ic.2).1, (h1 ic.2).2, hlocked]
        exact hc
      rw [if_pos hcs]
      have hbool : (!(decide ((s0.clauseAt ic.2).lits.length > 2) && !s0.locked ic.2 &&
          (decide (ic.1 < n / 2) ||
           decide ((s0.clauseAt ic.2).act < extra_lim)))) = false := by
        simp only [Bool.not_eq_false', Bool.and_eq_true, decide_eq_true_eq,
          Bool.or_eq_true, Bool.not_eq_true']
        exact ⟨⟨hc.1, hc.2.1⟩, hc.2.2⟩
      rw [if_neg (by rw [hbool]; exact Bool.false_ne_true)]
      obtain ⟨hr1, hr2, hr3⟩ := removeClause_content s1 ic.2 hcs.2.1
      exact ih (s1.removeClause ic.2) acc
        (fun j => ⟨(hr1 j).1.trans (h1 j).1, (hr1 j).2.trans (h1 j).2⟩)
        (hr2.trans h2) (hr3.trans h3)
    · have hcs : ¬((s1.clauseAt ic.2).lits.length > 2 ∧ s1.locked ic.2 = false ∧
          (ic.1 < n / 2 ∨ (s1.clauseAt ic.2).act < extra_lim)) := by
        rw [(h1 ic.2).1, (h1 ic.2).2, hlocked]
        exact hc
      rw [if_neg hcs]
      have hbool : (!(decide ((s0.clauseAt ic.2).lits.length > 2) && !s0.locked ic.2 &&
          (decide (ic.1 < n / 2) ||
           decide ((s0.clauseAt ic.2).act < extra_lim)))) = true := by
        rw [Bool.not_eq_true']
        have hne : ¬((decide ((s0.clauseAt ic.2).lits.length > 2) && !s0.locked ic.2 &&
            (decide (ic.1 < n / 2) ||
             decide ((s0.clauseAt ic.2).act < extra_lim))) = true) := by
          simp only [Bool.and_eq_true, decide_eq_true_eq, Bool.or_eq_true,
            Bool.not_eq_true']
          rintro ⟨⟨ha, hb⟩, hcor⟩
          exact hc ⟨ha, hb, hcor⟩
        exact Bool.eq_false_iff.mpr hne
      rw [if_pos hbool]
      obtain ⟨hh1, hh2, hh3, hh4⟩ := ih s1 (acc ++ [ic.2]) h1 h2 h3
      refine ⟨?_, hh2, hh3, hh4⟩
      rw [hh1, List.map_cons, List.append_assoc, List.singleton_append]

/-- C4: the `reduceDB` contract.  (i) `reduceDB` sorts the learnt
references by the keep order, then removes exactly those clauses that
have size greater than 2, are not locked, and either lie in the lower
half of the sorted order or have activity below `cla_inc` divided by the
learnt count taken before removal; the surviving references, in sorted
order, become the new `learnts`, every arena record keeps its literals
and activity (removal only marks records for the garbage collector), and
the assignment and variable data are untouched.  (ii) In `search`, after
a conflict-free propagation that neither exhausts the budget nor runs the
level-0 simplification, `reduceDB` is invoked exactly when
`learnts.size() - nAssigns() ≥ max_learnts`. -/
theorem c4_reduceDB :
    (∀ (s : Solver), ∃ s1 : Solver,
      reduceDB s = s1.checkGarbage ∧
      s1.learnts = ((sortLearnts s).enum.filter (fun ic =>
        !(decide ((s.clauseAt ic.2).lits.length > 2) && !s.locked ic.2 &&
          (decide (ic.1 < (sortLearnts s).length / 2) ||
           decide ((s.clauseAt ic.2).act < s.cla_inc / (s.learnts.length : ℚ)))))).map
          Prod.snd ∧
      caContentEq s s1 ∧ s1.assigns = s.assigns ∧ s1.vardata = s.vardata) ∧
    (∀ (fuel : Nat) (s : Solver) (nof : Int) (cC : Nat) (s2 : Solver),
      propagate fuel s = some (none, s2) →
      ¬((0 ≤ nof ∧ (cC : Int) ≥ nof) ∨ s2.withinBudget = false) →
      ¬(s2.decisionLevel = 0) →
      searchBody fuel s nof cC =
        searchDecide fuel
          (if (((s2.learnts.length : Int) - (s2.nAssigns : Int) : Int) : ℚ) ≥ s2.max_learnts
           then s2.reduceDB else s2) cC) := by
  constructor
  · intro s
    unfold reduceDB
    dsimp only
    obtain ⟨hh1, hh2, hh3, hh4⟩ := reduceFold s (s.cla_inc / (s.learnts.length : ℚ))
      (sortLearnts s).length (sortLearnts s).enum s []
      (fun j => ⟨rfl, rfl⟩) rfl rfl
    exact ⟨_, rfl, hh1, hh2, hh3, hh4⟩
  · intro fuel s nof cC s2 hp hb hlvl
    unfold searchBody
    rw [hp]
    dsimp only
    rw [if_neg hb, if_neg hlvl]
    dsimp only
    rw [if_neg (by decide)]

/-- Witness for C4's search-trigger conjunct: a fresh one-variable solver
raised to decision level 1 (no trail yet) propagates vacuously, stays in
budget, and `search` proceeds to the reduceDB check. -/
theorem c4_reduceDB_witness :
    searchBody 1 W4 (-1) 0 =
      searchDecide 1
        (if (((W4p.learnts.length : Int) - (W4p.nAssigns : Int) : Int) : ℚ) ≥ W4p.max_learnts
         then W4p.reduceDB else W4p) 0 :=
  c4_reduceDB.2 1 W4 (-1) 0 W4p rfl (by decide) (by decide)

/-!
## Level-0 simplification (claim C6) -/

/-- `satisfied` reads only the clause literals and the assignment. -/
theorem satisfied_congr (s0 s1 : Solver) (h : s1.assigns = s0.assigns) (c : Clause) :
    s1.satisfied c = s0.satisfied c := by
  unfold satisfied value valueVar
  rw [h]

/-- A clause built from a subset of the literals of an unsatisfied clause
is unsatisfied. -/
theorem satisfied_false_subset (s : Solver) (c c' : Clause)
    (hsub : ∀ x ∈ c'.lits, x ∈ c.lits) (h : s.satisfied c = false) :
    s.satisfied c' = false := by
  unfold satisfied at h ⊢
  rw [List.any_eq_false] at h ⊢
  exact fun x hx => h x (hsub x hx)

/-- The false-literal shrinking loop only drops literals: its output is a
subset of its input. -/
theorem shrinkClauseLits_subset_fuel (s : Solver) :
    ∀ (fuel k : Nat) (lits : List Lit), 2 * lits.length - k ≤ fuel →
      ∀ x ∈ s.shrinkClauseLits k lits, x ∈ lits := by
  intro fuel
  induction fuel with
  | zero =>
    intro k lits hf x hx
    unfold shrinkClauseLits at hx
    rw [dif_neg (by omega)] at hx
    exact hx
  | succ n ihf =>
    intro k lits hf x hx
    unfold shrinkClauseLits at hx
    split at hx
    · rename_i hk
      split at hx
      · have hx2 := ihf k ((lits.set k (lits.getD (lits.length - 1) 0)).dropLast)
          (by simp only [List.length_dropLast, List.length_set]; omega) x hx
        have hx3 := (List.dropLast_sublist _).subset hx2
        rcases List.mem_or_eq_of_mem_set hx3 with h3 | h3
        · exact h3
        · subst h3
          rw [List.getD_eq_getElem _ _ (by omega)]
          exact List.getElem_mem (by omega)
      · exact ihf (k + 1) lits (by omega) x hx
    · exact hx

theorem shrinkClauseLits_subset (s : Solver) (k : Nat) (lits : List Lit) :
    ∀ x ∈ s.shrinkClauseLits k lits, x ∈ lits :=
  shrinkClauseLits_subset_fuel s (2 * lits.length) k lits (by omega)

theorem removeClause_assigns (s : Solver) (cr : Nat) :
    (s.removeClause cr).assigns = s.assigns := by
  obtain ⟨hca, has, hvd⟩ := detachClause_frameCA s cr false
  unfold removeClause caFree
  dsimp only
  split <;> exact has

/-- Removing a clause does not change any other arena record. -/
theorem removeClause_clauseAt_ne (s : Solver) (cr j : Nat) (hne : j ≠ cr) :
    (s.removeClause cr).clauseAt j = s.clauseAt j := by
  obtain ⟨hca, has, hvd⟩ := detachClause_frameCA s cr false
  unfold removeClause caFree
  dsimp only
  unfold clauseAt
  split <;>
    (dsimp only
     rw [hca, clauseAt_set, if_neg (fun hh => hne hh.1.symm)])

/-- `satisfied` reads only the literal list of its clause argument. -/
theorem satisfied_eq_lits (s : Solver) (c c' : Clause) (h : c'.lits = c.lits) :
    s.satisfied c' = s.satisfied c := by
  unfold satisfied
  rw [h]

/-- Reading the arena through a single-record update. -/
theorem clauseAt_update (s : Solver) (cr : Nat) (c' : Clause) (j : Nat) :
    ({ s with ca := s.ca.set cr c' } : Solver).clauseAt j =
      if cr = j ∧ cr < s.ca.length then c' else s.clauseAt j := by
  unfold clauseAt
  dsimp only
  rw [clauseAt_set]

/-- Removing a clause installs no forwarding pointer anywhere: it only
sets the mark of its own record. -/
theorem removeClause_reloced (s : Solver) (cr j : Nat) :
    ((s.removeClause cr).clauseAt j).reloced = (s.clauseAt j).reloced := by
  obtain ⟨hca, has, hvd⟩ := detachClause_frameCA s cr false
  unfold removeClause caFree
  dsimp only
  unfold clauseAt
  split
  · dsimp only
    rw [hca, clauseAt_set]
    split
    · rename_i hh
      cases hh.1
      rfl
    · rfl
  · dsimp only
    rw [hca, clauseAt_set]
    split
    · rename_i hh
      cases hh.1
      rfl
    · rfl

/-- Removing a clause leaves both reference lists and the
`remove_satisfied` option unchanged. -/
theorem removeClause_lists (s : Solver) (cr : Nat) :
    (s.removeClause cr).clauses = s.clauses ∧
    (s.removeClause cr).learnts = s.learnts ∧
    (s.removeClause cr).remove_satisfied = s.remove_satisfied := by
  unfold removeClause detachClause
  dsimp only
  split <;> (split <;> (split <;> exact ⟨rfl, rfl, rfl⟩))

/-- `getD` through an append, inside the prefix. -/
theorem getD_append_left (l1 l2 : List Clause) (n : Nat) (h : n < l1.length) :
    (l1 ++ l2).getD n default = l1.getD n default := by
  rw [List.getD_eq_getElem?_getD, List.getD_eq_getElem?_getD,
    List.getElem?_append_left h]

/-- `getD` at the fresh position of a one-record extension. -/
theorem getD_concat_length (l : List Clause) (a : Clause) :
    (l ++ [a]).getD l.length default = a := by
  rw [List.getD_eq_getElem?_getD, List.getElem?_concat_length]
  rfl

theorem caExt_refl (t : List Clause) : caExt t t :=
  ⟨le_refl _, fun _ _ => rfl⟩

theorem caExt_trans {t1 t2 t3 : List Clause} (h12 : caExt t1 t2)
    (h23 : caExt t2 t3) : caExt t1 t3 :=
  ⟨le_trans h12.1 h23.1,
    fun n hn => (h23.2 n (lt_of_lt_of_le hn h12.1)).trans (h12.2 n hn)⟩

/-- Every right element of a `Forall₂` correspondence has a related left
element. -/
theorem forall₂_mem_right {α β : Type} {R : α → β → Prop} :
    ∀ {l1 : List α} {l2 : List β}, List.Forall₂ R l1 l2 →
      ∀ b ∈ l2, ∃ a ∈ l1, R a b := by
  intro l1 l2 h
  induction h with
  | nil => exact fun b hb => absurd hb (List.not_mem_nil b)
  | cons hR hF ih =>
    intro b hb
    rcases List.mem_cons.mp hb with rfl | hb
    · exact ⟨_, List.mem_cons_self _ _, hR⟩
    · obtain ⟨a, ha, hr⟩ := ih b hb
      exact ⟨a, List.mem_cons_of_mem _ ha, hr⟩

/-- One `reloc` step preserves the relocation invariant, only extends the
target arena, and returns a valid target reference that carries the
original literals of the requested record. -/
theorem reloc_spec (ca0 oldCa toCa : List Clause) (cr : Nat)
    (h : relocInv ca0 oldCa toCa) :
    relocInv ca0 (reloc oldCa toCa cr).2.1 (reloc oldCa toCa cr).2.2 ∧
    caExt toCa (reloc oldCa toCa cr).2.2 ∧
    ((reloc oldCa toCa cr).1 < (reloc oldCa toCa cr).2.2.length ∧
      (((reloc oldCa toCa cr).2.2.getD (reloc oldCa toCa cr).1 default)).lits =
        (ca0.getD cr default).lits) := by
  rcases hc : (oldCa.getD cr default).reloced with _ | ncr
  · have he : reloc oldCa toCa cr =
        (toCa.length,
         oldCa.set cr { oldCa.getD cr default with reloced := some toCa.length },
         toCa ++ [{ oldCa.getD cr default with reloced := none }]) := by
      unfold reloc
      dsimp only
      rw [hc]
    rw [he]
    dsimp only
    refine ⟨⟨?_, ?_⟩, ⟨?_, ?_⟩, ?_, ?_⟩
    · intro j
      rw [clauseAt_set]
      by_cases hh : cr = j ∧ cr < oldCa.length
      · rw [if_pos hh]
        cases hh.1
        exact ⟨(h.1 cr).1, (h.1 cr).2⟩
      · rw [if_neg hh]
        exact h.1 j
    · intro j n hj
      rw [clauseAt_set] at hj
      by_cases hh : cr = j ∧ cr < oldCa.length
      · rw [if_pos hh] at hj
        obtain ⟨hcrj, _⟩ := hh
        cases hcrj
        have hj2 : some toCa.length = some n := hj
        injection hj2 with hn
        cases hn
        constructor
        · rw [List.length_append, List.length_singleton]
          omega
        · rw [getD_concat_length]
          exact (h.1 cr).1
      · rw [if_neg hh] at hj
        obtain ⟨hb1, hb2⟩ := h.2 j n hj
        constructor
        · rw [List.length_append]
          exact lt_of_lt_of_le hb1 (Nat.le_add_right _ _)
        · rw [getD_append_left _ _ _ hb1]
          exact hb2
    · rw [List.length_append]
      exact Nat.le_add_right _ _
    · intro n hn
      exact getD_append_left _ _ _ hn
    · rw [List.length_append, List.length_singleton]
      omega
    · rw [getD_concat_length]
      exact (h.1 cr).1
  · have he : reloc oldCa toCa cr = (ncr, oldCa, toCa) := by
      unfold reloc
      dsimp only
      rw [hc]
    rw [he]
    exact ⟨h, caExt_refl toCa, (h.2 cr ncr hc).1, (h.2 cr ncr hc).2⟩

/-- The watcher-bucket fold of `relocWatches` preserves the relocation
invariant and only extends the target arena. -/
theorem relocWatchList_inv (ca0 : List Clause) :
    ∀ (ws : List Watcher) (acc2 res2 : List Watcher × List Clause × List Clause),
      res2 = ws.foldl
        (fun (acc2 : List Watcher × List Clause × List Clause) w =>
          let r := reloc acc2.2.1 acc2.2.2 w.cref
          (acc2.1 ++ [{ w with cref := r.1 }], r.2.1, r.2.2)) acc2 →
      relocInv ca0 acc2.2.1 acc2.2.2 →
      relocInv ca0 res2.2.1 res2.2.2 ∧ caExt acc2.2.2 res2.2.2 := by
  intro ws
  induction ws with
  | nil =>
    intro acc2 res2 hres h
    rw [List.foldl_nil] at hres
    subst hres
    exact ⟨h, caExt_refl _⟩
  | cons w rest ih =>
    intro acc2 res2 hres h
    rw [List.foldl_cons] at hres
    dsimp only at hres
    obtain ⟨rInv, rExt, _⟩ := reloc_spec ca0 acc2.2.1 acc2.2.2 w.cref h
    obtain ⟨iInv, iExt⟩ := ih _ res2 hres rInv
    exact ⟨iInv, caExt_trans rExt iExt⟩

/-- The per-literal fold of `relocWatches` preserves the relocation
invariant, only extends the target arena, and never touches the
assignment or the clause-reference lists. -/
theorem relocWatchesFold_inv (ca0 : List Clause) :
    ∀ (l : List Nat) (acc res : Solver × List Clause),
      res = l.foldl
        (fun (acc : Solver × List Clause) p =>
          let s := acc.1
          let res := (s.watches.getD p []).foldl
            (fun (acc2 : List Watcher × List Clause × List Clause) w =>
              let r := reloc acc2.2.1 acc2.2.2 w.cref
              (acc2.1 ++ [{ w with cref := r.1 }], r.2.1, r.2.2))
            ([], s.ca, acc.2)
          ({ s with ca := res.2.1, watches := s.watches.set p res.1 }, res.2.2)) acc →
      relocInv ca0 acc.1.ca acc.2 →
      relocInv ca0 res.1.ca res.2 ∧ caExt acc.2 res.2 ∧
      res.1.assigns = acc.1.assigns ∧ res.1.learnts = acc.1.learnts ∧
      res.1.clauses = acc.1.clauses ∧ res.1.trail = acc.1.trail := by
  intro l
  induction l with
  | nil =>
    intro acc res hres h
    rw [List.foldl_nil] at hres
    subst hres
    exact ⟨h, caExt_refl _, rfl, rfl, rfl, rfl⟩
  | cons p rest ih =>
    intro acc res hres h
    rw [List.foldl_cons] at hres
    dsimp only at hres
    obtain ⟨bInv, bExt⟩ := relocWatchList_inv ca0 (acc.1.watches.getD p [])
      ([], acc.1.ca, acc.2) _ rfl h
    obtain ⟨iInv, iExt, ia, il, ic, it⟩ := ih _ res hres bInv
    exact ⟨iInv, caExt_trans bExt iExt, ia, il, ic, it⟩

/-- The reason pass of `relocAll` preserves the relocation invariant,
only extends the target arena, and keeps the assignment and the
clause-reference lists. -/
theorem relocReasonsFold_inv (ca0 : List Clause) :
    ∀ (l : List Lit) (acc res : Solver × List Clause),
      res = l.foldl
        (fun (acc : Solver × List Clause) p =>
          let s := acc.1
          let v := litVar p
          match s.reasonOf v with
          | none => (s, acc.2)
          | some cr =>
            if (s.clauseAt cr).reloced ≠ none ∨ s.locked cr then
              let r := reloc s.ca acc.2 cr
              let vd := { s.vardata.getD v default with reason := some r.1 }
              ({ s with ca := r.2.1, vardata := s.vardata.set v vd }, r.2.2)
            else (s, acc.2)) acc →
      relocInv ca0 acc.1.ca acc.2 →
      relocInv ca0 res.1.ca res.2 ∧ caExt acc.2 res.2 ∧
      res.1.assigns = acc.1.assigns ∧ res.1.learnts = acc.1.learnts ∧
      res.1.clauses = acc.1.clauses := by
  intro l
  induction l with
  | nil =>
    intro acc res hres h
    rw [List.foldl_nil] at hres
    subst hres
    exact ⟨h, caExt_refl _, rfl, rfl, rfl⟩
  | cons p rest ih =>
    intro acc res hres h
    rw [List.foldl_cons] at hres
    dsimp only at hres
    split at hres
    · obtain ⟨iInv, iExt, ia, il, ic⟩ := ih _ res hres h
      exact ⟨iInv, iExt, ia, il, ic⟩
    · rename_i cr hcr
      split at hres
      · obtain ⟨rInv, rExt, _⟩ := reloc_spec ca0 acc.1.ca acc.2 cr h
        obtain ⟨iInv, iExt, ia, il, ic⟩ := ih _ res hres rInv
        exact ⟨iInv, caExt_trans rExt iExt, ia, il, ic⟩
      · obtain ⟨iInv, iExt, ia, il, ic⟩ := ih _ res hres h
        exact ⟨iInv, iExt, ia, il, ic⟩

/-- The reference-list pass of `relocAll`: under the invariant, and with
every swept reference unmarked at entry, the pass relocates each
reference in order and the final arena holds each record's original
literals at the relocated position. -/
theorem relocCRefFold_spec (ca0 : List Clause) :
    ∀ (l : List Nat) (st res : List Nat × List Clause × List Clause),
      res = l.foldl
        (fun (acc : List Nat × List Clause × List Clause) cr =>
          if (acc.2.1.getD cr default).mark = 1 then acc
          else
            let r := reloc acc.2.1 acc.2.2 cr
            (acc.1 ++ [r.1], r.2.1, r.2.2)) st →
      relocInv ca0 st.2.1 st.2.2 →
      (∀ cr ∈ l, (ca0.getD cr default).mark = 0) →
      relocInv ca0 res.2.1 res.2.2 ∧ caExt st.2.2 res.2.2 ∧
      ∃ newRefs : List Nat, res.1 = st.1 ++ newRefs ∧
        List.Forall₂ (fun cr n => n < res.2.2.length ∧
          (res.2.2.getD n default).lits = (ca0.getD cr default).lits) l newRefs := by
  intro l
  induction l with
  | nil =>
    intro st res hres hInv _
    rw [List.foldl_nil] at hres
    subst hres
    exact ⟨hInv, caExt_refl _, [], (List.append_nil _).symm, List.Forall₂.nil⟩
  | cons cr rest ih =>
    intro st res hres hInv hm
    rw [List.foldl_cons] at hres
    dsimp only at hres
    split at hres
    · rename_i hmark
      have h01 : (1 : Nat) = 0 :=
        (hmark.symm.trans ((hInv.1 cr).2)).trans (hm cr (List.mem_cons_self _ _))
      exact absurd h01 (by decide)
    · obtain ⟨rInv, rExt, rLt, rLits⟩ := reloc_spec ca0 st.2.1 st.2.2 cr hInv
      obtain ⟨iInv, iExt, nl, hApp, hF⟩ := ih _ res hres rInv
        (fun c hc => hm c (List.mem_cons_of_mem _ hc))
      have hx : (st.1 ++ [(reloc st.2.1 st.2.2 cr).1]) ++ nl
          = st.1 ++ (reloc st.2.1 st.2.2 cr).1 :: nl := by
        simp
      refine ⟨iInv, caExt_trans rExt iExt, (reloc st.2.1 st.2.2 cr).1 :: nl,
        hApp.trans hx, List.Forall₂.cons ⟨?_, ?_⟩ hF⟩
      · exact lt_of_lt_of_le rLt iExt.1
      · rw [iExt.2 _ rLt]
        exact rLits

/-- `cleanAll` only rewrites watch buckets and dirty bits. -/
theorem cleanAll_frame (s : Solver) :
    s.cleanAll.ca = s.ca ∧ s.cleanAll.assigns = s.assigns ∧
    s.cleanAll.learnts = s.learnts ∧ s.cleanAll.clauses = s.clauses := by
  unfold cleanAll
  refine foldl_inv
    (fun (s2 : Solver) => s2.ca = s.ca ∧ s2.assigns = s.assigns ∧
      s2.learnts = s.learnts ∧ s2.clauses = s.clauses) _ ?_ _ _ ⟨rfl, rfl, rfl, rfl⟩
  intro s2 p h
  unfold cleanBucket
  split
  · exact h
  · exact h

/-- `relocAll` in terms of its stage views. -/
theorem relocAll_eq (s : Solver) :
    relocAll s = ({ (gcR s).1 with ca := (gcC s).2.1, learnts := (gcL s).1, clauses := (gcC s).1 }, (gcC s).2.2) := rfl

/-- `relocAll` keeps the assignment, and renumbers the two reference
lists so that each new reference resolves, in the fresh arena, to a
record with the original clause's literals. -/
theorem relocAll_spec (s : Solver)
    (hrel : ∀ j : Nat, (s.clauseAt j).reloced = none)
    (hmL : ∀ cr ∈ s.learnts, (s.clauseAt cr).mark = 0)
    (hmC : ∀ cr ∈ s.clauses, (s.clauseAt cr).mark = 0) :
    (relocAll s).1.assigns = s.assigns ∧
    List.Forall₂ (fun cr n => (((relocAll s).2).getD n default).lits = (s.clauseAt cr).lits)
      s.learnts (relocAll s).1.learnts ∧
    List.Forall₂ (fun cr n => (((relocAll s).2).getD n default).lits = (s.clauseAt cr).lits)
      s.clauses (relocAll s).1.clauses := by
  obtain ⟨hcca, hcas, hcle, hccl⟩ := cleanAll_frame s
  have hrel2 : ∀ j : Nat, (s.ca.getD j default).reloced = none := hrel
  have hInv0 : relocInv s.ca s.cleanAll.ca [] := by
    constructor
    · intro j
      rw [hcca]
      exact ⟨rfl, rfl⟩
    · intro j n hj
      rw [hcca, hrel2 j] at hj
      exact Option.noConfusion hj
  obtain ⟨hWInv, hWExt, hWas, hWle, hWcl, hWt⟩ :=
    relocWatchesFold_inv s.ca (List.range (2 * s.cleanAll.next_var)) (s.cleanAll, [])
      (gcW s) rfl hInv0
  obtain ⟨hRInv, hRExt, hRas, hRle, hRcl⟩ :=
    relocReasonsFold_inv s.ca (gcW s).1.trail ((gcW s).1, (gcW s).2) (gcR s) rfl hWInv
  have hlearn : (gcR s).1.learnts = s.learnts :=
    (show (gcR s).1.learnts = (gcW s).1.learnts from hRle).trans
      ((show (gcW s).1.learnts = s.cleanAll.learnts from hWle).trans hcle)
  have hclaus : (gcR s).1.clauses = s.clauses :=
    (show (gcR s).1.clauses = (gcW s).1.clauses from hRcl).trans
      ((show (gcW s).1.clauses = s.cleanAll.clauses from hWcl).trans hccl)
  have hassign : (gcR s).1.assigns = s.assigns :=
    (show (gcR s).1.assigns = (gcW s).1.assigns from hRas).trans
      ((show (gcW s).1.assigns = s.cleanAll.assigns from hWas).trans hcas)
  have hmL2 : ∀ cr ∈ (gcR s).1.learnts, (s.ca.getD cr default).mark = 0 := by
    rw [hlearn]
    exact hmL
  have hmC2 : ∀ cr ∈ (gcR s).1.clauses, (s.ca.getD cr default).mark = 0 := by
    rw [hclaus]
    exact hmC
  obtain ⟨hLInv, hLExt, nl, hLapp, hLF⟩ :=
    relocCRefFold_spec s.ca (gcR s).1.learnts (([] : List Nat), (gcR s).1.ca, (gcR s).2)
      (gcL s) rfl hRInv hmL2
  obtain ⟨hCInv, hCExt, nc, hCapp, hCF⟩ :=
    relocCRefFold_spec s.ca (gcR s).1.clauses (([] : List Nat), (gcL s).2.1, (gcL s).2.2)
      (gcC s) rfl hLInv hmC2
  have hCExt2 : caExt (gcL s).2.2 (gcC s).2.2 := hCExt
  have hLnl : (gcL s).1 = nl := hLapp.trans (List.nil_append nl)
  have hCnc : (gcC s).1 = nc := hCapp.trans (List.nil_append nc)
  rw [relocAll_eq s]
  dsimp only
  refine ⟨hassign, ?_, ?_⟩
  · rw [hLnl, ← hlearn]
    refine List.Forall₂.imp ?_ hLF
    intro a b hab
    rw [hCExt2.2 b hab.1]
    exact hab.2
  · rw [hCnc, ← hclaus]
    refine List.Forall₂.imp ?_ hCF
    intro a b hab
    exact hab.2

/-- `garbageCollect` keeps the assignment and renumbers the reference
lists content-faithfully. -/
theorem garbageCollect_content (s : Solver)
    (hrel : ∀ j : Nat, (s.clauseAt j).reloced = none)
    (hmL : ∀ cr ∈ s.learnts, (s.clauseAt cr).mark = 0)
    (hmC : ∀ cr ∈ s.clauses, (s.clauseAt cr).mark = 0) :
    s.garbageCollect.assigns = s.assigns ∧
    List.Forall₂ (fun cr n => (s.garbageCollect.clauseAt n).lits = (s.clauseAt cr).lits)
      s.learnts s.garbageCollect.learnts ∧
    List.Forall₂ (fun cr n => (s.garbageCollect.clauseAt n).lits = (s.clauseAt cr).lits)
      s.clauses s.garbageCollect.clauses := by
  obtain ⟨h1, h2, h3⟩ := relocAll_spec s hrel hmL hmC
  exact ⟨h1, h2, h3⟩

/-- `checkGarbage` keeps the assignment and renumbers the reference
lists content-faithfully (trivially so when it does not collect). -/
theorem checkGarbage_content (s : Solver)
    (hrel : ∀ j : Nat, (s.clauseAt j).reloced = none)
    (hmL : ∀ cr ∈ s.learnts, (s.clauseAt cr).mark = 0)
    (hmC : ∀ cr ∈ s.clauses, (s.clauseAt cr).mark = 0) :
    s.checkGarbage.assigns = s.assigns ∧
    List.Forall₂ (fun cr n => (s.checkGarbage.clauseAt n).lits = (s.clauseAt cr).lits)
      s.learnts s.checkGarbage.learnts ∧
    List.Forall₂ (fun cr n => (s.checkGarbage.clauseAt n).lits = (s.clauseAt cr).lits)
      s.clauses s.checkGarbage.clauses := by
  by_cases hq : (s.caWasted : ℚ) > (s.caSize : ℚ) * s.garbage_frac
  · have hgc : s.checkGarbage = s.garbageCollect := by
      unfold checkGarbage
      rw [if_pos hq]
    rw [hgc]
    exact garbageCollect_content s hrel hmL hmC
  · have hgc : s.checkGarbage = s := by
      unfold checkGarbage
      rw [if_neg hq]
    rw [hgc]
    refine ⟨rfl, ?_, ?_⟩
    · exact List.forall₂_same.mpr (fun x _ => rfl)
    · exact List.forall₂_same.mpr (fun x _ => rfl)

/-- An unsatisfied-references property transfers along a renumbering that
keeps the assignment and the clause contents. -/
theorem satisfied_transfer (sA sB : Solver) (lA lB : List Nat)
    (ha : sB.assigns = sA.assigns)
    (hf : List.Forall₂ (fun cr n => (sB.clauseAt n).lits = (sA.clauseAt cr).lits) lA lB)
    (h : ∀ cr ∈ lA, sA.satisfied (sA.clauseAt cr) = false) :
    ∀ n ∈ lB, sB.satisfied (sB.clauseAt n) = false := by
  intro n hn
  obtain ⟨cr, hcr, hlits⟩ := forall₂_mem_right hf n hn
  rw [satisfied_eq_lits sB (sA.clauseAt cr) (sB.clauseAt n) hlits,
    satisfied_congr sA sB ha]
  exact h cr hcr

/-- The removal pass of `removeSatisfied`: relative to the entry state
`s0` and an enclosing sweep set `T`, the pass keeps only unsatisfied
(possibly shrunk) clauses, never touches the assignment, the reference
lists or any record outside `T`, sets no forwarding pointer, and
preserves the marks of the kept references. -/
theorem removeSatFold (s0 : Solver) (T : List Nat) :
    ∀ (l : List Nat) (s1 : Solver) (acc : List Nat) (res : Solver × List Nat),
      res = l.foldl (fun (acc : Solver × List Nat) cr =>
          if acc.1.satisfied (acc.1.clauseAt cr) then (acc.1.removeClause cr, acc.2)
          else
            ({ acc.1 with ca := acc.1.ca.set cr { acc.1.clauseAt cr with lits := acc.1.shrinkClauseLits 2 (acc.1.clauseAt cr).lits } }, acc.2 ++ [cr])) (s1, acc) →
      s1.assigns = s0.assigns →
      (∀ cr ∈ acc, s1.satisfied (s1.clauseAt cr) = false) →
      (∀ cr ∈ acc, cr ∉ l) →
      l.Nodup →
      (∀ cr ∈ acc, (s1.clauseAt cr).mark = (s0.clauseAt cr).mark) →
      (∀ j : Nat, (s1.clauseAt j).reloced = (s0.clauseAt j).reloced) →
      (∀ cr ∈ l, cr ∈ T) →
      (∀ j : Nat, j ∉ T → s1.clauseAt j = s0.clauseAt j) →
      (∀ cr ∈ l, s1.clauseAt cr = s0.clauseAt cr) →
      res.1.assigns = s0.assigns ∧
      (∀ cr ∈ res.2, res.1.satisfied (res.1.clauseAt cr) = false) ∧
      (∀ cr ∈ res.2, (res.1.clauseAt cr).mark = (s0.clauseAt cr).mark) ∧
      (∀ j : Nat, (res.1.clauseAt j).reloced = (s0.clauseAt j).reloced) ∧
      (∀ j : Nat, j ∉ T → res.1.clauseAt j = s0.clauseAt j) ∧
      (∀ cr ∈ res.2, cr ∈ acc ∨ cr ∈ l) ∧
      res.1.clauses = s1.clauses ∧ res.1.learnts = s1.learnts ∧
      res.1.remove_satisfied = s1.remove_satisfied := by
  intro l
  induction l with
  | nil =>
    intro s1 acc res hres h1 h2 _ _ h5 h6 _ hT2 _
    rw [List.foldl_nil] at hres
    subst hres
    exact ⟨h1, h2, h5, h6, hT2, fun cr hcr => Or.inl hcr, rfl, rfl, rfl⟩
  | cons cur rest ih =>
    intro s1 acc res hres h1 h2 h3 h4 h5 h6 hT1 hT2 h9
    rw [List.foldl_cons] at hres
    dsimp only at hres
    rw [List.nodup_cons] at h4
    have hcurT : cur ∈ T := hT1 cur (List.mem_cons_self _ _)
    split at hres
    · obtain ⟨k1, k2, k3, k4, k5, k6, k7, k8, k9⟩ := ih (s1.removeClause cur) acc res hres
        ((removeClause_assigns s1 cur).trans h1)
        (fun cr hcr => by
          have hne : cr ≠ cur := fun hh => (h3 cr hcr) (hh ▸ List.mem_cons_self _ _)
          rw [removeClause_clauseAt_ne s1 cur cr hne,
            satisfied_congr s1 (s1.removeClause cur) (removeClause_assigns s1 cur)]
          exact h2 cr hcr)
        (fun cr hcr hh => (h3 cr hcr) (List.mem_cons_of_mem _ hh))
        h4.2
        (fun cr hcr => by
          have hne : cr ≠ cur := fun hh => (h3 cr hcr) (hh ▸ List.mem_cons_self _ _)
          rw [removeClause_clauseAt_ne s1 cur cr hne]
          exact h5 cr hcr)
        (fun j => (removeClause_reloced s1 cur j).trans (h6 j))
        (fun cr hcr => hT1 cr (List.mem_cons_of_mem _ hcr))
        (fun j hj => by
          have hne : j ≠ cur := fun hh => hj (hh ▸ hcurT)
          rw [removeClause_clauseAt_ne s1 cur j hne]
          exact hT2 j hj)
        (fun cr hcr => by
          have hne : cr ≠ cur := fun hh => h4.1 (hh ▸ hcr)
          rw [removeClause_clauseAt_ne s1 cur cr hne]
          exact h9 cr (List.mem_cons_of_mem _ hcr))
      have k6b : ∀ cr ∈ res.2, cr ∈ acc ∨ cr ∈ cur :: rest :=
        fun cr hcr => (k6 cr hcr).imp id (List.mem_cons_of_mem _)
      exact ⟨k1, k2, k3, k4, k5, k6b,
        k7.trans (removeClause_lists s1 cur).1,
        k8.trans (removeClause_lists s1 cur).2.1,
        k9.trans (removeClause_lists s1 cur).2.2⟩
    · rename_i hnsat
      have hsatf : s1.satisfied (s1.clauseAt cur) = false := Bool.eq_false_iff.mpr hnsat
      have hup : ∀ j : Nat,
          ({ s1 with ca := s1.ca.set cur { s1.clauseAt cur with lits := s1.shrinkClauseLits 2 (s1.clauseAt cur).lits } } : Solver).clauseAt j =
            if cur = j ∧ cur < s1.ca.length then { s1.clauseAt cur with lits := s1.shrinkClauseLits 2 (s1.clauseAt cur).lits } else s1.clauseAt j :=
        fun j => clauseAt_update s1 cur _ j
      have hassigns : ({ s1 with ca := s1.ca.set cur { s1.clauseAt cur with lits := s1.shrinkClauseLits 2 (s1.clauseAt cur).lits } } : Solver).assigns = s1.assigns := rfl
      obtain ⟨k1, k2, k3, k4, k5, k6, k7, k8, k9⟩ := ih _ (acc ++ [cur]) res hres
        h1
        (fun cr hcr => by
          rw [satisfied_congr s1 _ hassigns, hup cr]
          rcases List.mem_append.mp hcr with hcr2 | hcr2
          · have hne : cur ≠ cr := fun hh => (h3 cr hcr2) (hh ▸ List.mem_cons_self _ _)
            rw [if_neg (fun hh => hne hh.1)]
            exact h2 cr hcr2
          · rw [List.mem_singleton] at hcr2
            rw [hcr2]
            split
            · exact satisfied_false_subset s1 (s1.clauseAt cur) _
                (shrinkClauseLits_subset s1 2 (s1.clauseAt cur).lits) hsatf
            · exact hsatf)
        (fun cr hcr hh => by
          rcases List.mem_append.mp hcr with hcr2 | hcr2
          · exact (h3 cr hcr2) (List.mem_cons_of_mem _ hh)
          · rw [List.mem_singleton] at hcr2
            exact h4.1 (hcr2 ▸ hh))
        h4.2
        (fun cr hcr => by
          rw [hup cr]
          rcases List.mem_append.mp hcr with hcr2 | hcr2
          · have hne : cur ≠ cr := fun hh => (h3 cr hcr2) (hh ▸ List.mem_cons_self _ _)
            rw [if_neg (fun hh => hne hh.1)]
            exact h5 cr hcr2
          · rw [List.mem_singleton] at hcr2
            rw [hcr2]
            by_cases hlt : cur = cur ∧ cur < s1.ca.length
            · rw [if_pos hlt]
              show (s1.clauseAt cur).mark = (s0.clauseAt cur).mark
              rw [h9 cur (List.mem_cons_self _ _)]
            · rw [if_neg hlt]
              rw [h9 cur (List.mem_cons_self _ _)])
        (fun j => by
          rw [hup j]
          by_cases hh : cur = j ∧ cur < s1.ca.length
          · rw [if_pos hh]
            show (s1.clauseAt cur).reloced = (s0.clauseAt j).reloced
            rw [← hh.1]
            exact h6 cur
          · rw [if_neg hh]
            exact h6 j)
        (fun cr hcr => hT1 cr (List.mem_cons_of_mem _ hcr))
        (fun j hj => by
          rw [hup j]
          have hne : cur ≠ j := fun hh => hj (hh ▸ hcurT)
          rw [if_neg (fun hh2 => hne hh2.1)]
          exact hT2 j hj)
        (fun cr hcr => by
          rw [hup cr]
          have hne : cur ≠ cr := fun hh => h4.1 (hh ▸ hcr)
          rw [if_neg (fun hh2 => hne hh2.1)]
          exact h9 cr (List.mem_cons_of_mem _ hcr))
      have k6b : ∀ cr ∈ res.2, cr ∈ acc ∨ cr ∈ cur :: rest := by
        intro cr hcr
        rcases k6 cr hcr with hk | hk
        · rcases List.mem_append.mp hk with hk2 | hk2
          · exact Or.inl hk2
          · rw [List.mem_singleton] at hk2
            exact Or.inr (hk2 ▸ List.mem_cons_self _ _)
        · exact Or.inr (List.mem_cons_of_mem _ hk)
      exact ⟨k1, k2, k3, k4, k5, k6b, k7, k8, k9⟩

/-- The learnt sweep `removeSatisfied(learnts)`: afterwards no reference
left in `learnts` is satisfied; original clauses, marks of kept records,
forwarding pointers, the assignment and records outside `learnts` are
untouched. -/
theorem removeSatisfiedL_spec (s : Solver) (hnd : s.learnts.Nodup) :
    (s.removeSatisfied true).assigns = s.assigns ∧
    (∀ cr ∈ (s.removeSatisfied true).learnts,
      (s.removeSatisfied true).satisfied ((s.removeSatisfied true).clauseAt cr) = false) ∧
    (∀ cr ∈ (s.removeSatisfied true).learnts,
      ((s.removeSatisfied true).clauseAt cr).mark = (s.clauseAt cr).mark) ∧
    (∀ j : Nat, ((s.removeSatisfied true).clauseAt j).reloced = (s.clauseAt j).reloced) ∧
    (∀ j : Nat, j ∉ s.learnts → (s.removeSatisfied true).clauseAt j = s.clauseAt j) ∧
    (∀ cr ∈ (s.removeSatisfied true).learnts, cr ∈ s.learnts) ∧
    (s.removeSatisfied true).clauses = s.clauses ∧
    (s.removeSatisfied true).remove_satisfied = s.remove_satisfied := by
  obtain ⟨k1, k2, k3, k4, k5, k6, k7, _, k9⟩ :=
    removeSatFold s s.learnts s.learnts s [] _ rfl rfl
      (fun cr hcr => absurd hcr (List.not_mem_nil cr))
      (fun cr hcr => absurd hcr (List.not_mem_nil cr))
      hnd
      (fun cr hcr => absurd hcr (List.not_mem_nil cr))
      (fun j => rfl) (fun cr h => h) (fun j _ => rfl) (fun cr _ => rfl)
  refine ⟨k1, k2, k3, k4, k5, ?_, k7, k9⟩
  intro cr hcr
  rcases k6 cr hcr with hk | hk
  · exact absurd hk (List.not_mem_nil cr)
  · exact hk

/-- The original-clause sweep `removeSatisfied(clauses)`: afterwards no
reference left in `clauses` is satisfied; learnt references, marks of
kept records, forwarding pointers, the assignment and records outside
`clauses` are untouched. -/
theorem removeSatisfiedC_spec (s : Solver) (hnd : s.clauses.Nodup) :
    (s.removeSatisfied false).assigns = s.assigns ∧
    (∀ cr ∈ (s.removeSatisfied false).clauses,
      (s.removeSatisfied false).satisfied ((s.removeSatisfied false).clauseAt cr) = false) ∧
    (∀ cr ∈ (s.removeSatisfied false).clauses,
      ((s.removeSatisfied false).clauseAt cr).mark = (s.clauseAt cr).mark) ∧
    (∀ j : Nat, ((s.removeSatisfied false).clauseAt j).reloced = (s.clauseAt j).reloced) ∧
    (∀ j : Nat, j ∉ s.clauses → (s.removeSatisfied false).clauseAt j = s.clauseAt j) ∧
    (∀ cr ∈ (s.removeSatisfied false).clauses, cr ∈ s.clauses) ∧
    (s.removeSatisfied false).learnts = s.learnts ∧
    (s.removeSatisfied false).remove_satisfied = s.remove_satisfied := by
  obtain ⟨k1, k2, k3, k4, k5, k6, _, k8, k9⟩ :=
    removeSatFold s s.clauses s.clauses s [] _ rfl rfl
      (fun cr hcr => absurd hcr (List.not_mem_nil cr))
      (fun cr hcr => absurd hcr (List.not_mem_nil cr))
      hnd
      (fun cr hcr => absurd hcr (List.not_mem_nil cr))
      (fun j => rfl) (fun cr h => h) (fun j _ => rfl) (fun cr _ => rfl)
  refine ⟨k1, k2, k3, k4, k5, ?_, k8, k9⟩
  intro cr hcr
  rcases k6 cr hcr with hk | hk
  · exact absurd hk (List.not_mem_nil cr)
  · exact hk

/-- A `seen`-marker fold touches neither the arena, the assignment nor
the reference lists. -/
theorem seenFold_frame (l : List Var) (k : Nat) (base : Solver) :
    (l.foldl (fun (s : Solver) v => { s with seen := s.seen.set v k }) base).ca = base.ca ∧
    (l.foldl (fun (s : Solver) v => { s with seen := s.seen.set v k }) base).assigns = base.assigns ∧
    (l.foldl (fun (s : Solver) v => { s with seen := s.seen.set v k }) base).learnts = base.learnts ∧
    (l.foldl (fun (s : Solver) v => { s with seen := s.seen.set v k }) base).clauses = base.clauses := by
  refine foldl_inv
    (fun (s2 : Solver) => s2.ca = base.ca ∧ s2.assigns = base.assigns ∧
      s2.learnts = base.learnts ∧ s2.clauses = base.clauses) _ ?_ _ _ ⟨rfl, rfl, rfl, rfl⟩
  exact fun s2 v h => h

/-- The release bookkeeping of `simplify` touches neither the arena, the
assignment nor the reference lists beyond its opening
`removeSatisfied(clauses)` sweep. -/
theorem simplifyRelease_frame (x : Solver) :
    x.simplifyRelease.ca = (x.removeSatisfied false).ca ∧
    x.simplifyRelease.assigns = (x.removeSatisfied false).assigns ∧
    x.simplifyRelease.learnts = (x.removeSatisfied false).learnts ∧
    x.simplifyRelease.clauses = (x.removeSatisfied false).clauses := by
  refine ⟨?_, ?_, ?_, ?_⟩
  · show x.simplifyRelease.ca = _
    unfold simplifyRelease
    dsimp only
    rw [(seenFold_frame _ 0 _).1]
    dsimp only
    rw [(seenFold_frame _ 1 _).1]
  · show x.simplifyRelease.assigns = _
    unfold simplifyRelease
    dsimp only
    rw [(seenFold_frame _ 0 _).2.1]
    dsimp only
    rw [(seenFold_frame _ 1 _).2.1]
  · show x.simplifyRelease.learnts = _
    unfold simplifyRelease
    dsimp only
    rw [(seenFold_frame _ 0 _).2.2.1]
    dsimp only
    rw [(seenFold_frame _ 1 _).2.2.1]
  · show x.simplifyRelease.clauses = _
    unfold simplifyRelease
    dsimp only
    rw [(seenFold_frame _ 0 _).2.2.2]
    dsimp only
    rw [(seenFold_frame _ 1 _).2.2.2]

/-- The removal tail of `simplify` establishes the level-0 postcondition:
after `simplifyBody` no learnt reference is satisfied, and no original
clause reference either when `remove_satisfied` is on.  The structural
hypotheses (duplicate-free disjoint reference lists, unmarked live
records, no pending forwarding pointers) are invariants of every
reachable solver state. -/
theorem simplifyBody_sat (s2 : Solver)
    (hndL : s2.learnts.Nodup) (hndC : s2.clauses.Nodup)
    (hdisj : ∀ cr ∈ s2.learnts, cr ∉ s2.clauses)
    (hmL : ∀ cr ∈ s2.learnts, (s2.clauseAt cr).mark = 0)
    (hmC : ∀ cr ∈ s2.clauses, (s2.clauseAt cr).mark = 0)
    (hrel : ∀ j : Nat, (s2.clauseAt j).reloced = none) :
    (∀ cr ∈ s2.simplifyBody.learnts,
      s2.simplifyBody.satisfied (s2.simplifyBody.clauseAt cr) = false) ∧
    (s2.remove_satisfied = true →
      ∀ cr ∈ s2.simplifyBody.clauses,
        s2.simplifyBody.satisfied (s2.simplifyBody.clauseAt cr) = false) := by
  obtain ⟨La, Lsat, Lmark, Lrel, Lun, Lsub, Lcl, Lrs⟩ := removeSatisfiedL_spec s2 hndL
  have hL_markL : ∀ cr ∈ (s2.removeSatisfied true).learnts,
      ((s2.removeSatisfied true).clauseAt cr).mark = 0 :=
    fun cr h => (Lmark cr h).trans (hmL cr (Lsub cr h))
  have hL_untC : ∀ cr ∈ s2.clauses,
      (s2.removeSatisfied true).clauseAt cr = s2.clauseAt cr :=
    fun cr h => Lun cr (fun hl => hdisj cr hl h)
  have hL_markC : ∀ cr ∈ (s2.removeSatisfied true).clauses,
      ((s2.removeSatisfied true).clauseAt cr).mark = 0 := by
    intro cr h
    rw [Lcl] at h
    rw [hL_untC cr h]
    exact hmC cr h
  have hL_rel : ∀ j : Nat, ((s2.removeSatisfied true).clauseAt j).reloced = none :=
    fun j => (Lrel j).trans (hrel j)
  by_cases hrs : s2.remove_satisfied = true
  · have hcond : (s2.removeSatisfied true).remove_satisfied = true := by
      rw [Lrs]
      exact hrs
    obtain ⟨Fca, Fas, Fle, Fcl⟩ := simplifyRelease_frame (s2.removeSatisfied true)
    have hndC2 : (s2.removeSatisfied true).clauses.Nodup := by
      rw [Lcl]
      exact hndC
    obtain ⟨Ca, Csat, Cmark, Crel, Cun, Csub, Cle, Crs⟩ :=
      removeSatisfiedC_spec (s2.removeSatisfied true) hndC2
    have hC_untL : ∀ cr ∈ (s2.removeSatisfied true).learnts,
        ((s2.removeSatisfied true).removeSatisfied false).clauseAt cr
          = (s2.removeSatisfied true).clauseAt cr := by
      intro cr h
      refine Cun cr ?_
      rw [Lcl]
      exact fun hc => hdisj cr (Lsub cr h) hc
    have hC_satL : ∀ cr ∈ (s2.removeSatisfied true).learnts,
        ((s2.removeSatisfied true).removeSatisfied false).satisfied
          (((s2.removeSatisfied true).removeSatisfied false).clauseAt cr) = false := by
      intro cr h
      rw [hC_untL cr h, satisfied_congr _ _ Ca]
      exact Lsat cr h
    have hC_markL : ∀ cr ∈ (s2.removeSatisfied true).learnts,
        (((s2.removeSatisfied true).removeSatisfied false).clauseAt cr).mark = 0 := by
      intro cr h
      rw [hC_untL cr h]
      exact hL_markL cr h
    have hC_markC : ∀ cr ∈ ((s2.removeSatisfied true).removeSatisfied false).clauses,
        (((s2.removeSatisfied true).removeSatisfied false).clauseAt cr).mark = 0 :=
      fun cr h => (Cmark cr h).trans (hL_markC cr (Csub cr h))
    have hC_rel : ∀ j : Nat,
        (((s2.removeSatisfied true).removeSatisfied false).clauseAt j).reloced = none :=
      fun j => (Crel j).trans (hL_rel j)
    have hX_cl : ∀ j : Nat, ((s2.removeSatisfied true).simplifyRelease).clauseAt j
        = ((s2.removeSatisfied true).removeSatisfied false).clauseAt j := by
      intro j
      unfold clauseAt
      rw [Fca]
    have hX_satL : ∀ cr ∈ ((s2.removeSatisfied true).simplifyRelease).learnts,
        ((s2.removeSatisfied true).simplifyRelease).satisfied
          (((s2.removeSatisfied true).simplifyRelease).clauseAt cr) = false := by
      intro cr h
      rw [Fle, Cle] at h
      rw [hX_cl cr, satisfied_congr _ _ Fas]
      exact hC_satL cr h
    have hX_satC : ∀ cr ∈ ((s2.removeSatisfied true).simplifyRelease).clauses,
        ((s2.removeSatisfied true).simplifyRelease).satisfied
          (((s2.removeSatisfied true).simplifyRelease).clauseAt cr) = false := by
      intro cr h
      rw [Fcl] at h
      rw [hX_cl cr, satisfied_congr _ _ Fas]
      exact Csat cr h
    have hX_markL : ∀ cr ∈ ((s2.removeSatisfied true).simplifyRelease).learnts,
        (((s2.removeSatisfied true).simplifyRelease).clauseAt cr).mark = 0 := by
      intro cr h
      rw [Fle, Cle] at h
      rw [hX_cl cr]
      exact hC_markL cr h
    have hX_markC : ∀ cr ∈ ((s2.removeSatisfied true).simplifyRelease).clauses,
        (((s2.removeSatisfied true).simplifyRelease).clauseAt cr).mark = 0 := by
      intro cr h
      rw [Fcl] at h
      rw [hX_cl cr]
      exact hC_markC cr h
    have hX_rel : ∀ j : Nat,
        (((s2.removeSatisfied true).simplifyRelease).clauseAt j).reloced = none := by
      intro j
      rw [hX_cl j]
      exact hC_rel j
    obtain ⟨Ga, GFL, GFC⟩ :=
      checkGarbage_content ((s2.removeSatisfied true).simplifyRelease) hX_rel hX_markL hX_markC
    have hG_satL := satisfied_transfer ((s2.removeSatisfied true).simplifyRelease)
      (((s2.removeSatisfied true).simplifyRelease).checkGarbage)
      ((s2.removeSatisfied true).simplifyRelease).learnts
      (((s2.removeSatisfied true).simplifyRelease).checkGarbage).learnts Ga GFL hX_satL
    have hG_satC := satisfied_transfer ((s2.removeSatisfied true).simplifyRelease)
      (((s2.removeSatisfied true).simplifyRelease).checkGarbage)
      ((s2.removeSatisfied true).simplifyRelease).clauses
      (((s2.removeSatisfied true).simplifyRelease).checkGarbage).clauses Ga GFC hX_satC
    unfold simplifyBody
    dsimp only
    rw [if_pos hcond]
    exact ⟨hG_satL, fun _ => hG_satC⟩
  · have hcond : ¬((s2.removeSatisfied true).remove_satisfied = true) := by
      rw [Lrs]
      exact hrs
    obtain ⟨Ga, GFL, GFC⟩ :=
      checkGarbage_content (s2.removeSatisfied true) hL_rel hL_markL hL_markC
    have hG_satL := satisfied_transfer (s2.removeSatisfied true)
      ((s2.removeSatisfied true).checkGarbage)
      (s2.removeSatisfied true).learnts
      ((s2.removeSatisfied true).checkGarbage).learnts Ga GFL Lsat
    unfold simplifyBody
    dsimp only
    rw [if_neg hcond]
    exact ⟨hG_satL, fun hc => absurd hc hrs⟩

/-- C6 (amended): on a run of `simplify` at decision level 0 that
actually reaches the removal passes — the propagation raises no conflict
and the heuristic early exit does not fire — the returned state carries
no satisfied clause in `learnts`, and none in `clauses` either when
`remove_satisfied` is on; this holds through the whole tail, including
the trail compaction of the release bookkeeping and the garbage
collector's arena relocation.  The structural side conditions
(duplicate-free disjoint reference lists, live records unmarked, no
pending forwarding pointers) are invariants of every reachable solver
state.  The unconditional claim over every `simplify` call returning
true is refuted by `c6_simplify_counterexample`: the early exit (taken
when `nAssigns() == simpDB_assigns` or `simpDB_props > 0`) returns true
without sweeping, and when `remove_satisfied` is off the original
clauses are likewise never swept. -/
theorem c6_simplify_amended (fuel : Nat) (s s2 : Solver)
    (hlvl : s.decisionLevel = 0)
    (hok : ¬(s.ok = false))
    (hp : propagate fuel s = some (none, s2))
    (hne : ¬((s2.nAssigns : Int) = s2.simpDB_assigns ∨ s2.simpDB_props > 0))
    (hndL : s2.learnts.Nodup) (hndC : s2.clauses.Nodup)
    (hdisj : ∀ cr ∈ s2.learnts, cr ∉ s2.clauses)
    (hmL : ∀ cr ∈ s2.learnts, (s2.clauseAt cr).mark = 0)
    (hmC : ∀ cr ∈ s2.clauses, (s2.clauseAt cr).mark = 0)
    (hrel : ∀ j : Nat, (s2.clauseAt j).reloced = none) :
    simplify fuel s = some (true, s2.simplifyBody) ∧
    (∀ cr ∈ s2.simplifyBody.learnts,
      s2.simplifyBody.satisfied (s2.simplifyBody.clauseAt cr) = false) ∧
    (s2.remove_satisfied = true →
      ∀ cr ∈ s2.simplifyBody.clauses,
        s2.simplifyBody.satisfied (s2.simplifyBody.clauseAt cr) = false) := by
  refine ⟨?_, (simplifyBody_sat s2 hndL hndC hdisj hmL hmC hrel).1,
    (simplifyBody_sat s2 hndL hndC hdisj hmL hmC hrel).2⟩
  unfold simplify
  rw [if_neg hok, hp]
  show (if (none : Option Nat) ≠ none then some (false, { s2 with ok := false })
    else if (s2.nAssigns : Int) = s2.simpDB_assigns ∨ s2.simpDB_props > 0 then
      some (true, s2)
    else some (true, s2.simplifyBody)) = some (true, s2.simplifyBody)
  rw [if_neg (fun hh => hh rfl), if_neg hne]

/-- Witness for C6's amended theorem: on `W7` the removal passes really
run and really sweep — `W7p` holds the non-empty lists
`learnts = [2]` and `clauses = [0, 1]`, `remove_satisfied` is on, the
satisfied unit clause `x0` is removed, and the returned state satisfies
the postcondition on both lists. -/
theorem c6_simplify_amended_witness :
    W7.decisionLevel = 0 ∧ ¬(W7.ok = false) ∧
    propagate 1 W7 = some (none, W7p) ∧
    ¬((W7p.nAssigns : Int) = W7p.simpDB_assigns ∨ W7p.simpDB_props > 0) ∧
    W7p.learnts.Nodup ∧ W7p.clauses.Nodup ∧
    (∀ cr ∈ W7p.learnts, cr ∉ W7p.clauses) ∧
    (∀ cr ∈ W7p.learnts, (W7p.clauseAt cr).mark = 0) ∧
    (∀ cr ∈ W7p.clauses, (W7p.clauseAt cr).mark = 0) ∧
    (∀ j : Nat, (W7p.clauseAt j).reloced = none) ∧
    W7p.learnts = [2] ∧ W7p.clauses = [0, 1] ∧ W7p.remove_satisfied = true ∧
    (simplify 1 W7 = some (true, W7p.simplifyBody) ∧
      (∀ cr ∈ W7p.simplifyBody.learnts,
        W7p.simplifyBody.satisfied (W7p.simplifyBody.clauseAt cr) = false) ∧
      (W7p.remove_satisfied = true →
        ∀ cr ∈ W7p.simplifyBody.clauses,
          W7p.simplifyBody.satisfied (W7p.simplifyBody.clauseAt cr) = false)) := by
  have hrel7 : ∀ j : Nat, (W7p.clauseAt j).reloced = none := by
    intro j
    match j with
    | 0 => rfl
    | 1 => rfl
    | 2 => rfl
    | n + 3 => rfl
  refine ⟨by decide, by decide, rfl, by decide, by decide, by decide, by decide,
    by decide, by decide, hrel7, by decide, by decide, by decide, ?_⟩
  exact c6_simplify_amended 1 W7 W7p (by decide) (by decide) rfl (by decide)
    (by decide) (by decide) (by decide) (by decide) (by decide) hrel7

/-- C6 (counterexample to the claim as stated): `W6` sits at decision
level 0 and holds the satisfied clause `x0`, yet `simplify` returns true
— its `simpDB_props > 0` heuristic exits before any removal pass — and
the satisfied clause is still referenced from `clauses`. -/
theorem c6_simplify_counterexample :
    W6.decisionLevel = 0 ∧
    simplify 1 W6 = some (true, W6p) ∧
    0 ∈ W6p.clauses ∧
    W6p.satisfied (W6p.clauseAt 0) = true := by
  refine ⟨rfl, rfl, ?_, ?_⟩
  · decide
  · decide

end Solver

end MinisatViz
